import Mathlib

/-!
Verification of the `boyfriend` middle end: the brainf*ck → IR lowering
(`compile`), the two optimization passes (`optimize_pass_1`, `optimize_pass_2`
in `src/ir.rs`), the chunked sequence container (`src/chunk_list.rs`) and the
IR interpreter (`interpret` in `src/ir.rs`, whose per-instruction arms agree
with `src/interpret.rs`).

Machine integers are embedded as `Nat`/`Int` with explicit wrap-around:
 * `i8` arithmetic wraps into `[-128, 127]` (`i8Wrap`); Rust release builds
   wrap on overflow, which is also the abstract-machine contract of the spec.
 * `isize` arithmetic wraps modulo `2 ^ 64` (`isizeWrap`).
 * the tape pointer is a `usize` masked with `0xffff` after every move
   (`wrapPtr`), cells are `u8` (`wrapCell`).

The optimizer passes operate on the chunked container through `len`,
`Index`/`IndexMut` and `remove`.  Those operations are proven below
(`ChunkList` section) to agree with plain list indexing, `List.set` and
`List.eraseIdx` on the concatenation of the buckets, so the passes are
embedded directly as list programs using exactly those primitives.
-/

namespace Boyfriend

/-- Wrap an unbounded integer into the `i8` range, as Rust release-mode
`i8` addition does (two's complement). -/
def i8Wrap (x : Int) : Int := (x + 128) % 256 - 128

/-- Wrap an unbounded integer into the `isize` (64-bit) range. -/
def isizeWrap (x : Int) : Int := (x + 2 ^ 63) % 2 ^ 64 - 2 ^ 63

/-- `amount as u8` on an `i8` value: reinterpret modulo 256. -/
def toU8 (a : Int) : Nat := (a % 256).toNat

/-- The IR instruction set of `src/ir.rs` (enum `IR`).  `shift` carries the
`isize` payload, `arithmetic` and `multiply.amount` the `i8` payload, both
embedded as `Int`. -/
inductive IR where
  | shift (amount : Int)
  | arithmetic (amount : Int)
  | loopStart
  | loopEnd
  | input
  | output
  | zero
  | multiply (amount : Int) (output_offset : Int)
  | move (output_offset : Int)
  | anchorRight
  | anchorLeft
deriving DecidableEq, Repr, Inhabited

/-- One character of `compile`'s match: the eight instruction characters map
to primitive IR, everything else is a comment. -/
def compileChar (c : Char) : List IR :=
  match c with
  | '>' => [.shift 1]
  | '<' => [.shift (-1)]
  | '+' => [.arithmetic 1]
  | '-' => [.arithmetic (-1)]
  | '[' => [.loopStart]
  | ']' => [.loopEnd]
  | ',' => [.input]
  | '.' => [.output]
  | _ => []

/-- `compile` of `src/ir.rs:51`: lower source text to primitive IR. -/
def compile : List Char → List IR
  | [] => []
  | c :: rest => compileChar c ++ compile rest

/-- The instruction at index `i` (`ir[i]`); the default is irrelevant, every
use is guarded by a bounds check as in the source. -/
def instAt (l : List IR) (i : Nat) : IR := l.getD i IR.input

theorem length_eraseIdx_of_lt {α : Type} :
    ∀ (l : List α) (i : Nat), i < l.length → (l.eraseIdx i).length = l.length - 1
  | _ :: _, 0, _ => by simp [List.eraseIdx]
  | x :: l, i + 1, h => by
      have ih := length_eraseIdx_of_lt l i (by simpa using h)
      have : i < l.length := by simpa using h
      simp only [List.eraseIdx, List.length_cons, ih]
      omega

theorem length_eraseIdx_le {α : Type} (l : List α) (i : Nat) :
    (l.eraseIdx i).length ≤ l.length := by
  simp only [List.length_eraseIdx]
  split <;> omega

/-- The loop body of `optimize_pass_1` (`src/ir.rs:72`): examine the pair
`(ir[idx], ir[idx+1])`; fuse two shifts (removing the second), fuse two
arithmetics when the wrapped sum is `< i8::MAX` (removing the second, and
also the first when the sum is zero), otherwise advance the cursor.
Removals are applied in descending index order, as in the source. -/
def pass1Go (ir : List IR) (idx : Nat) : List IR :=
  if _h : idx + 1 < ir.length then
    match instAt ir idx, instAt ir (idx + 1) with
    | .shift a1, .shift a2 =>
        pass1Go ((ir.set idx (.shift (isizeWrap (a1 + a2)))).eraseIdx (idx + 1)) idx
    | .arithmetic a1, .arithmetic a2 =>
        if i8Wrap (a1 + a2) < 127 then
          if i8Wrap (a1 + a2) = 0 then
            pass1Go (((ir.set idx (.arithmetic (i8Wrap (a1 + a2)))).eraseIdx (idx + 1)).eraseIdx idx) idx
          else
            pass1Go ((ir.set idx (.arithmetic (i8Wrap (a1 + a2)))).eraseIdx (idx + 1)) idx
        else
          pass1Go ir (idx + 1)
    | _, _ => pass1Go ir (idx + 1)
  else
    ir
termination_by ir.length - idx
decreasing_by
  · have h1 : ((ir.set idx (IR.shift (isizeWrap (a1 + a2)))).eraseIdx (idx + 1)).length
        = ir.length - 1 := by
      rw [length_eraseIdx_of_lt]
      · rw [List.length_set]
      · rw [List.length_set]
        exact _h
    omega
  · have h1 : (((ir.set idx (IR.arithmetic (i8Wrap (a1 + a2)))).eraseIdx (idx + 1)).eraseIdx
        idx).length = ir.length - 2 := by
      rw [length_eraseIdx_of_lt, length_eraseIdx_of_lt]
      · rw [List.length_set]
        omega
      · rw [List.length_set]
        exact _h
      · rw [length_eraseIdx_of_lt, List.length_set]
        · omega
        · rw [List.length_set]
          exact _h
    omega
  · have h1 : ((ir.set idx (IR.arithmetic (i8Wrap (a1 + a2)))).eraseIdx (idx + 1)).length
        = ir.length - 1 := by
      rw [length_eraseIdx_of_lt]
      · rw [List.length_set]
      · rw [List.length_set]
        exact _h
    omega
  all_goals omega

/-- `optimize_pass_1` of `src/ir.rs:72` (run fusion). -/
def optimize_pass_1 (ir : List IR) : List IR := pass1Go ir 0

/-- The six-element window check of `optimize_pass_2` (`src/ir.rs:118-147`):
the `Move` arm is tried first, then the `Multiply` arm (Rust match arms in
order, guard failure falls through). -/
def step6 (ir : List IR) (idx : Nat) : List IR :=
  if idx + 5 < ir.length then
    match instAt ir idx, instAt ir (idx + 1), instAt ir (idx + 2),
          instAt ir (idx + 3), instAt ir (idx + 4), instAt ir (idx + 5) with
    | .loopStart, .shift o1, .arithmetic a1, .shift o2, .arithmetic a2, .loopEnd =>
        if a1 = 1 ∧ a2 = -1 ∧ o1 = -o2 then
          (((((ir.set idx (.move o1)).eraseIdx (idx + 5)).eraseIdx (idx + 4)).eraseIdx
              (idx + 3)).eraseIdx (idx + 2)).eraseIdx (idx + 1)
        else if 0 ≤ a1 ∧ a2 = -1 ∧ o1 = -o2 then
          (((((ir.set idx (.multiply a1 o1)).eraseIdx (idx + 5)).eraseIdx (idx + 4)).eraseIdx
              (idx + 3)).eraseIdx (idx + 2)).eraseIdx (idx + 1)
        else ir
    | _, _, _, _, _, _ => ir
  else ir

/-- The five-element window check of `optimize_pass_2` (`src/ir.rs:148-165`):
the anchor idiom. -/
def step5 (ir : List IR) (idx : Nat) : List IR :=
  if idx + 4 < ir.length then
    match instAt ir idx, instAt ir (idx + 1), instAt ir (idx + 2),
          instAt ir (idx + 3), instAt ir (idx + 4) with
    | .loopStart, .arithmetic am, .shift dir, .arithmetic a1, .loopEnd =>
        if am = -1 ∧ a1 = 1 ∧ (dir = 1 ∨ dir = -1) then
          ((((ir.set idx (if dir = 1 then .anchorRight else .anchorLeft)).eraseIdx
              (idx + 4)).eraseIdx (idx + 3)).eraseIdx (idx + 2)).eraseIdx (idx + 1)
        else ir
    | _, _, _, _, _ => ir
  else ir

/-- The three-element window check of `optimize_pass_2` (`src/ir.rs:166-176`):
the `Zero` idiom, matching any arithmetic payload. -/
def step3 (ir : List IR) (idx : Nat) : List IR :=
  if idx + 2 < ir.length then
    match instAt ir idx, instAt ir (idx + 1), instAt ir (idx + 2) with
    | .loopStart, .arithmetic _, .loopEnd =>
        ((ir.set idx .zero).eraseIdx (idx + 2)).eraseIdx (idx + 1)
    | _, _, _ => ir
  else ir

theorem step6_length_le (ir : List IR) (idx : Nat) : (step6 ir idx).length ≤ ir.length := by
  unfold step6
  split
  · split
    · split
      · refine le_trans (length_eraseIdx_le _ _) (le_trans (length_eraseIdx_le _ _)
          (le_trans (length_eraseIdx_le _ _) (le_trans (length_eraseIdx_le _ _)
            (le_trans (length_eraseIdx_le _ _) ?_))))
        rw [List.length_set]
      split
      · refine le_trans (length_eraseIdx_le _ _) (le_trans (length_eraseIdx_le _ _)
          (le_trans (length_eraseIdx_le _ _) (le_trans (length_eraseIdx_le _ _)
            (le_trans (length_eraseIdx_le _ _) ?_))))
        rw [List.length_set]
      · exact le_refl _
    all_goals exact le_refl _
  · exact le_refl _

theorem step5_length_le (ir : List IR) (idx : Nat) : (step5 ir idx).length ≤ ir.length := by
  unfold step5
  split
  · split
    · split
      · refine le_trans (length_eraseIdx_le _ _) (le_trans (length_eraseIdx_le _ _)
          (le_trans (length_eraseIdx_le _ _) (le_trans (length_eraseIdx_le _ _) ?_)))
        rw [List.length_set]
      · exact le_refl _
    all_goals exact le_refl _
  · exact le_refl _

theorem step3_length_le (ir : List IR) (idx : Nat) : (step3 ir idx).length ≤ ir.length := by
  unfold step3
  split
  · split
    · refine le_trans (length_eraseIdx_le _ _) (le_trans (length_eraseIdx_le _ _) ?_)
      rw [List.length_set]
    · exact le_refl _
  · exact le_refl _

/-- The cursor loop of `optimize_pass_2` (`src/ir.rs:117-179`): at each
position run the three window checks in order on the current sequence, then
advance by one. -/
def pass2Go (ir : List IR) (idx : Nat) : List IR :=
  if _h : idx < ir.length then
    pass2Go (step3 (step5 (step6 ir idx) idx) idx) (idx + 1)
  else ir
termination_by ir.length - idx
decreasing_by
  have h6 := step6_length_le ir idx
  have h5 := step5_length_le (step6 ir idx) idx
  have h3 := step3_length_le (step5 (step6 ir idx) idx) idx
  omega

/-- `optimize_pass_2` of `src/ir.rs:111` (idiom recognition). -/
def optimize_pass_2 (ir : List IR) : List IR := pass2Go ir 0

/-! ## The chunked sequence container (`src/chunk_list.rs`) -/

/-- `chunk_me.chunks(chunk_size)`: split a list into consecutive buckets of at
most `k` elements.  As in Rust, the behavior is only specified for `k > 0`
(`Vec::chunks` panics on zero). -/
def chunksOf {α : Type} (k : Nat) : List α → List (List α)
  | [] => []
  | x :: rest => ((x :: rest).take k) :: chunksOf k (rest.drop (k - 1))
termination_by l => l.length
decreasing_by
  simp only [List.length_drop, List.length_cons]
  omega

/-- `ChunkList<T>`: a vector of vectors. -/
structure ChunkList (α : Type) where
  chunks : List (List α)

namespace ChunkList

/-- `ChunkList::new`. -/
def new {α : Type} (chunk_me : List α) (chunk_size : Nat) : ChunkList α :=
  ⟨chunksOf chunk_size chunk_me⟩

/-- `get_real_index`: walk the buckets, subtracting bucket lengths until the
residual index falls inside a bucket; returns (bucket number, inner index). -/
def realIndex {α : Type} : List (List α) → Nat → Nat × Nat
  | [], i => (0, i)
  | ch :: rest, i =>
      if ch.length ≤ i then
        let p := realIndex rest (i - ch.length)
        (p.1 + 1, p.2)
      else (0, i)

/-- `len()`: sum of bucket lengths. -/
def len {α : Type} (cl : ChunkList α) : Nat := (cl.chunks.map List.length).sum

/-- The logical sequence: concatenation of the buckets. -/
def toList {α : Type} (cl : ChunkList α) : List α := cl.chunks.flatten

/-- The `Index` impl: `self.chunks[chunk_number][index]`.  `none` models the
out-of-bounds panic of the two `Vec` indexings. -/
def index? {α : Type} (cl : ChunkList α) (i : Nat) : Option α :=
  let p := realIndex cl.chunks i
  match cl.chunks.get? p.1 with
  | some ch => ch.get? p.2
  | none => none

/-- `remove`: remove in-bucket, dropping the bucket if it becomes empty.
`none` models the panic of `Vec::remove` past the end. -/
def remove? {α : Type} (cl : ChunkList α) (i : Nat) : Option (ChunkList α) :=
  let p := realIndex cl.chunks i
  match cl.chunks.get? p.1 with
  | none => none
  | some ch =>
      if p.2 < ch.length then
        let ch2 := ch.eraseIdx p.2
        some ⟨if ch2.isEmpty then cl.chunks.eraseIdx p.1 else cl.chunks.set p.1 ch2⟩
      else none

end ChunkList

/-! ## The interpreter (`interpret` in `src/ir.rs:455`)

The per-instruction arms coincide with `src/interpret.rs`; the differences
between the two snapshots are confined to loop bookkeeping (`src/ir.rs` scans
for the matching bracket with a counter and keeps a `loop_stack`, which is
what is embedded here) and to the form in which failures surface (both report
a read failure on EOF and a dedicated infinite-loop diagnostic on an
exhausted anchor scan; `src/interpret.rs` returns them as errors, which is
how `Err` models them). -/

/-- The tape size: `vec![0u8; 0x10000]`. -/
def tapeLen : Nat := 65536

/-- `ptr.overflowing_add_signed(amount).0 & 0xffff`: 64-bit wrap followed by
the mask, which equals reduction modulo `2 ^ 16` because `2 ^ 16 ∣ 2 ^ 64`. -/
def wrapPtr (p : Nat) (a : Int) : Nat := (((p : Int) + a) % 65536).toNat

/-- `u8::overflowing_add_signed`: cell arithmetic modulo 256. -/
def wrapCell (v : Nat) (a : Int) : Nat := (((v : Int) + a) % 256).toNat

/-- Point update of the tape (`memory[i] = v`). -/
def upd (t : Nat → Nat) (i v : Nat) : Nat → Nat := fun j => if j = i then v else t j

/-- The guest machine: tape, pointer, remaining stdin bytes, emitted stdout
bytes. -/
structure Machine where
  tape : Nat → Nat
  ptr : Nat
  inp : List (Fin 256)
  out : List Nat

/-- Interpreter state: instruction pointer, `loop_stack`, machine. -/
structure Config where
  ip : Nat
  stack : List Nat
  mach : Machine

/-- The interpreter's failure modes. -/
inductive Err where
  | unmatchedOpen
  | mismatchedClose
  | readFail
  | infiniteLoop
deriving DecidableEq, Repr

/-- `memchr(b, &t[start .. start + len])`, returning the absolute index of
the first occurrence. -/
def memchrFrom (t : Nat → Nat) (b : Nat) : Nat → Nat → Option Nat
  | _, 0 => none
  | start, len + 1 => if t start = b then some start else memchrFrom t b (start + 1) len

/-- `memrchr(b, &t[start .. start + len])`, returning the absolute index of
the last occurrence. -/
def memrchrFrom (t : Nat → Nat) (b : Nat) : Nat → Nat → Option Nat
  | _, 0 => none
  | start, len + 1 =>
      match memrchrFrom t b (start + 1) len with
      | some j => some j
      | none => if t start = b then some start else none

/-- The `AnchorRight` scan: `memchr(255, &memory[ptr..])` and on failure
`memchr(255, &memory)`. -/
def scanRight (t : Nat → Nat) (p : Nat) : Option Nat :=
  match memchrFrom t 255 p (tapeLen - p) with
  | some j => some j
  | none => memchrFrom t 255 0 tapeLen

/-- The `AnchorLeft` scan: `memrchr(255, &memory[..ptr])` and on failure
`memrchr(255, &memory[ptr..])`. -/
def scanLeft (t : Nat → Nat) (p : Nat) : Option Nat :=
  match memrchrFrom t 255 0 p with
  | some j => some j
  | none => memrchrFrom t 255 p (tapeLen - p)

/-- The machine effect of every non-bracket instruction (the corresponding
arms of `interpret`; each of these arms falls through to `ip += 1` with the
loop stack untouched, including the zero-cell short-circuit of the anchors).
The bracket arms are dispatched in `step` and never reach this function. -/
def stepInst (inst : IR) (m : Machine) : Except Err Machine :=
  match inst with
  | .shift a => .ok { m with ptr := wrapPtr m.ptr a }
  | .arithmetic a => .ok { m with tape := upd m.tape m.ptr (wrapCell (m.tape m.ptr) a) }
  | .input =>
      match m.inp with
      | [] => .error .readFail
      | b :: rest => .ok { m with tape := upd m.tape m.ptr b.val, inp := rest }
  | .output => .ok { m with out := m.out ++ [m.tape m.ptr] }
  | .zero => .ok { m with tape := upd m.tape m.ptr 0 }
  | .multiply a o =>
      let np := wrapPtr m.ptr o
      .ok { m with tape := upd (upd m.tape np ((m.tape np + (m.tape m.ptr * toU8 a) % 256) % 256)) m.ptr 0 }
  | .move o =>
      let np := wrapPtr m.ptr o
      .ok { m with tape := upd (upd m.tape np ((m.tape np + m.tape m.ptr) % 256)) m.ptr 0 }
  | .anchorRight =>
      if m.tape m.ptr = 0 then .ok m
      else
        let t1 := upd m.tape m.ptr ((m.tape m.ptr + 255) % 256)
        match scanRight t1 m.ptr with
        | some j => .ok { m with tape := upd t1 j 0, ptr := j }
        | none => .error .infiniteLoop
  | .anchorLeft =>
      if m.tape m.ptr = 0 then .ok m
      else
        let t1 := upd m.tape m.ptr ((m.tape m.ptr + 255) % 256)
        match scanLeft t1 m.ptr with
        | some j => .ok { m with tape := upd t1 j 0, ptr := j }
        | none => .error .infiniteLoop
  | .loopStart => .ok m
  | .loopEnd => .ok m

/-- The forward scan of the `LoopStart` arm: from `ipp` with a bracket
counter, find the position where the counter reaches zero.  `none` models
the out-of-bounds panic of `insts[ipp]` when the scan runs past the end. -/
def scanMatch (insts : List IR) (ipp counter : Nat) : Option Nat :=
  if ipp < insts.length then
    match instAt insts ipp with
    | .loopStart => scanMatch insts (ipp + 1) (counter + 1)
    | .loopEnd => if counter = 1 then some ipp else scanMatch insts (ipp + 1) (counter - 1)
    | _ => scanMatch insts (ipp + 1) counter
  else none
termination_by insts.length - ipp

/-- One iteration of the interpreter loop at `c.ip < insts.length`:
`LoopStart` pushes the current index and either falls through (non-zero
cell) or scans forward to the matching `LoopEnd` and continues there;
`LoopEnd` pops, jumping back on a non-zero cell; every other instruction
acts on the machine via `stepInst`. -/
def step (insts : List IR) (c : Config) : Except Err Config :=
  match instAt insts c.ip with
  | .loopStart =>
      if c.mach.tape c.mach.ptr ≠ 0 then .ok ⟨c.ip + 1, c.ip :: c.stack, c.mach⟩
      else
        match scanMatch insts (c.ip + 1) 1 with
        | some j => .ok ⟨j, c.ip :: c.stack, c.mach⟩
        | none => .error .unmatchedOpen
  | .loopEnd =>
      match c.stack with
      | [] => .error .mismatchedClose
      | top :: rest =>
          if c.mach.tape c.mach.ptr ≠ 0 then .ok ⟨top, rest, c.mach⟩
          else .ok ⟨c.ip + 1, rest, c.mach⟩
  | inst =>
      match stepInst inst c.mach with
      | .ok m2 => .ok ⟨c.ip + 1, c.stack, m2⟩
      | .error e => .error e

/-- Fuel-indexed interpreter loop (`while ip < insts.len()`); `none` means
the fuel ran out before the loop exited. -/
def run (insts : List IR) : Nat → Config → Option (Except Err Config)
  | 0, c => if c.ip < insts.length then none else some (.ok c)
  | fuel + 1, c =>
      if c.ip < insts.length then
        match step insts c with
        | .ok c2 => run insts fuel c2
        | .error e => some (.error e)
      else some (.ok c)

/-- The machine at program start: zeroed tape, pointer 0, the given stdin. -/
def initMachine (inp : List (Fin 256)) : Machine := ⟨fun _ => 0, 0, inp, []⟩

/-- The interpreter's starting state. -/
def initConfig (inp : List (Fin 256)) : Config := ⟨0, [], initMachine inp⟩

/-- All tape cells in range are bytes. -/
def tapeGood (t : Nat → Nat) : Prop := ∀ i, i < tapeLen → t i < 256

/-- The program `insts` on stdin `inp` runs to completion with output `o`
and final tape `t`. -/
def Halts (insts : List IR) (inp : List (Fin 256)) (o : List Nat) (t : Nat → Nat) : Prop :=
  ∃ fuel c, run insts fuel (initConfig inp) = some (.ok c) ∧ c.mach.out = o ∧ c.mach.tape = t

/-! ## List surgery lemmas

The splices performed by the passes (`ir[idx] = z` followed by `remove` calls
in descending index order) are rewritten into the take/append/drop normal
form used throughout the proofs. -/

theorem instAt_append_right (A B : List IR) (j : Nat) :
    instAt (A ++ B) (A.length + j) = instAt B j := by
  unfold instAt
  rw [List.getD_eq_getElem?_getD, List.getD_eq_getElem?_getD,
    List.getElem?_append_right (Nat.le_add_right _ _)]
  simp

theorem instAt_append_left (A B : List IR) (j : Nat) (h : j < A.length) :
    instAt (A ++ B) j = instAt A j := by
  unfold instAt
  rw [List.getD_eq_getElem?_getD, List.getD_eq_getElem?_getD, List.getElem?_append]
  simp [h]

theorem eraseIdx_append_shift {α : Type} (A B : List α) (j : Nat) :
    (A ++ B).eraseIdx (A.length + j) = A ++ B.eraseIdx j := by
  induction A with
  | nil => simp
  | cons x A ih => simpa [List.eraseIdx, Nat.succ_add] using ih

theorem drop_cons_instAt (l : List IR) (i : Nat) (h : i < l.length) :
    l.drop i = instAt l i :: l.drop (i + 1) := by
  rw [List.drop_eq_getElem_cons h]
  unfold instAt
  rw [List.getD_eq_getElem l _ h]

/-- Splitting off a helper equation: erasing inside the suffix after
`l.take i`. -/
theorem eraseIdx_after_take (l : List IR) (i : Nat) (hi : i ≤ l.length) (M : List IR)
    (j : Nat) : (l.take i ++ M).eraseIdx (i + j) = l.take i ++ M.eraseIdx j := by
  have h2 := eraseIdx_append_shift (l.take i) M j
  rwa [List.length_take, Nat.min_eq_left hi] at h2

theorem splice1 (l : List IR) (i : Nat) (z : IR) (h : i + 1 < l.length) :
    (l.set i z).eraseIdx (i + 1) = l.take i ++ [z] ++ l.drop (i + 2) := by
  rw [List.set_eq_take_cons_drop z (by omega), drop_cons_instAt l (i + 1) (by omega)]
  have e := eraseIdx_after_take l i (by omega)
  rw [show (z :: (instAt l (i + 1) :: l.drop (i + 2))) = [z, instAt l (i + 1)] ++ l.drop (i + 2) by rfl]
  rw [e ([z, instAt l (i + 1)] ++ l.drop (i + 2)) 1]
  simp [List.eraseIdx]

theorem splice0 (l : List IR) (i : Nat) (z : IR) (h : i + 1 < l.length) :
    ((l.set i z).eraseIdx (i + 1)).eraseIdx i = l.take i ++ l.drop (i + 2) := by
  rw [splice1 l i z h]
  have e := eraseIdx_after_take l i (by omega) ([z] ++ l.drop (i + 2)) 0
  simpa [List.eraseIdx] using e

theorem splice6 (l : List IR) (i : Nat) (z : IR) (h : i + 5 < l.length) :
    (((((l.set i z).eraseIdx (i + 5)).eraseIdx (i + 4)).eraseIdx (i + 3)).eraseIdx
        (i + 2)).eraseIdx (i + 1)
    = l.take i ++ [z] ++ l.drop (i + 6) := by
  rw [List.set_eq_take_cons_drop z (by omega), drop_cons_instAt l (i + 1) (by omega),
    drop_cons_instAt l (i + 2) (by omega), drop_cons_instAt l (i + 3) (by omega),
    drop_cons_instAt l (i + 4) (by omega), drop_cons_instAt l (i + 5) (by omega)]
  have e := eraseIdx_after_take l i (by omega)
  rw [show (z :: (instAt l (i + 1) :: (instAt l (i + 2) :: (instAt l (i + 3) ::
      (instAt l (i + 4) :: (instAt l (i + 5) :: l.drop (i + 6)))))))
    = [z, instAt l (i + 1), instAt l (i + 2), instAt l (i + 3), instAt l (i + 4),
        instAt l (i + 5)] ++ l.drop (i + 6) by rfl]
  rw [e _ 5, e _ 4, e _ 3, e _ 2, e _ 1]
  simp [List.eraseIdx]

theorem splice5 (l : List IR) (i : Nat) (z : IR) (h : i + 4 < l.length) :
    ((((l.set i z).eraseIdx (i + 4)).eraseIdx (i + 3)).eraseIdx (i + 2)).eraseIdx (i + 1)
    = l.take i ++ [z] ++ l.drop (i + 5) := by
  rw [List.set_eq_take_cons_drop z (by omega), drop_cons_instAt l (i + 1) (by omega),
    drop_cons_instAt l (i + 2) (by omega), drop_cons_instAt l (i + 3) (by omega),
    drop_cons_instAt l (i + 4) (by omega)]
  have e := eraseIdx_after_take l i (by omega)
  rw [show (z :: (instAt l (i + 1) :: (instAt l (i + 2) :: (instAt l (i + 3) ::
      (instAt l (i + 4) :: l.drop (i + 5))))))
    = [z, instAt l (i + 1), instAt l (i + 2), instAt l (i + 3), instAt l (i + 4)]
        ++ l.drop (i + 5) by rfl]
  rw [e _ 4, e _ 3, e _ 2, e _ 1]
  simp [List.eraseIdx]

theorem splice3 (l : List IR) (i : Nat) (z : IR) (h : i + 2 < l.length) :
    ((l.set i z).eraseIdx (i + 2)).eraseIdx (i + 1)
    = l.take i ++ [z] ++ l.drop (i + 3) := by
  rw [List.set_eq_take_cons_drop z (by omega), drop_cons_instAt l (i + 1) (by omega),
    drop_cons_instAt l (i + 2) (by omega)]
  have e := eraseIdx_after_take l i (by omega)
  rw [show (z :: (instAt l (i + 1) :: (instAt l (i + 2) :: l.drop (i + 3))))
    = [z, instAt l (i + 1), instAt l (i + 2)] ++ l.drop (i + 3) by rfl]
  rw [e _ 2, e _ 1]
  simp [List.eraseIdx]

theorem window_decomp2 (l : List IR) (i : Nat) (h : i + 1 < l.length) :
    l = l.take i ++ [instAt l i, instAt l (i + 1)] ++ l.drop (i + 2) := by
  conv_lhs => rw [← List.take_append_drop i l]
  rw [drop_cons_instAt l i (by omega), drop_cons_instAt l (i + 1) (by omega)]
  simp

theorem window_decomp3 (l : List IR) (i : Nat) (h : i + 2 < l.length) :
    l = l.take i ++ [instAt l i, instAt l (i + 1), instAt l (i + 2)] ++ l.drop (i + 3) := by
  conv_lhs => rw [← List.take_append_drop i l]
  rw [drop_cons_instAt l i (by omega), drop_cons_instAt l (i + 1) (by omega),
    drop_cons_instAt l (i + 2) (by omega)]
  simp

theorem window_decomp5 (l : List IR) (i : Nat) (h : i + 4 < l.length) :
    l = l.take i ++ [instAt l i, instAt l (i + 1), instAt l (i + 2), instAt l (i + 3),
        instAt l (i + 4)] ++ l.drop (i + 5) := by
  conv_lhs => rw [← List.take_append_drop i l]
  rw [drop_cons_instAt l i (by omega), drop_cons_instAt l (i + 1) (by omega),
    drop_cons_instAt l (i + 2) (by omega), drop_cons_instAt l (i + 3) (by omega),
    drop_cons_instAt l (i + 4) (by omega)]
  simp

theorem window_decomp6 (l : List IR) (i : Nat) (h : i + 5 < l.length) :
    l = l.take i ++ [instAt l i, instAt l (i + 1), instAt l (i + 2), instAt l (i + 3),
        instAt l (i + 4), instAt l (i + 5)] ++ l.drop (i + 6) := by
  conv_lhs => rw [← List.take_append_drop i l]
  rw [drop_cons_instAt l i (by omega), drop_cons_instAt l (i + 1) (by omega),
    drop_cons_instAt l (i + 2) (by omega), drop_cons_instAt l (i + 3) (by omega),
    drop_cons_instAt l (i + 4) (by omega), drop_cons_instAt l (i + 5) (by omega)]
  simp

/-! ## Claims C6 and C7: the `Move` and `Zero` window rewrites -/

/-- C6: whenever pass B's cursor stands on the six-element window
`LoopStart, Shift(+o), Arithmetic(+1), Shift(-o), Arithmetic(-1), LoopEnd`
with the two shifts exactly opposite, the window is replaced by the single
instruction `Move { offset: +o }` — the `Move` arm fires, not the `Multiply`
arm, although the `Multiply` template also matches this window. -/
theorem C6_move_priority (ir : List IR) (idx : Nat) (o : Int)
    (h : idx + 5 < ir.length)
    (h0 : instAt ir idx = .loopStart)
    (h1 : instAt ir (idx + 1) = .shift o)
    (h2 : instAt ir (idx + 2) = .arithmetic 1)
    (h3 : instAt ir (idx + 3) = .shift (-o))
    (h4 : instAt ir (idx + 4) = .arithmetic (-1))
    (h5 : instAt ir (idx + 5) = .loopEnd) :
    step6 ir idx = ir.take idx ++ [IR.move o] ++ ir.drop (idx + 6) := by
  unfold step6
  rw [if_pos h, h0, h1, h2, h3, h4, h5]
  dsimp only
  rw [if_pos (by exact ⟨rfl, rfl, by ring⟩)]
  exact splice6 ir idx (IR.move o) h

/-- C6 witness: a concrete six-element window is rewritten to `Move`. -/
theorem C6_move_priority_witness :
    step6 [IR.loopStart, IR.shift 2, IR.arithmetic 1, IR.shift (-2), IR.arithmetic (-1),
      IR.loopEnd] 0 = [IR.move 2] :=
  C6_move_priority _ 0 2 (by decide) rfl rfl rfl rfl rfl rfl

/-- C7: whenever pass B's cursor stands on the three-element window
`LoopStart, Arithmetic(k), LoopEnd`, for every arithmetic payload `k`, the
window is replaced by the single instruction `Zero`. -/
theorem C7_zero_rewrite (ir : List IR) (idx : Nat) (k : Int)
    (h : idx + 2 < ir.length)
    (h0 : instAt ir idx = .loopStart)
    (h1 : instAt ir (idx + 1) = .arithmetic k)
    (h2 : instAt ir (idx + 2) = .loopEnd) :
    step3 ir idx = ir.take idx ++ [IR.zero] ++ ir.drop (idx + 3) := by
  unfold step3
  rw [if_pos h, h0, h1, h2]
  exact splice3 ir idx IR.zero h

/-- C7 witness: a concrete zero-window (payload 3, neither `+1` nor `-1`)
is rewritten to `Zero`. -/
theorem C7_zero_rewrite_witness :
    step3 [IR.loopStart, IR.arithmetic 3, IR.loopEnd] 0 = [IR.zero] :=
  C7_zero_rewrite _ 0 3 (by decide) rfl rfl rfl

/-! ## Claims C3 and C4: what pass A does and does not guarantee

Pass A's cursor does not re-examine the pair `(ir[idx-1], ir[idx])` after an
arithmetic pair at `idx` cancels to zero and both of its elements are
removed, so a pair of `Shift`s (or of `Arithmetic`s) can become adjacent in
the final output.  `>+-<` exhibits this; pass A is therefore not idempotent
either. -/

theorem pass1_example_eval : optimize_pass_1 (compile ">+-<".data)
    = [IR.shift 1, IR.shift (-1)] := by
  rw [optimize_pass_1]
  rw [show compile ">+-<".data
      = [IR.shift 1, IR.arithmetic 1, IR.arithmetic (-1), IR.shift (-1)] from rfl]
  rw [pass1Go]
  norm_num [instAt, i8Wrap]
  rw [pass1Go]
  norm_num [instAt, i8Wrap, List.set, List.eraseIdx]
  rw [pass1Go]
  norm_num

theorem pass1_example_eval2 : optimize_pass_1 [IR.shift 1, IR.shift (-1)]
    = [IR.shift 0] := by
  rw [optimize_pass_1]
  rw [pass1Go]
  norm_num [instAt, isizeWrap, List.set, List.eraseIdx]
  rw [pass1Go]
  norm_num

/-- C3 counterexample: on the parsed program `>+-<`, pass A's output is
`[Shift 1, Shift (-1)]`, which contains two adjacent `Shift` instructions,
contradicting the claimed invariant. -/
theorem C3_counterexample :
    1 < (optimize_pass_1 (compile ">+-<".data)).length ∧
    instAt (optimize_pass_1 (compile ">+-<".data)) 0 = IR.shift 1 ∧
    instAt (optimize_pass_1 (compile ">+-<".data)) 1 = IR.shift (-1) := by
  rw [pass1_example_eval]
  exact ⟨by decide, rfl, rfl⟩

theorem mem_compileChar_ne_zero (c : Char) (x : IR) (hx : x ∈ compileChar c) :
    x ≠ IR.arithmetic 0 := by
  unfold compileChar at hx
  split at hx <;> simp_all

theorem mem_compile_ne_zero :
    ∀ (code : List Char) (x : IR), x ∈ compile code → x ≠ IR.arithmetic 0
  | [], _, hx => by simp [compile] at hx
  | c :: rest, x, hx => by
      rw [compile] at hx
      rcases List.mem_append.mp hx with h | h
      · exact mem_compileChar_ne_zero c x h
      · exact mem_compile_ne_zero rest x h

theorem pass1Go_no_zero_arith (ir : List IR) (idx : Nat)
    (h : ∀ x ∈ ir, x ≠ IR.arithmetic 0) :
    ∀ x ∈ pass1Go ir idx, x ≠ IR.arithmetic 0 := by
  induction ir, idx using pass1Go.induct with
  | case1 ir idx hlen a1 a2 h1 h0 ih =>
      rw [pass1Go, dif_pos hlen, h0, h1]
      refine ih (fun x hx => ?_)
      rcases List.mem_or_eq_of_mem_set (List.mem_of_mem_eraseIdx hx) with h2 | h2
      · exact h x h2
      · subst h2
        simp
  | case2 ir idx hlen a1 a2 h1 h0 hlt hz ih =>
      rw [pass1Go, dif_pos hlen, h0, h1]
      dsimp only
      rw [if_pos hlt, if_pos hz]
      refine ih (fun x hx => ?_)
      rw [splice0 ir idx _ hlen] at hx
      rcases List.mem_append.mp hx with h2 | h2
      · exact h x (List.take_subset _ _ h2)
      · exact h x (List.drop_subset _ _ h2)
  | case3 ir idx hlen a1 a2 h1 h0 hlt hz ih =>
      rw [pass1Go, dif_pos hlen, h0, h1]
      dsimp only
      rw [if_pos hlt, if_neg hz]
      refine ih (fun x hx => ?_)
      rcases List.mem_or_eq_of_mem_set (List.mem_of_mem_eraseIdx hx) with h2 | h2
      · exact h x h2
      · subst h2
        simp only [ne_eq, IR.arithmetic.injEq]
        exact hz
  | case4 ir idx hlen a1 a2 h1 h0 hlt ih =>
      rw [pass1Go, dif_pos hlen, h0, h1]
      dsimp only
      rw [if_neg hlt]
      exact ih h
  | case5 ir idx hlen hs ha ih =>
      rw [pass1Go, dif_pos hlen]
      split
      · rename_i a1 a2 e1 e2
        exact (hs a1 a2 e1 e2).elim
      · rename_i a1 a2 e1 e2
        exact (ha a1 a2 e1 e2).elim
      · exact ih h
  | case6 ir idx hlen =>
      rw [pass1Go, dif_neg hlen]
      exact h

/-- C3 amended: the adjacency invariants fail (see the counterexample), but
the third conjunct survives on the pipeline's actual inputs: for every
parsed program, the output of pass A contains no `Arithmetic { 0 }`. -/
theorem C3_amended_no_zero_arith (code : List Char) (x : IR)
    (hx : x ∈ optimize_pass_1 (compile code)) : x ≠ IR.arithmetic 0 :=
  pass1Go_no_zero_arith (compile code) 0 (mem_compile_ne_zero code) x hx

/-- C3 amended witness at the program `+`. -/
theorem C3_amended_no_zero_arith_witness : IR.arithmetic 1 ≠ IR.arithmetic 0 :=
  C3_amended_no_zero_arith "+".data (IR.arithmetic 1)
    (by rw [show optimize_pass_1 (compile "+".data) = [IR.arithmetic 1] from by
          rw [optimize_pass_1, pass1Go]; norm_num [compile, compileChar]]
        simp)

/-- C4 counterexample: `[Shift 1, Shift (-1)]` is the output of pass A on the
parsed program `>+-<`, yet pass A maps it to `[Shift 0]`, so pass A is not
idempotent on its own outputs. -/
theorem C4_counterexample :
    optimize_pass_1 (optimize_pass_1 (compile ">+-<".data))
      ≠ optimize_pass_1 (compile ">+-<".data) := by
  rw [pass1_example_eval, pass1_example_eval2]
  decide

/-- No adjacent pair that pass A would fuse: no two adjacent `Shift`s, and no
two adjacent `Arithmetic`s whose wrapped sum is below `i8::MAX`. -/
def noFusablePair (l : List IR) : Prop :=
  ∀ i, i + 1 < l.length →
    (∀ a b, ¬(instAt l i = IR.shift a ∧ instAt l (i + 1) = IR.shift b)) ∧
    (∀ a b, instAt l i = IR.arithmetic a → instAt l (i + 1) = IR.arithmetic b →
      ¬ i8Wrap (a + b) < 127)

theorem pass1Go_fixed (ir : List IR) (idx : Nat) (hl : noFusablePair ir) :
    pass1Go ir idx = ir := by
  induction ir, idx using pass1Go.induct with
  | case1 ir idx hlen a1 a2 h1 h0 ih =>
      exact absurd ⟨h0, h1⟩ ((hl idx hlen).1 a1 a2)
  | case2 ir idx hlen a1 a2 h1 h0 hlt hz ih =>
      exact absurd hlt ((hl idx hlen).2 a1 a2 h0 h1)
  | case3 ir idx hlen a1 a2 h1 h0 hlt hz ih =>
      exact absurd hlt ((hl idx hlen).2 a1 a2 h0 h1)
  | case4 ir idx hlen a1 a2 h1 h0 hlt ih =>
      rw [pass1Go, dif_pos hlen, h0, h1]
      dsimp only
      rw [if_neg hlt]
      exact ih hl
  | case5 ir idx hlen hs ha ih =>
      rw [pass1Go, dif_pos hlen]
      split
      · rename_i a1 a2 e1 e2
        exact (hs a1 a2 e1 e2).elim
      · rename_i a1 a2 e1 e2
        exact (ha a1 a2 e1 e2).elim
      · exact ih hl
  | case6 ir idx hlen =>
      rw [pass1Go, dif_neg hlen]

/-- C4 amended: pass A is not idempotent on its own outputs (see the
counterexample); what holds is that pass A is the identity on every sequence
containing no fusable adjacent pair — no two adjacent `Shift`s and no two
adjacent `Arithmetic`s whose 8-bit-wrapped sum is below `i8::MAX`. -/
theorem C4_amended_fixpoint (l : List IR) (hl : noFusablePair l) :
    optimize_pass_1 l = l :=
  pass1Go_fixed l 0 hl

/-- C4 amended witness on a concrete fusion-free sequence. -/
theorem C4_amended_fixpoint_witness :
    optimize_pass_1 [IR.shift 1, IR.arithmetic 1] = [IR.shift 1, IR.arithmetic 1] :=
  C4_amended_fixpoint [IR.shift 1, IR.arithmetic 1] (by
    intro i hi
    have hi0 : i = 0 := by simp at hi; omega
    subst hi0
    constructor
    · intro a b hab
      simp [instAt] at hab
    · intro a b ha hb
      simp [instAt] at ha hb)

/-! ## Claim C10: the chunked container agrees with the logical sequence -/

theorem eraseIdx_append_left {α : Type} :
    ∀ (A : List α) (B : List α) (i : Nat), i < A.length →
      (A ++ B).eraseIdx i = A.eraseIdx i ++ B
  | _ :: _, _, 0, _ => by simp [List.eraseIdx]
  | x :: A, B, i + 1, h => by
      have ih := eraseIdx_append_left A B i (by simpa using h)
      simp [List.eraseIdx, ih]

theorem flatten_chunksOf {α : Type} (k : Nat) (hk : 0 < k) :
    ∀ v : List α, (chunksOf k v).flatten = v := by
  intro v
  induction v using chunksOf.induct k with
  | case1 => simp [chunksOf]
  | case2 x rest ih =>
      rw [chunksOf]
      simp only [List.flatten_cons, ih]
      have : rest.drop (k - 1) = (x :: rest).drop k := by
        cases k with
        | zero => omega
        | succ n => simp
      rw [this, List.take_append_drop]

theorem chunkList_index?_eq {α : Type} :
    ∀ (chunks : List (List α)) (i : Nat),
      ChunkList.index? ⟨chunks⟩ i = chunks.flatten.get? i
  | [], i => by simp [ChunkList.index?, ChunkList.realIndex]
  | ch :: rest, i => by
      by_cases hc : ch.length ≤ i
      · have ih := chunkList_index?_eq rest (i - ch.length)
        simp only [ChunkList.index?, ChunkList.realIndex, if_pos hc] at ih ⊢
        simp only [List.get?_cons_succ]
        rw [ih, List.flatten_cons, List.get?_eq_getElem?, List.get?_eq_getElem?,
          List.getElem?_append_right hc]
      · simp only [ChunkList.index?, ChunkList.realIndex, if_neg hc, List.get?_cons_zero]
        rw [List.flatten_cons, List.get?_eq_getElem?, List.get?_eq_getElem?,
          List.getElem?_append]
        simp [Nat.lt_of_not_le hc]

theorem chunkList_len_eq {α : Type} (cl : ChunkList α) :
    cl.len = cl.toList.length := by
  simp [ChunkList.len, ChunkList.toList, List.length_flatten]

/-- Removing inside the tail buckets: `remove?` on `ch :: rest` at an index
past the first bucket delegates to the tail and re-attaches the bucket. -/
theorem chunkList_remove?_cons {α : Type} (ch : List α) (rest : List (List α)) (i : Nat)
    (hc : ch.length ≤ i) :
    ChunkList.remove? ⟨ch :: rest⟩ i
      = Option.map (fun cl2 : ChunkList α => ⟨ch :: cl2.chunks⟩)
          (ChunkList.remove? ⟨rest⟩ (i - ch.length)) := by
  simp only [ChunkList.remove?, ChunkList.realIndex, if_pos hc]
  rcases hget : rest.get? (ChunkList.realIndex rest (i - ch.length)).1 with _ | ch2 <;>
    simp only [List.get?_cons_succ, hget]
  · rfl
  · by_cases hin : (ChunkList.realIndex rest (i - ch.length)).2 < ch2.length
    · rw [if_pos hin, if_pos hin]
      by_cases hemp : (ch2.eraseIdx (ChunkList.realIndex rest (i - ch.length)).2).isEmpty
      · rw [if_pos hemp, if_pos hemp]
        rfl
      · rw [if_neg hemp, if_neg hemp]
        rfl
    · rw [if_neg hin, if_neg hin]
      rfl

theorem chunkList_remove?_some {α : Type} :
    ∀ (chunks : List (List α)) (i : Nat), i < chunks.flatten.length →
      ∃ cl2 : ChunkList α, ChunkList.remove? ⟨chunks⟩ i = some cl2 ∧
        cl2.toList = chunks.flatten.eraseIdx i
  | [], i, h => by simp at h
  | ch :: rest, i, h => by
      by_cases hc : ch.length ≤ i
      · have hlt : i - ch.length < rest.flatten.length := by
          rw [List.flatten_cons, List.length_append] at h
          omega
        obtain ⟨cl2, hcl2, htl⟩ := chunkList_remove?_some rest (i - ch.length) hlt
        rw [chunkList_remove?_cons ch rest i hc, hcl2]
        refine ⟨_, rfl, ?_⟩
        have hsplit : (ch ++ rest.flatten).eraseIdx i
            = ch ++ rest.flatten.eraseIdx (i - ch.length) := by
          have e := eraseIdx_append_shift ch rest.flatten (i - ch.length)
          rwa [show ch.length + (i - ch.length) = i by omega] at e
        simp only [ChunkList.toList, List.flatten_cons, hsplit]
        rw [show cl2.chunks.flatten = cl2.toList from rfl, htl]
      · have hin : i < ch.length := Nat.lt_of_not_le hc
        simp only [ChunkList.remove?, ChunkList.realIndex, if_neg hc, List.get?_cons_zero]
        rw [if_pos hin]
        refine ⟨_, rfl, ?_⟩
        rw [List.flatten_cons, eraseIdx_append_left ch rest.flatten i hin]
        by_cases hemp : (ch.eraseIdx i).isEmpty
        · rw [if_pos hemp]
          have he : ch.eraseIdx i = [] := by simpa [List.isEmpty_iff] using hemp
          simp [ChunkList.toList, he]
        · rw [if_neg hemp]
          simp [ChunkList.toList]

theorem chunkList_remove?_none {α : Type} :
    ∀ (chunks : List (List α)) (i : Nat), chunks.flatten.length ≤ i →
      ChunkList.remove? ⟨chunks⟩ i = none
  | [], i, _ => by simp [ChunkList.remove?, ChunkList.realIndex]
  | ch :: rest, i, h => by
      have hc : ch.length ≤ i := by
        rw [List.flatten_cons, List.length_append] at h
        omega
      rw [chunkList_remove?_cons ch rest i hc,
        chunkList_remove?_none rest (i - ch.length) (by
          rw [List.flatten_cons, List.length_append] at h
          omega)]
      rfl

/-- C10: for every chunk list (in particular any one built by `new` with a
positive chunk size and thinned by any interleaving of in-range `remove`s):
`new` lays `v` out as the logical sequence; `len` is the number of remaining
elements; indexing agrees with the logical sequence (so in-range indexing
never reaches the out-of-bounds branch, and out-of-range indexing does);
in-range `remove` deletes exactly the i-th logical element hence shrinks
`len` by one; out-of-range `index`/`remove` hit the out-of-bounds panic. -/
theorem C10_chunk_list {α : Type} (v : List α) (K : Nat) (hK : 0 < K)
    (cl : ChunkList α) (i : Nat) :
    (ChunkList.new v K).toList = v ∧
    cl.len = cl.toList.length ∧
    cl.index? i = cl.toList.get? i ∧
    (i < cl.len → ∃ cl2, cl.remove? i = some cl2 ∧
      cl2.toList = cl.toList.eraseIdx i ∧ cl2.len + 1 = cl.len) ∧
    (cl.len ≤ i → cl.index? i = none ∧ cl.remove? i = none) := by
  obtain ⟨chunks⟩ := cl
  refine ⟨flatten_chunksOf K hK v, chunkList_len_eq _, chunkList_index?_eq chunks i, ?_, ?_⟩
  · intro hlt
    rw [chunkList_len_eq] at hlt
    obtain ⟨cl2, h1, h2⟩ := chunkList_remove?_some chunks i hlt
    refine ⟨cl2, h1, h2, ?_⟩
    rw [chunkList_len_eq, chunkList_len_eq, h2]
    simp only [ChunkList.toList] at hlt ⊢
    rw [length_eraseIdx_of_lt _ i hlt]
    omega
  · intro hge
    rw [chunkList_len_eq] at hge
    refine ⟨?_, chunkList_remove?_none chunks i hge⟩
    rw [chunkList_index?_eq chunks i]
    exact List.get?_eq_none.mpr hge

theorem chunksOf_example_eval :
    ChunkList.new [10, 20, 30] 2 = (⟨[[10, 20], [30]]⟩ : ChunkList Nat) := by
  rw [ChunkList.new, chunksOf]
  norm_num
  rw [chunksOf]
  norm_num
  rw [chunksOf]

/-! ## The anchor scans: characterization of `memchr`/`memrchr` -/

theorem memchrFrom_some_iff (t : Nat → Nat) (b : Nat) :
    ∀ (len s j : Nat), memchrFrom t b s len = some j ↔
      (s ≤ j ∧ j < s + len ∧ t j = b ∧ ∀ k, s ≤ k → k < j → t k ≠ b) := by
  intro len
  induction len with
  | zero =>
      intro s j
      simp only [memchrFrom]
      constructor
      · intro h
        cases h
      · intro ⟨h1, h2, _⟩
        omega
  | succ n ih =>
      intro s j
      rw [memchrFrom]
      by_cases hs : t s = b
      · rw [if_pos hs]
        constructor
        · intro h
          cases h
          exact ⟨le_refl s, by omega, hs, fun k hk1 hk2 => by omega⟩
        · intro ⟨h1, h2, h3, h4⟩
          by_cases hj : j = s
          · rw [hj]
          · exact absurd hs (h4 s (le_refl s) (by omega))
      · rw [if_neg hs, ih]
        constructor
        · intro ⟨h1, h2, h3, h4⟩
          refine ⟨by omega, by omega, h3, fun k hk1 hk2 => ?_⟩
          by_cases hk : k = s
          · rw [hk]
            exact hs
          · exact h4 k (by omega) hk2
        · intro ⟨h1, h2, h3, h4⟩
          have hjs : j ≠ s := fun he => hs (he ▸ h3)
          exact ⟨by omega, by omega, h3, fun k hk1 hk2 => h4 k (by omega) hk2⟩

theorem memchrFrom_none_iff (t : Nat → Nat) (b : Nat) :
    ∀ (len s : Nat), memchrFrom t b s len = none ↔
      ∀ k, s ≤ k → k < s + len → t k ≠ b := by
  intro len
  induction len with
  | zero =>
      intro s
      simp only [memchrFrom]
      exact ⟨fun _ k h1 h2 => by omega, fun _ => trivial⟩
  | succ n ih =>
      intro s
      rw [memchrFrom]
      by_cases hs : t s = b
      · rw [if_pos hs]
        constructor
        · intro h
          cases h
        · intro h
          exact absurd hs (h s (le_refl s) (by omega))
      · rw [if_neg hs, ih]
        constructor
        · intro h k hk1 hk2
          by_cases hk : k = s
          · rw [hk]
            exact hs
          · exact h k (by omega) (by omega)
        · intro h k hk1 hk2
          exact h k (by omega) (by omega)

theorem memrchrFrom_mem (t : Nat → Nat) (b : Nat) :
    ∀ (len s j : Nat), memrchrFrom t b s len = some j →
      s ≤ j ∧ j < s + len ∧ t j = b := by
  intro len
  induction len with
  | zero =>
      intro s j h
      cases h
  | succ n ih =>
      intro s j
      rw [memrchrFrom]
      rcases hrec : memrchrFrom t b (s + 1) n with _ | j2
      · dsimp only
        by_cases hs : t s = b
        · rw [if_pos hs]
          intro h
          cases h
          exact ⟨le_refl s, by omega, hs⟩
        · rw [if_neg hs]
          intro h
          cases h
      · dsimp only
        intro h
        obtain ⟨r1, r2, r3⟩ := ih (s + 1) j2 hrec
        cases h
        exact ⟨by omega, by omega, r3⟩

theorem memrchrFrom_none_iff (t : Nat → Nat) (b : Nat) :
    ∀ (len s : Nat), memrchrFrom t b s len = none ↔
      ∀ k, s ≤ k → k < s + len → t k ≠ b := by
  intro len
  induction len with
  | zero =>
      intro s
      simp only [memrchrFrom]
      exact ⟨fun _ k h1 h2 => by omega, fun _ => trivial⟩
  | succ n ih =>
      intro s
      rw [memrchrFrom]
      rcases hrec : memrchrFrom t b (s + 1) n with _ | j2
      · dsimp only
        rw [ih] at hrec
        by_cases hs : t s = b
        · rw [if_pos hs]
          constructor
          · intro h
            cases h
          · intro h
            exact absurd hs (h s (le_refl s) (by omega))
        · rw [if_neg hs]
          constructor
          · intro _ k hk1 hk2
            by_cases hk : k = s
            · rw [hk]
              exact hs
            · exact hrec k (by omega) (by omega)
          · intro _
            rfl
      · dsimp only
        obtain ⟨r1, r2, r3⟩ := memrchrFrom_mem t b n (s + 1) j2 hrec
        constructor
        · intro h
          cases h
        · intro h
          exact absurd r3 (h j2 (by omega) (by omega))

theorem memrchrFrom_some_iff (t : Nat → Nat) (b : Nat) :
    ∀ (len s j : Nat), memrchrFrom t b s len = some j ↔
      (s ≤ j ∧ j < s + len ∧ t j = b ∧ ∀ k, j < k → k < s + len → t k ≠ b) := by
  intro len
  induction len with
  | zero =>
      intro s j
      simp only [memrchrFrom]
      constructor
      · intro h
        cases h
      · intro ⟨h1, h2, _⟩
        omega
  | succ n ih =>
      intro s j
      rw [memrchrFrom]
      rcases hrec : memrchrFrom t b (s + 1) n with _ | j2
      · dsimp only
        rw [memrchrFrom_none_iff] at hrec
        by_cases hs : t s = b
        · rw [if_pos hs]
          constructor
          · intro h
            cases h
            exact ⟨le_refl s, by omega, hs, fun k hk1 hk2 => hrec k (by omega) (by omega)⟩
          · intro ⟨h1, h2, h3, _⟩
            by_cases hj : j = s
            · rw [hj]
            · exact absurd h3 (hrec j (by omega) (by omega))
        · rw [if_neg hs]
          constructor
          · intro h
            cases h
          · intro ⟨h1, h2, h3, _⟩
            by_cases hj : j = s
            · exact absurd (hj ▸ h3) hs
            · exact absurd h3 (hrec j (by omega) (by omega))
      · dsimp only
        rw [ih] at hrec
        obtain ⟨r1, r2, r3, r4⟩ := hrec
        constructor
        · intro h
          cases h
          exact ⟨by omega, by omega, r3, fun k hk1 hk2 => r4 k hk1 (by omega)⟩
        · intro ⟨h1, h2, h3, h4⟩
          have hjj : j = j2 := by
            by_cases hq : j = j2
            · exact hq
            · rcases Nat.lt_or_ge j j2 with hlt | hge
              · exact absurd r3 (h4 j2 hlt (by omega))
              · exact absurd h3 (r4 j (by omega) (by omega))
          rw [hjj]

/-- Rightward cyclic distance from `p`: the anchor-right scan visits cells in
increasing order of this distance, starting at `p` itself. -/
def dR (p j : Nat) : Nat := (j + tapeLen - p) % tapeLen

/-- Leftward cyclic distance from `p`: the anchor-left scan visits cells in
increasing order of this distance, starting at `p - 1` and ending at `p`. -/
def dL (p j : Nat) : Nat := (p + tapeLen - 1 - j) % tapeLen

/-- `j` is the 255-cell closest to `p` in rightward cyclic order. -/
def isFirstRight (t : Nat → Nat) (p j : Nat) : Prop :=
  j < tapeLen ∧ t j = 255 ∧ ∀ k, k < tapeLen → t k = 255 → dR p j ≤ dR p k

/-- `j` is the 255-cell closest to `p` in leftward cyclic order. -/
def isFirstLeft (t : Nat → Nat) (p j : Nat) : Prop :=
  j < tapeLen ∧ t j = 255 ∧ ∀ k, k < tapeLen → t k = 255 → dL p j ≤ dL p k

theorem dR_ge_of_ge (p x : Nat) (hp : p < tapeLen) (hx : x < tapeLen) (h : p ≤ x) :
    dR p x = x - p := by
  unfold dR tapeLen at *
  rw [Nat.mod_eq_sub_mod (by omega), Nat.mod_eq_of_lt (by omega)]
  omega

theorem dR_lt_of_lt (p x : Nat) (_hp : p < tapeLen) (hx : x < p) :
    dR p x = x + tapeLen - p := by
  unfold dR tapeLen at *
  rw [Nat.mod_eq_of_lt (by omega)]

theorem dL_le_of_le (p x : Nat) (hp : p < tapeLen) (hx : x < p) :
    dL p x = p - 1 - x := by
  unfold dL tapeLen at *
  rw [Nat.mod_eq_sub_mod (by omega), Nat.mod_eq_of_lt (by omega)]
  omega

theorem dL_ge_of_ge (p x : Nat) (_hp : p < tapeLen) (_hx : x < tapeLen) (h : p ≤ x) :
    dL p x = p + tapeLen - 1 - x := by
  unfold dL tapeLen at *
  rw [Nat.mod_eq_of_lt (by omega)]

theorem scanRight_some (t : Nat → Nat) (p j : Nat) (hp : p < tapeLen)
    (h : scanRight t p = some j) : isFirstRight t p j := by
  unfold scanRight at h
  rcases h1 : memchrFrom t 255 p (tapeLen - p) with _ | j1
  · rw [h1] at h
    rw [memchrFrom_none_iff] at h1
    rw [memchrFrom_some_iff] at h
    obtain ⟨e1, e2, e3, e4⟩ := h
    have hjp : j < p := by
      rcases Nat.lt_or_ge j p with hc | hc
      · exact hc
      · exact absurd e3 (h1 j hc (by omega))
    refine ⟨by omega, e3, fun k hk hk255 => ?_⟩
    rcases Nat.lt_or_ge k p with hkp | hkp
    · have hkj : j ≤ k := by
        rcases Nat.lt_or_ge k j with hc | hc
        · exact absurd hk255 (e4 k (by omega) hc)
        · exact hc
      rw [dR_lt_of_lt p j hp hjp, dR_lt_of_lt p k hp hkp]
      omega
    · exact absurd hk255 (h1 k hkp (by omega))
  · rw [h1] at h
    cases h
    rw [memchrFrom_some_iff] at h1
    obtain ⟨e1, e2, e3, e4⟩ := h1
    refine ⟨by omega, e3, fun k hk hk255 => ?_⟩
    rcases Nat.lt_or_ge k p with hkp | hkp
    · rw [dR_ge_of_ge p j hp (by omega) e1, dR_lt_of_lt p k hp hkp]
      omega
    · have hkj : j ≤ k := by
        rcases Nat.lt_or_ge k j with hc | hc
        · exact absurd hk255 (e4 k hkp hc)
        · exact hc
      rw [dR_ge_of_ge p j hp (by omega) e1, dR_ge_of_ge p k hp hk hkp]
      omega

theorem scanRight_none (t : Nat → Nat) (p : Nat) (hp : p < tapeLen) :
    scanRight t p = none ↔ ∀ k, k < tapeLen → t k ≠ 255 := by
  unfold scanRight
  rcases h1 : memchrFrom t 255 p (tapeLen - p) with _ | j1
  · rw [memchrFrom_none_iff] at h1
    rw [memchrFrom_none_iff]
    constructor
    · intro h k hk
      rcases Nat.lt_or_ge k p with hkp | hkp
      · exact h k (by omega) (by omega)
      · exact h1 k hkp (by omega)
    · intro h k _ hk
      exact h k (by omega)
  · rw [memchrFrom_some_iff] at h1
    obtain ⟨e1, e2, e3, _⟩ := h1
    constructor
    · intro h
      cases h
    · intro h
      exact absurd e3 (h j1 (by omega))

theorem scanLeft_some (t : Nat → Nat) (p j : Nat) (hp : p < tapeLen)
    (h : scanLeft t p = some j) : isFirstLeft t p j := by
  unfold scanLeft at h
  rcases h1 : memrchrFrom t 255 0 p with _ | j1
  · rw [h1] at h
    rw [memrchrFrom_none_iff] at h1
    rw [memrchrFrom_some_iff] at h
    obtain ⟨e1, e2, e3, e4⟩ := h
    refine ⟨by omega, e3, fun k hk hk255 => ?_⟩
    rcases Nat.lt_or_ge k p with hkp | hkp
    · exact absurd hk255 (h1 k (by omega) (by omega))
    · have hkj : k ≤ j := by
        rcases Nat.lt_or_ge j k with hc | hc
        · exact absurd hk255 (e4 k hc (by omega))
        · exact hc
      rw [dL_ge_of_ge p j hp (by omega) (by omega), dL_ge_of_ge p k hp hk hkp]
      omega
  · rw [h1] at h
    dsimp only at h
    cases h
    rw [memrchrFrom_some_iff] at h1
    obtain ⟨e1, e2, e3, e4⟩ := h1
    refine ⟨by omega, e3, fun k hk hk255 => ?_⟩
    rcases Nat.lt_or_ge k p with hkp | hkp
    · have hkj : k ≤ j := by
        rcases Nat.lt_or_ge j k with hc | hc
        · exact absurd hk255 (e4 k hc (by omega))
        · exact hc
      rw [dL_le_of_le p j hp (by omega), dL_le_of_le p k hp hkp]
      omega
    · rw [dL_le_of_le p j hp (by omega), dL_ge_of_ge p k hp hk hkp]
      unfold tapeLen at *
      omega

theorem scanLeft_none (t : Nat → Nat) (p : Nat) (hp : p < tapeLen) :
    scanLeft t p = none ↔ ∀ k, k < tapeLen → t k ≠ 255 := by
  unfold scanLeft
  rcases h1 : memrchrFrom t 255 0 p with _ | j1
  · rw [memrchrFrom_none_iff] at h1
    rw [memrchrFrom_none_iff]
    constructor
    · intro h k hk
      rcases Nat.lt_or_ge k p with hkp | hkp
      · exact h1 k (by omega) (by omega)
      · exact h k (by omega) (by omega)
    · intro h k hk1 hk2
      exact h k (by omega)
  · rw [memrchrFrom_some_iff] at h1
    obtain ⟨e1, e2, e3, _⟩ := h1
    constructor
    · intro h
      cases h
    · intro h
      exact absurd e3 (h j1 (by omega))

/-! ## Claims C2, C5, C9: per-instruction properties of the interpreter -/

theorem wrapPtr_lt (p : Nat) (a : Int) : wrapPtr p a < tapeLen := by
  unfold wrapPtr tapeLen
  have h1 : (0 : Int) ≤ ((p : Int) + a) % 65536 := Int.emod_nonneg _ (by norm_num)
  have h2 : ((p : Int) + a) % 65536 < 65536 := Int.emod_lt_of_pos _ (by norm_num)
  omega

theorem wrapCell_lt (v : Nat) (a : Int) : wrapCell v a < 256 := by
  unfold wrapCell
  have h1 : (0 : Int) ≤ ((v : Int) + a) % 256 := Int.emod_nonneg _ (by norm_num)
  have h2 : ((v : Int) + a) % 256 < 256 := Int.emod_lt_of_pos _ (by norm_num)
  omega

theorem tapeGood_upd (t : Nat → Nat) (i v : Nat) (hg : tapeGood t) (hv : v < 256) :
    tapeGood (upd t i v) := by
  intro j hj
  unfold upd
  split
  · exact hv
  · exact hg j hj

/-- Every successful non-bracket instruction keeps the pointer on the tape
and every cell a byte. -/
theorem stepInst_good (inst : IR) (m m2 : Machine) (hst : stepInst inst m = .ok m2)
    (hg : tapeGood m.tape) (hp : m.ptr < tapeLen) :
    tapeGood m2.tape ∧ m2.ptr < tapeLen := by
  cases inst with
  | shift a =>
      cases hst
      exact ⟨hg, wrapPtr_lt m.ptr a⟩
  | arithmetic a =>
      cases hst
      exact ⟨tapeGood_upd _ _ _ hg (wrapCell_lt _ a), hp⟩
  | loopStart =>
      cases hst
      exact ⟨hg, hp⟩
  | loopEnd =>
      cases hst
      exact ⟨hg, hp⟩
  | input =>
      simp only [stepInst] at hst
      rcases hin : m.inp with _ | ⟨b, rest⟩ <;> rw [hin] at hst
      · cases hst
      · cases hst
        exact ⟨tapeGood_upd _ _ _ hg b.isLt, hp⟩
  | output =>
      cases hst
      exact ⟨hg, hp⟩
  | zero =>
      cases hst
      exact ⟨tapeGood_upd _ _ _ hg (by norm_num), hp⟩
  | multiply a o =>
      cases hst
      refine ⟨tapeGood_upd _ _ _ (tapeGood_upd _ _ _ hg ?_) (by norm_num), hp⟩
      exact Nat.mod_lt _ (by norm_num)
  | move o =>
      cases hst
      refine ⟨tapeGood_upd _ _ _ (tapeGood_upd _ _ _ hg ?_) (by norm_num), hp⟩
      exact Nat.mod_lt _ (by norm_num)
  | anchorRight =>
      simp only [stepInst] at hst
      by_cases hz : m.tape m.ptr = 0
      · rw [if_pos hz] at hst
        cases hst
        exact ⟨hg, hp⟩
      · rw [if_neg hz] at hst
        rcases hscan : scanRight (upd m.tape m.ptr ((m.tape m.ptr + 255) % 256)) m.ptr
            with _ | j <;> rw [hscan] at hst
        · cases hst
        · cases hst
          obtain ⟨hj, _, _⟩ := scanRight_some _ _ j hp hscan
          exact ⟨tapeGood_upd _ _ _
            (tapeGood_upd _ _ _ hg (Nat.mod_lt _ (by norm_num))) (by norm_num), hj⟩
  | anchorLeft =>
      simp only [stepInst] at hst
      by_cases hz : m.tape m.ptr = 0
      · rw [if_pos hz] at hst
        cases hst
        exact ⟨hg, hp⟩
      · rw [if_neg hz] at hst
        rcases hscan : scanLeft (upd m.tape m.ptr ((m.tape m.ptr + 255) % 256)) m.ptr
            with _ | j <;> rw [hscan] at hst
        · cases hst
        · cases hst
          obtain ⟨hj, _, _⟩ := scanLeft_some _ _ j hp hscan
          exact ⟨tapeGood_upd _ _ _
            (tapeGood_upd _ _ _ hg (Nat.mod_lt _ (by norm_num))) (by norm_num), hj⟩

/-- Every successful interpreter step keeps the machine invariants. -/
theorem step_good (insts : List IR) (c c2 : Config) (hst : step insts c = .ok c2)
    (hg : tapeGood c.mach.tape) (hp : c.mach.ptr < tapeLen) :
    tapeGood c2.mach.tape ∧ c2.mach.ptr < tapeLen := by
  unfold step at hst
  rcases hinst : instAt insts c.ip with a | a | _ | _ | _ | _ | _ | ⟨a, o⟩ | o | _ | _ <;>
    rw [hinst] at hst <;> dsimp only at hst
  case loopStart =>
    by_cases hz : c.mach.tape c.mach.ptr ≠ 0
    · rw [if_pos hz] at hst
      cases hst
      exact ⟨hg, hp⟩
    · rw [if_neg hz] at hst
      rcases hscan : scanMatch insts (c.ip + 1) 1 with _ | j <;> rw [hscan] at hst
      · cases hst
      · cases hst
        exact ⟨hg, hp⟩
  case loopEnd =>
    rcases hstk : c.stack with _ | ⟨top, rest⟩ <;> rw [hstk] at hst
    · cases hst
    · dsimp only at hst
      by_cases hz : c.mach.tape c.mach.ptr ≠ 0
      · rw [if_pos hz] at hst
        cases hst
        exact ⟨hg, hp⟩
      · rw [if_neg hz] at hst
        cases hst
        exact ⟨hg, hp⟩
  all_goals
    rcases hmi : stepInst (instAt insts c.ip) c.mach with e | m2 <;>
      rw [hinst] at hmi <;> rw [hmi] at hst
  all_goals cases hst
  all_goals exact stepInst_good _ _ _ hmi hg hp

/-- C2: wrap discipline.  A successful step preserves `ptr < 65536` and all
cells `< 256` (so no access leaves the tape); `Shift` moves the pointer
modulo `2 ^ 16`; `Arithmetic` updates the cell modulo `2 ^ 8`; `Multiply`
adds `tape[p] * factor` into `tape[p + offset]` with 8-bit wrapping and then
zeroes `tape[p]`, and `Move` likewise adds with 8-bit wrap. -/
theorem C2_wrap_discipline (insts : List IR) (c c2 : Config)
    (hg : tapeGood c.mach.tape) (hp : c.mach.ptr < tapeLen)
    (hstep : step insts c = .ok c2) :
    (tapeGood c2.mach.tape ∧ c2.mach.ptr < tapeLen) ∧
    (∀ a, instAt insts c.ip = .shift a →
      (c2.mach.ptr : Int) = ((c.mach.ptr : Int) + a) % 65536) ∧
    (∀ a, instAt insts c.ip = .arithmetic a →
      (c2.mach.tape c.mach.ptr : Int) = ((c.mach.tape c.mach.ptr : Int) + a) % 256) ∧
    (∀ a o, instAt insts c.ip = .multiply a o →
      wrapPtr c.mach.ptr o < tapeLen ∧
      c2.mach.tape c.mach.ptr = 0 ∧
      (wrapPtr c.mach.ptr o ≠ c.mach.ptr →
        c2.mach.tape (wrapPtr c.mach.ptr o)
          = (c.mach.tape (wrapPtr c.mach.ptr o)
              + (c.mach.tape c.mach.ptr * toU8 a) % 256) % 256)) ∧
    (∀ o, instAt insts c.ip = .move o →
      wrapPtr c.mach.ptr o < tapeLen ∧
      c2.mach.tape c.mach.ptr = 0 ∧
      (wrapPtr c.mach.ptr o ≠ c.mach.ptr →
        c2.mach.tape (wrapPtr c.mach.ptr o)
          = (c.mach.tape (wrapPtr c.mach.ptr o) + c.mach.tape c.mach.ptr) % 256)) := by
  refine ⟨step_good insts c c2 hstep hg hp, ?_, ?_, ?_, ?_⟩
  · intro a ha
    unfold step at hstep
    rw [ha] at hstep
    dsimp only [stepInst] at hstep
    cases hstep
    unfold wrapPtr
    rw [Int.toNat_of_nonneg (Int.emod_nonneg _ (by norm_num))]
  · intro a ha
    unfold step at hstep
    rw [ha] at hstep
    dsimp only [stepInst] at hstep
    cases hstep
    dsimp only [upd]
    rw [if_pos rfl]
    unfold wrapCell
    rw [Int.toNat_of_nonneg (Int.emod_nonneg _ (by norm_num))]
  · intro a o ha
    unfold step at hstep
    rw [ha] at hstep
    dsimp only [stepInst] at hstep
    cases hstep
    refine ⟨wrapPtr_lt _ o, ?_, ?_⟩
    · dsimp only [upd]
      rw [if_pos rfl]
    · intro hne
      dsimp only [upd]
      rw [if_neg hne, if_pos rfl]
  · intro o ha
    unfold step at hstep
    rw [ha] at hstep
    dsimp only [stepInst] at hstep
    cases hstep
    refine ⟨wrapPtr_lt _ o, ?_, ?_⟩
    · dsimp only [upd]
      rw [if_pos rfl]
    · intro hne
      dsimp only [upd]
      rw [if_neg hne, if_pos rfl]

/-- C2 witness: a concrete `Shift` step on the initial machine. -/
theorem C2_wrap_discipline_witness :
    (tapeGood (⟨1, [], ⟨fun _ => 0, 3, [], []⟩⟩ : Config).mach.tape ∧
      (⟨1, [], ⟨fun _ => 0, 3, [], []⟩⟩ : Config).mach.ptr < tapeLen) ∧
    ((3 : Nat) : Int) = ((0 : Int) + 3) % 65536 :=
  have h := C2_wrap_discipline [IR.shift 3] ⟨0, [], ⟨fun _ => 0, 0, [], []⟩⟩
    ⟨1, [], ⟨fun _ => 0, 3, [], []⟩⟩ (fun i _ => by norm_num) (by norm_num [tapeLen]) rfl
  ⟨h.1, h.2.1 3 rfl⟩

/-- C9: EOF on `Input`.  When the interpreter executes an `Input`
instruction, an available byte is stored into the current cell and consumed;
an exhausted standard input makes the step fail with a read error. -/
theorem C9_input_eof (insts : List IR) (c : Config)
    (h : instAt insts c.ip = .input) :
    (c.mach.inp = [] → step insts c = .error .readFail) ∧
    (∀ b rest, c.mach.inp = b :: rest →
      step insts c = .ok ⟨c.ip + 1, c.stack,
        { c.mach with tape := upd c.mach.tape c.mach.ptr b.val, inp := rest }⟩) := by
  constructor
  · intro hemp
    unfold step
    rw [h]
    dsimp only [stepInst]
    rw [hemp]
  · intro b rest hcons
    unfold step
    rw [h]
    dsimp only [stepInst]
    rw [hcons]

/-- C9 witness: `Input` on empty stdin errors; on stdin `[7]` it stores 7. -/
theorem C9_input_eof_witness :
    step [IR.input] ⟨0, [], ⟨fun _ => 0, 0, [], []⟩⟩ = .error .readFail ∧
    step [IR.input] ⟨0, [], ⟨fun _ => 0, 0, [⟨7, by norm_num⟩], []⟩⟩
      = .ok ⟨1, [], ⟨upd (fun _ => 0) 0 7, 0, [], []⟩⟩ :=
  ⟨(C9_input_eof [IR.input] ⟨0, [], ⟨fun _ => 0, 0, [], []⟩⟩ rfl).1 rfl,
   (C9_input_eof [IR.input] ⟨0, [], ⟨fun _ => 0, 0, [⟨7, by norm_num⟩], []⟩⟩ rfl).2
     ⟨7, by norm_num⟩ [] rfl⟩

/-- C5: anchor semantics.  With a zero current cell both anchors are no-ops.
Otherwise the current cell is decremented by one and the tape is scanned for
a 255 cell — rightward (`AnchorRight`) or leftward (`AnchorLeft`) in cyclic
order with wrap-around, as captured by the distance minimality predicates —
the pointer moves to the found cell, which is zeroed; if no cell of the
(post-decrement) tape holds 255, the instruction fails with the dedicated
infinite-loop error. -/
theorem C5_anchor_semantics (m : Machine) (hp : m.ptr < tapeLen) (hg : tapeGood m.tape)
    (t1 : Nat → Nat) (ht1 : t1 = upd m.tape m.ptr ((m.tape m.ptr + 255) % 256)) :
    (m.tape m.ptr = 0 →
      stepInst .anchorRight m = .ok m ∧ stepInst .anchorLeft m = .ok m) ∧
    (m.tape m.ptr ≠ 0 →
      t1 m.ptr + 1 = m.tape m.ptr ∧
      ((∀ k, k < tapeLen → t1 k ≠ 255) →
        stepInst .anchorRight m = .error .infiniteLoop ∧
        stepInst .anchorLeft m = .error .infiniteLoop) ∧
      (∀ j, scanRight t1 m.ptr = some j →
        stepInst .anchorRight m = .ok { m with tape := upd t1 j 0, ptr := j } ∧
        isFirstRight t1 m.ptr j) ∧
      (∀ j, scanLeft t1 m.ptr = some j →
        stepInst .anchorLeft m = .ok { m with tape := upd t1 j 0, ptr := j } ∧
        isFirstLeft t1 m.ptr j) ∧
      ((∃ k, k < tapeLen ∧ t1 k = 255) →
        (∃ j, scanRight t1 m.ptr = some j) ∧ (∃ j, scanLeft t1 m.ptr = some j))) := by
  constructor
  · intro hz
    simp only [stepInst]
    rw [if_pos hz, if_pos hz]
    exact ⟨rfl, rfl⟩
  · intro hz
    have hlt : m.tape m.ptr < 256 := hg m.ptr hp
    refine ⟨?_, ?_, ?_, ?_, ?_⟩
    · rw [ht1]
      unfold upd
      rw [if_pos rfl]
      omega
    · intro hnone
      simp only [stepInst]
      rw [if_neg hz, if_neg hz]
      rw [← ht1, (scanRight_none t1 m.ptr hp).mpr hnone,
        (scanLeft_none t1 m.ptr hp).mpr hnone]
      exact ⟨rfl, rfl⟩
    · intro j hj
      constructor
      · simp only [stepInst]
        rw [if_neg hz]
        rw [← ht1, hj]
      · exact scanRight_some t1 m.ptr j hp hj
    · intro j hj
      constructor
      · simp only [stepInst]
        rw [if_neg hz]
        rw [← ht1, hj]
      · exact scanLeft_some t1 m.ptr j hp hj
    · intro ⟨k, hk, hk255⟩
      constructor
      · rcases hs : scanRight t1 m.ptr with _ | j
        · exact absurd hk255 ((scanRight_none t1 m.ptr hp).mp hs k hk)
        · exact ⟨j, rfl⟩
      · rcases hs : scanLeft t1 m.ptr with _ | j
        · exact absurd hk255 ((scanLeft_none t1 m.ptr hp).mp hs k hk)
        · exact ⟨j, rfl⟩

/-- C5 witness: a cell of 5 at pointer 0 with the 255 anchor at cell 1. -/
theorem C5_anchor_semantics_witness :
    stepInst .anchorRight ⟨fun j => if j = 1 then 255 else if j = 0 then 5 else 0, 0, [], []⟩
      = .ok ⟨upd (upd (fun j => if j = 1 then 255 else if j = 0 then 5 else 0) 0 4) 1 0,
          1, [], []⟩ ∧
    isFirstRight (upd (fun j => if j = 1 then 255 else if j = 0 then 5 else 0) 0 4) 0 1 := by
  have h := C5_anchor_semantics
    ⟨fun j => if j = 1 then 255 else if j = 0 then 5 else 0, 0, [], []⟩
    (by norm_num [tapeLen])
    (by intro i _
        dsimp only
        split
        · norm_num
        split <;> norm_num)
    (upd (fun j => if j = 1 then 255 else if j = 0 then 5 else 0) 0 4)
    (by norm_num [upd])
  exact (h.2 (by norm_num)).2.2.1 1 rfl

/-! ## Claim C8: bracket balance through the pipeline -/

/-- Recognizer for `LoopStart`. -/
def isLS : IR → Bool
  | .loopStart => true
  | _ => false

/-- Recognizer for `LoopEnd`. -/
def isLE : IR → Bool
  | .loopEnd => true
  | _ => false

theorem countP_compile_LS (code : List Char) :
    (compile code).countP isLS = code.count '[' := by
  induction code with
  | nil => simp [compile]
  | cons c rest ih =>
      rw [compile, List.countP_append, ih, List.count_cons]
      unfold compileChar
      split <;> simp_all [List.countP_cons, isLS]
      all_goals omega

theorem countP_compile_LE (code : List Char) :
    (compile code).countP isLE = code.count ']' := by
  induction code with
  | nil => simp [compile]
  | cons c rest ih =>
      rw [compile, List.countP_append, ih, List.count_cons]
      unfold compileChar
      split <;> simp_all [List.countP_cons, isLE]
      all_goals omega

/-- Pass A only touches `Shift`/`Arithmetic` elements, so any count of
instructions on which both of those constructors score `false` is
preserved. -/
theorem pass1Go_countP (p : IR → Bool) (hs : ∀ a, p (.shift a) = false)
    (ha : ∀ a, p (.arithmetic a) = false) (ir : List IR) (idx : Nat) :
    (pass1Go ir idx).countP p = ir.countP p := by
  induction ir, idx using pass1Go.induct with
  | case1 ir idx hlen a1 a2 h1 h0 ih =>
      rw [pass1Go, dif_pos hlen, h0, h1]
      rw [ih, splice1 ir idx _ hlen]
      conv_rhs => rw [window_decomp2 ir idx hlen]
      rw [h0, h1]
      simp [List.countP_append, List.countP_cons, hs]
  | case2 ir idx hlen a1 a2 h1 h0 hlt hz ih =>
      rw [pass1Go, dif_pos hlen, h0, h1]
      dsimp only
      rw [if_pos hlt, if_pos hz]
      rw [ih, splice0 ir idx _ hlen]
      conv_rhs => rw [window_decomp2 ir idx hlen]
      rw [h0, h1]
      simp [List.countP_append, List.countP_cons, ha]
  | case3 ir idx hlen a1 a2 h1 h0 hlt hz ih =>
      rw [pass1Go, dif_pos hlen, h0, h1]
      dsimp only
      rw [if_pos hlt, if_neg hz]
      rw [ih, splice1 ir idx _ hlen]
      conv_rhs => rw [window_decomp2 ir idx hlen]
      rw [h0, h1]
      simp [List.countP_append, List.countP_cons, ha]
  | case4 ir idx hlen a1 a2 h1 h0 hlt ih =>
      rw [pass1Go, dif_pos hlen, h0, h1]
      dsimp only
      rw [if_neg hlt]
      exact ih
  | case5 ir idx hlen hs2 ha2 ih =>
      rw [pass1Go, dif_pos hlen]
      split
      · rename_i a1 a2 e1 e2
        exact (hs2 a1 a2 e1 e2).elim
      · rename_i a1 a2 e1 e2
        exact (ha2 a1 a2 e1 e2).elim
      · exact ih
  | case6 ir idx hlen =>
      rw [pass1Go, dif_neg hlen]

/-- The bracket balance of a sequence. -/
def balance (l : List IR) : Int := (l.countP isLS : Int) - l.countP isLE

theorem balance_append (A B : List IR) : balance (A ++ B) = balance A + balance B := by
  unfold balance
  rw [List.countP_append, List.countP_append]
  push_cast
  ring

theorem step6_balance (ir : List IR) (idx : Nat) : balance (step6 ir idx) = balance ir := by
  unfold step6
  split
  · rename_i hlen
    split
    · rename_i o1 a1 o2 a2 h0 h1 h2 h3 h4 h5
      have hb : ∀ z : IR, isLS z = false → isLE z = false →
          balance (ir.take idx ++ [z] ++ ir.drop (idx + 6)) = balance ir := by
        intro z hz1 hz2
        conv_rhs => rw [window_decomp6 ir idx hlen]
        rw [h0, h1, h2, h3, h4, h5]
        rw [balance_append, balance_append, balance_append, balance_append]
        unfold balance
        simp only [List.countP_cons, List.countP_nil, hz1, hz2]
        norm_num [isLS, isLE]
      split
      · rw [splice6 ir idx _ hlen]
        exact hb _ rfl rfl
      split
      · rw [splice6 ir idx _ hlen]
        exact hb _ rfl rfl
      · rfl
    · rfl
  · rfl

theorem step5_balance (ir : List IR) (idx : Nat) : balance (step5 ir idx) = balance ir := by
  unfold step5
  split
  · rename_i hlen
    split
    · rename_i am dir a1 h0 h1 h2 h3 h4
      split
      · rw [splice5 ir idx _ hlen]
        conv_rhs => rw [window_decomp5 ir idx hlen]
        rw [h0, h1, h2, h3, h4]
        rw [balance_append, balance_append, balance_append, balance_append]
        have hz1 : isLS (if dir = 1 then IR.anchorRight else IR.anchorLeft) = false := by
          by_cases hd : dir = 1 <;> simp [hd, isLS]
        have hz2 : isLE (if dir = 1 then IR.anchorRight else IR.anchorLeft) = false := by
          by_cases hd : dir = 1 <;> simp [hd, isLE]
        unfold balance
        simp only [List.countP_cons, List.countP_nil, hz1, hz2]
        norm_num [isLS, isLE]
      · rfl
    · rfl
  · rfl

theorem step3_balance (ir : List IR) (idx : Nat) : balance (step3 ir idx) = balance ir := by
  unfold step3
  split
  · rename_i hlen
    split
    · rename_i a h0 h1 h2
      rw [splice3 ir idx _ hlen]
      conv_rhs => rw [window_decomp3 ir idx hlen]
      rw [h0, h1, h2]
      rw [balance_append, balance_append]
      unfold balance
      simp only [List.countP_cons, List.countP_nil]
      norm_num [isLS, isLE]
      omega
    · rfl
  · rfl

theorem pass2Go_balance (ir : List IR) (idx : Nat) : balance (pass2Go ir idx) = balance ir := by
  induction ir, idx using pass2Go.induct with
  | case1 ir idx hlen ih =>
      rw [pass2Go, dif_pos hlen, ih, step3_balance, step5_balance, step6_balance]
  | case2 ir idx hlen =>
      rw [pass2Go, dif_neg hlen]

theorem balance_zero_iff (l : List IR) :
    balance l = 0 ↔ l.countP isLS = l.countP isLE := by
  unfold balance
  omega

/-- C8: after parsing, the `LoopStart` count equals the `LoopEnd` count iff
the source has equally many `[` and `]`; both optimization passes preserve
the equality of the two counts. -/
theorem C8_balance_preservation (code : List Char) (ir : List IR)
    (hir : ir.countP isLS = ir.countP isLE) :
    ((compile code).countP isLS = (compile code).countP isLE ↔
      code.count '[' = code.count ']') ∧
    (optimize_pass_1 ir).countP isLS = (optimize_pass_1 ir).countP isLE ∧
    (optimize_pass_2 ir).countP isLS = (optimize_pass_2 ir).countP isLE := by
  refine ⟨?_, ?_, ?_⟩
  · rw [countP_compile_LS, countP_compile_LE]
  · rw [optimize_pass_1, pass1Go_countP isLS (fun a => rfl) (fun a => rfl),
      pass1Go_countP isLE (fun a => rfl) (fun a => rfl)]
    exact hir
  · rw [← balance_zero_iff]
    rw [optimize_pass_2, pass2Go_balance]
    rw [balance_zero_iff]
    exact hir

/-- C8 witness at the program `+[-]` and the parsed sequence itself. -/
theorem C8_balance_preservation_witness :
    ((compile "+[-]".data).countP isLS = (compile "+[-]".data).countP isLE ↔
      "+[-]".data.count '[' = "+[-]".data.count ']') ∧
    (optimize_pass_1 (compile "+[-]".data)).countP isLS
      = (optimize_pass_1 (compile "+[-]".data)).countP isLE ∧
    (optimize_pass_2 (compile "+[-]".data)).countP isLS
      = (optimize_pass_2 (compile "+[-]".data)).countP isLE :=
  C8_balance_preservation "+[-]".data (compile "+[-]".data) (by decide)

/-- C10 witness: a concrete two-bucket list built with chunk size 2. -/
theorem C10_chunk_list_witness :
    (ChunkList.new [10, 20, 30] 2).toList = ([10, 20, 30] : List Nat) ∧
    ∃ cl2, (ChunkList.new [10, 20, 30] 2).remove? 1 = some cl2 ∧
      cl2.toList = ([10, 30] : List Nat) ∧ cl2.len + 1 = (ChunkList.new [10, 20, 30] 2).len := by
  obtain ⟨h1, _, _, h4, _⟩ :=
    C10_chunk_list [10, 20, 30] 2 (by decide) (ChunkList.new [10, 20, 30] 2) 1
  refine ⟨h1, ?_⟩
  obtain ⟨cl2, ha, hb, hc⟩ := h4 (by rw [chunksOf_example_eval]; decide)
  refine ⟨cl2, ha, ?_, hc⟩
  rw [hb, chunksOf_example_eval]
  decide

/-! ## Claim C1: semantic preservation — infrastructure

The two passes transform the program by splicing a window `W` at position
`a = X.length` into a replacement `W2` of at most one non-bracket
instruction: `P = X ++ W ++ Y` becomes `Q = X ++ W2 ++ Y`.  A forward
simulation shows that every completed run of `P` is matched by a completed
run of `Q` with the same final machine. -/

theorem run_halt (insts : List IR) (fuel : Nat) (c : Config)
    (h : ¬ c.ip < insts.length) : run insts fuel c = some (.ok c) := by
  cases fuel <;> simp [run, h]

theorem run_step_ok (insts : List IR) (fuel : Nat) (c c1 : Config)
    (h : c.ip < insts.length) (hs : step insts c = .ok c1) :
    run insts (fuel + 1) c = run insts fuel c1 := by
  rw [run, if_pos h, hs]

theorem run_ok_split (insts : List IR) (fuel : Nat) (c d : Config)
    (hok : run insts fuel c = some (.ok d)) (h : c.ip < insts.length) :
    ∃ c1, step insts c = .ok c1 ∧ run insts (fuel - 1) c1 = some (.ok d) ∧ 1 ≤ fuel := by
  cases fuel with
  | zero =>
      rw [run, if_pos h] at hok
      cases hok
  | succ f =>
      rw [run, if_pos h] at hok
      rcases hs : step insts c with e | c1 <;> rw [hs] at hok
      · cases hok
      · exact ⟨c1, rfl, hok, by omega⟩

theorem run_mono (insts : List IR) :
    ∀ (fuel fuel2 : Nat) (c : Config) (r : Except Err Config),
      run insts fuel c = some r → fuel ≤ fuel2 → run insts fuel2 c = some r := by
  intro fuel
  induction fuel with
  | zero =>
      intro fuel2 c r h hle
      rw [run] at h
      by_cases hip : c.ip < insts.length
      · rw [if_pos hip] at h
        cases h
      · rw [if_neg hip] at h
        cases h
        exact run_halt insts fuel2 c hip
  | succ f ih =>
      intro fuel2 c r h hle
      by_cases hip : c.ip < insts.length
      · rw [run, if_pos hip] at h
        rcases fuel2 with _ | f2
        · omega
        rw [run, if_pos hip]
        rcases hs : step insts c with e | c1
        · rw [hs] at h
          exact h
        · rw [hs] at h
          exact ih f2 c1 r h (by omega)
      · rw [run_halt insts (f + 1) c hip] at h
        cases h
        exact run_halt insts fuel2 c hip

theorem step_nonbracket (insts : List IR) (c : Config) (i : IR)
    (hi : instAt insts c.ip = i) (h1 : i ≠ .loopStart) (h2 : i ≠ .loopEnd) :
    step insts c = match stepInst i c.mach with
      | .ok m2 => .ok ⟨c.ip + 1, c.stack, m2⟩
      | .error e => .error e := by
  unfold step
  rw [hi]
  cases i
  case loopStart => exact absurd rfl h1
  case loopEnd => exact absurd rfl h2
  all_goals rfl

theorem upd_eq (t : Nat → Nat) (i v : Nat) : upd t i v i = v := by
  unfold upd
  rw [if_pos rfl]

theorem upd_ne (t : Nat → Nat) (i v j : Nat) (h : j ≠ i) : upd t i v j = t j := by
  unfold upd
  rw [if_neg h]

theorem upd_upd_same (t : Nat → Nat) (i v w : Nat) :
    upd (upd t i v) i w = upd t i w := by
  funext j
  unfold upd
  split <;> rfl

theorem upd_self (t : Nat → Nat) (i : Nat) : upd t i (t i) = t := by
  funext j
  unfold upd
  split
  · rename_i h
    rw [h]
  · rfl

theorem upd_comm (t : Nat → Nat) (i j v w : Nat) (h : i ≠ j) :
    upd (upd t i v) j w = upd (upd t j w) i v := by
  funext x
  unfold upd
  by_cases hx : x = j <;> by_cases hy : x = i
  · exact absurd (hy.symm.trans hx) h
  · rw [if_pos hx, if_neg hy, if_pos hx]
  · rw [if_neg hx, if_pos hy, if_pos hy]
  · rw [if_neg hx, if_neg hy, if_neg hy, if_neg hx]

theorem wrapPtr_int (p : Nat) (a : Int) : (wrapPtr p a : Int) = ((p : Int) + a) % 65536 := by
  unfold wrapPtr
  rw [Int.toNat_of_nonneg (Int.emod_nonneg _ (by norm_num))]

theorem wrapCell_int (v : Nat) (a : Int) : (wrapCell v a : Int) = ((v : Int) + a) % 256 := by
  unfold wrapCell
  rw [Int.toNat_of_nonneg (Int.emod_nonneg _ (by norm_num))]

theorem wrapPtr_wrapPtr (p : Nat) (a b : Int) :
    wrapPtr (wrapPtr p a) b = wrapPtr p (a + b) := by
  have h1 := wrapPtr_int p a
  unfold wrapPtr at *
  omega

theorem wrapPtr_isizeWrap (p : Nat) (s : Int) :
    wrapPtr p (isizeWrap s) = wrapPtr p s := by
  unfold wrapPtr isizeWrap
  omega

theorem wrapPtr_zero (p : Nat) (h : p < tapeLen) : wrapPtr p 0 = p := by
  unfold wrapPtr tapeLen at *
  omega

theorem wrapPtr_cancel (p : Nat) (o : Int) (h : p < tapeLen) :
    wrapPtr (wrapPtr p o) (-o) = p := by
  rw [wrapPtr_wrapPtr]
  rw [show o + -o = 0 by ring]
  exact wrapPtr_zero p h

theorem wrapCell_wrapCell (v : Nat) (a b : Int) :
    wrapCell (wrapCell v a) b = wrapCell v (a + b) := by
  have h1 := wrapCell_int v a
  unfold wrapCell at *
  omega

theorem wrapCell_i8Wrap (v : Nat) (s : Int) :
    wrapCell v (i8Wrap s) = wrapCell v s := by
  unfold wrapCell i8Wrap
  omega

theorem wrapCell_self (v : Nat) (a : Int) (hv : v < 256) (hz : i8Wrap a = 0) :
    wrapCell v a = v := by
  unfold wrapCell i8Wrap at *
  omega

theorem wrapCell_neg_one (v : Nat) : wrapCell v (-1) = (v + 255) % 256 := by
  unfold wrapCell
  omega

theorem wrapCell_one (v : Nat) : wrapCell v 1 = (v + 1) % 256 := by
  unfold wrapCell
  omega

theorem wrapCell_nonneg (v : Nat) (a : Int) (_h : 0 ≤ a) :
    wrapCell v a = (v + (a % 256).toNat) % 256 := by
  unfold wrapCell
  omega

theorem scanMatch_oob (insts : List IR) (ipp k : Nat) (h : ¬ ipp < insts.length) :
    scanMatch insts ipp k = none := by
  rw [scanMatch, if_neg h]

theorem scanMatch_step_ls (insts : List IR) (s k : Nat) (h : s < insts.length)
    (hI : instAt insts s = .loopStart) :
    scanMatch insts s k = scanMatch insts (s + 1) (k + 1) := by
  conv_lhs => rw [scanMatch]
  rw [if_pos h, hI]

theorem scanMatch_step_le (insts : List IR) (s k : Nat) (h : s < insts.length)
    (hI : instAt insts s = .loopEnd) :
    scanMatch insts s k = if k = 1 then some s else scanMatch insts (s + 1) (k - 1) := by
  conv_lhs => rw [scanMatch]
  rw [if_pos h, hI]

theorem scanMatch_step_other (insts : List IR) (s k : Nat) (h : s < insts.length)
    (hI : instAt insts s ≠ .loopStart) (hI2 : instAt insts s ≠ .loopEnd) :
    scanMatch insts s k = scanMatch insts (s + 1) k := by
  conv_lhs => rw [scanMatch]
  rw [if_pos h]
  rcases hX : instAt insts s with a | a | _ | _ | _ | _ | _ | ⟨a, o⟩ | o | _ | _
  · rfl
  · rfl
  · exact absurd hX hI
  · exact absurd hX hI2
  · rfl
  · rfl
  · rfl
  · rfl
  · rfl
  · rfl
  · rfl

/-- Scanning entirely within the suffix of an append. -/
theorem scanMatch_append (A B : List IR) :
    ∀ (n r k : Nat), B.length - r ≤ n →
      scanMatch (A ++ B) (A.length + r) k
        = (scanMatch B r k).map (fun j => A.length + j) := by
  intro n
  induction n with
  | zero =>
      intro r k hn
      rw [scanMatch_oob (A ++ B) _ k (by simp only [List.length_append]; omega),
        scanMatch_oob B r k (by omega)]
      rfl
  | succ n ih =>
      intro r k hn
      by_cases hr : r < B.length
      · have hrr : A.length + r < (A ++ B).length := by
          simp only [List.length_append]; omega
        have hAB : instAt (A ++ B) (A.length + r) = instAt B r := instAt_append_right A B r
        by_cases h1 : instAt B r = .loopStart
        · rw [scanMatch_step_ls (A ++ B) _ k hrr (by rw [hAB]; exact h1),
            scanMatch_step_ls B r k hr h1,
            show A.length + r + 1 = A.length + (r + 1) by omega]
          exact ih (r + 1) (k + 1) (by omega)
        · by_cases h2 : instAt B r = .loopEnd
          · rw [scanMatch_step_le (A ++ B) _ k hrr (by rw [hAB]; exact h2),
              scanMatch_step_le B r k hr h2]
            by_cases hk : k = 1
            · rw [if_pos hk, if_pos hk]
              rfl
            · rw [if_neg hk, if_neg hk,
                show A.length + r + 1 = A.length + (r + 1) by omega]
              exact ih (r + 1) (k - 1) (by omega)
          · rw [scanMatch_step_other (A ++ B) _ k hrr (by rw [hAB]; exact h1)
                (by rw [hAB]; exact h2),
              scanMatch_step_other B r k hr h1 h2,
              show A.length + r + 1 = A.length + (r + 1) by omega]
            exact ih (r + 1) k (by omega)
      · rw [scanMatch_oob (A ++ B) _ k (by simp only [List.length_append]; omega),
          scanMatch_oob B r k (by omega)]
        rfl

/-- The position translation of a splice: positions up to the window start
are fixed, later positions shift down by the length difference. -/
def fmap (a d x : Nat) : Nat := if x ≤ a then x else x - d

/-- The scan correspondence between `X ++ W ++ Y` and `X ++ W2 ++ Y`, given
that a scan entering either window with a live counter crosses it without
stopping. -/
theorem scanMatch_sim (X W W2 Y : List IR) (hw : 1 ≤ W.length) (hw2 : W2.length ≤ W.length)
    (crossP : ∀ k, 1 ≤ k →
      scanMatch (X ++ W ++ Y) X.length k
        = scanMatch (X ++ W ++ Y) (X.length + W.length) k)
    (crossQ : ∀ k, 1 ≤ k →
      scanMatch (X ++ W2 ++ Y) X.length k
        = scanMatch (X ++ W2 ++ Y) (X.length + W2.length) k) :
    ∀ (s k : Nat), 1 ≤ k → (s ≤ X.length ∨ X.length + W.length ≤ s) →
      (scanMatch (X ++ W ++ Y) s k = none ∧
        scanMatch (X ++ W2 ++ Y) (fmap X.length (W.length - W2.length) s) k = none) ∨
      (∃ j, scanMatch (X ++ W ++ Y) s k = some j ∧
        (j < X.length ∨ X.length + W.length ≤ j) ∧
        scanMatch (X ++ W2 ++ Y) (fmap X.length (W.length - W2.length) s) k
          = some (fmap X.length (W.length - W2.length) j)) := by
  have hYr : ∀ (r k : Nat),
      (scanMatch (X ++ W ++ Y) (X.length + W.length + r) k = none ∧
        scanMatch (X ++ W2 ++ Y) (X.length + W2.length + r) k = none) ∨
      (∃ j, scanMatch (X ++ W ++ Y) (X.length + W.length + r) k = some j ∧
        (j < X.length ∨ X.length + W.length ≤ j) ∧
        scanMatch (X ++ W2 ++ Y) (X.length + W2.length + r) k
          = some (fmap X.length (W.length - W2.length) j)) := by
    intro r k
    have e1 : scanMatch (X ++ W ++ Y) (X.length + W.length + r) k
        = (scanMatch Y r k).map (fun j => X.length + W.length + j) := by
      have h1 := scanMatch_append (X ++ W) Y (Y.length - r) r k (by omega)
      simpa [List.length_append] using h1
    have e2 : scanMatch (X ++ W2 ++ Y) (X.length + W2.length + r) k
        = (scanMatch Y r k).map (fun j => X.length + W2.length + j) := by
      have h1 := scanMatch_append (X ++ W2) Y (Y.length - r) r k (by omega)
      simpa [List.length_append] using h1
    rcases hY : scanMatch Y r k with _ | j0
    · left
      rw [e1, e2, hY]
      exact ⟨rfl, rfl⟩
    · right
      refine ⟨X.length + W.length + j0, ?_, by omega, ?_⟩
      · rw [e1, hY]
        rfl
      · rw [e2, hY]
        rw [show fmap X.length (W.length - W2.length) (X.length + W.length + j0)
            = X.length + W2.length + j0 from by rw [fmap, if_neg (by omega)]; omega]
        rfl
  have hXr : ∀ (n s k : Nat), X.length - s ≤ n → 1 ≤ k → s ≤ X.length →
      (scanMatch (X ++ W ++ Y) s k = none ∧
        scanMatch (X ++ W2 ++ Y) (fmap X.length (W.length - W2.length) s) k = none) ∨
      (∃ j, scanMatch (X ++ W ++ Y) s k = some j ∧
        (j < X.length ∨ X.length + W.length ≤ j) ∧
        scanMatch (X ++ W2 ++ Y) (fmap X.length (W.length - W2.length) s) k
          = some (fmap X.length (W.length - W2.length) j)) := by
    intro n
    induction n with
    | zero =>
        intro s k hn hk hs
        have hsa : s = X.length := by omega
        subst hsa
        rw [show fmap X.length (W.length - W2.length) X.length = X.length from by
          rw [fmap, if_pos (le_refl _)]]
        rw [crossP k hk, crossQ k hk]
        have h0 := hYr 0 k
        rw [Nat.add_zero, Nat.add_zero] at h0
        exact h0
    | succ n ih =>
        intro s k hn hk hs
        by_cases hsa : s = X.length
        · subst hsa
          rw [show fmap X.length (W.length - W2.length) X.length = X.length from by
            rw [fmap, if_pos (le_refl _)]]
          rw [crossP k hk, crossQ k hk]
          have h0 := hYr 0 k
          rw [Nat.add_zero, Nat.add_zero] at h0
          exact h0
        · have hslt : s < X.length := by omega
          have hfm0 : fmap X.length (W.length - W2.length) s = s := by
            rw [fmap, if_pos (by omega)]
          have hfm1 : fmap X.length (W.length - W2.length) (s + 1) = s + 1 := by
            rw [fmap, if_pos (by omega)]
          rw [hfm0]
          have hinst : instAt (X ++ W ++ Y) s = instAt X s := by
            rw [instAt_append_left (X ++ W) Y s (by simp only [List.length_append]; omega),
              instAt_append_left X W s hslt]
          have hinst2 : instAt (X ++ W2 ++ Y) s = instAt X s := by
            rw [instAt_append_left (X ++ W2) Y s (by simp only [List.length_append]; omega),
              instAt_append_left X W2 s hslt]
          have hlP : s < (X ++ W ++ Y).length := by
            simp only [List.length_append]; omega
          have hlQ : s < (X ++ W2 ++ Y).length := by
            simp only [List.length_append]; omega
          by_cases h1 : instAt X s = .loopStart
          · rw [scanMatch_step_ls (X ++ W ++ Y) s k hlP (by rw [hinst]; exact h1),
              scanMatch_step_ls (X ++ W2 ++ Y) s k hlQ (by rw [hinst2]; exact h1)]
            have hh := ih (s + 1) (k + 1) (by omega) (by omega) (by omega)
            rw [hfm1] at hh
            exact hh
          · by_cases h2 : instAt X s = .loopEnd
            · rw [scanMatch_step_le (X ++ W ++ Y) s k hlP (by rw [hinst]; exact h2),
                scanMatch_step_le (X ++ W2 ++ Y) s k hlQ (by rw [hinst2]; exact h2)]
              by_cases hk1 : k = 1
              · rw [if_pos hk1]
                right
                refine ⟨s, rfl, by omega, ?_⟩
                rw [if_pos hk1, hfm0]
              · rw [if_neg hk1, if_neg hk1]
                have hh := ih (s + 1) (k - 1) (by omega) (by omega) (by omega)
                rw [hfm1] at hh
                exact hh
            · rw [scanMatch_step_other (X ++ W ++ Y) s k hlP (by rw [hinst]; exact h1)
                  (by rw [hinst]; exact h2),
                scanMatch_step_other (X ++ W2 ++ Y) s k hlQ (by rw [hinst2]; exact h1)
                  (by rw [hinst2]; exact h2)]
              have hh := ih (s + 1) k (by omega) (by omega) (by omega)
              rw [hfm1] at hh
              exact hh
  intro s k hk hs
  rcases hs with hs | hs
  · exact hXr (X.length - s) s k (le_refl _) hk hs
  · rw [show fmap X.length (W.length - W2.length) s
        = X.length + W2.length + (s - (X.length + W.length)) from by
      rw [fmap, if_neg (by omega)]
      omega]
    have h0 := hYr (s - (X.length + W.length)) k
    rw [show X.length + W.length + (s - (X.length + W.length)) = s by omega] at h0
    exact h0

/-! ## C1: generic window simulation

A pass-2 or pass-1 rewrite replaces a window `W` inside `X ++ W ++ Y` by a
shorter window `W2` (empty or a single non-bracket instruction).  The master
theorem below transports a halting run of the original program to the spliced
program, provided bracket scans cross the window intact and the window has a
matching big-step execution. -/

theorem fmap_le (a d x : Nat) (h : x ≤ a) : fmap a d x = x := by
  rw [fmap, if_pos h]

theorem fmap_gt (a d x : Nat) (h : ¬ x ≤ a) : fmap a d x = x - d := by
  rw [fmap, if_neg h]

theorem fmap_succ_out (a wl d x : Nat) (hd : d ≤ wl) (hwl : 1 ≤ wl)
    (h : x < a ∨ a + wl ≤ x) : fmap a d (x + 1) = fmap a d x + 1 := by
  rcases h with h | h
  · rw [fmap_le a d x (by omega), fmap_le a d (x + 1) (by omega)]
  · rw [fmap_gt a d x (by omega), fmap_gt a d (x + 1) (by omega)]
    omega

/-- Outside the window, the spliced program holds the same instruction at the
translated position. -/
theorem instAt_out (X W W2 Y : List IR) (hw : 1 ≤ W.length) (hw2 : W2.length ≤ W.length)
    (i : Nat) (h : i < X.length ∨ X.length + W.length ≤ i) :
    instAt (X ++ W2 ++ Y) (fmap X.length (W.length - W2.length) i)
      = instAt (X ++ W ++ Y) i := by
  rcases h with h | h
  · rw [fmap_le _ _ _ (by omega)]
    rw [instAt_append_left (X ++ W2) Y i (by simp only [List.length_append]; omega),
      instAt_append_left X W2 i h,
      instAt_append_left (X ++ W) Y i (by simp only [List.length_append]; omega),
      instAt_append_left X W i h]
  · rw [show fmap X.length (W.length - W2.length) i
        = (X ++ W2).length + (i - (X.length + W.length)) from by
      rw [fmap_gt _ _ _ (by omega)]
      simp only [List.length_append]
      omega]
    rw [instAt_append_right (X ++ W2) Y]
    conv_rhs => rw [show i = (X ++ W).length + (i - (X.length + W.length)) from by
      simp only [List.length_append]
      omega]
    rw [instAt_append_right (X ++ W) Y]

/-- `j` successful in-range interpreter steps. -/
def stepN (insts : List IR) : Nat → Config → Option Config
  | 0, c => some c
  | j + 1, c =>
      if c.ip < insts.length then
        match step insts c with
        | .ok c1 => stepN insts j c1
        | .error _ => none
      else none

theorem stepN_zero (insts : List IR) (c : Config) : stepN insts 0 c = some c := rfl

theorem stepN_succ (insts : List IR) (j : Nat) (c c1 : Config)
    (h : c.ip < insts.length) (hs : step insts c = .ok c1) :
    stepN insts (j + 1) c = stepN insts j c1 := by
  rw [stepN, if_pos h, hs]

/-- Splitting a successful run after a prefix of explicit steps. -/
theorem run_stepN (insts : List IR) :
    ∀ (j fuel : Nat) (c c1 : Config), stepN insts j c = some c1 → j ≤ fuel →
      run insts fuel c = run insts (fuel - j) c1 := by
  intro j
  induction j with
  | zero =>
      intro fuel c c1 h hle
      cases h
      rfl
  | succ j ih =>
      intro fuel c c1 h hle
      rw [stepN] at h
      by_cases hip : c.ip < insts.length
      · rw [if_pos hip] at h
        rcases hs : step insts c with e | c2 <;> rw [hs] at h
        · cases h
        · rcases fuel with _ | f
          · omega
          rw [run_step_ok insts f c c2 hip hs, ih f c2 c1 h (by omega)]
          congr 1
          omega
      · rw [if_neg hip] at h
        cases h

theorem stepN_good (insts : List IR) :
    ∀ (j : Nat) (c c1 : Config), stepN insts j c = some c1 →
      tapeGood c.mach.tape → c.mach.ptr < tapeLen →
      tapeGood c1.mach.tape ∧ c1.mach.ptr < tapeLen := by
  intro j
  induction j with
  | zero =>
      intro c c1 h hg hp
      cases h
      exact ⟨hg, hp⟩
  | succ j ih =>
      intro c c1 h hg hp
      rw [stepN] at h
      by_cases hip : c.ip < insts.length
      · rw [if_pos hip] at h
        rcases hs : step insts c with e | c2 <;> rw [hs] at h
        · cases h
        · obtain ⟨hg2, hp2⟩ := step_good insts c c2 hs hg hp
          exact ih c2 c1 h hg2 hp2
      · rw [if_neg hip] at h
        cases h

/-- The window rewrite target: the spliced window is empty (the machine is
unchanged) or a single non-bracket instruction (the machine takes its one
`stepInst`). -/
def WErel (W2 : List IR) (m m2 : Machine) : Prop :=
  match W2 with
  | [] => m2 = m
  | [z] => stepInst z m = .ok m2
  | _ => False

/-- The simulation relation: the spliced run mirrors the original with all
positions translated by `fmap`, identical machine, and the original position
and stack outside the window interior. -/
def Rel (a wl d : Nat) (c c' : Config) : Prop :=
  c'.ip = fmap a d c.ip ∧
  c'.stack = c.stack.map (fmap a d) ∧
  c'.mach = c.mach ∧
  (c.ip ≤ a ∨ a + wl ≤ c.ip) ∧
  (∀ p ∈ c.stack, p < a ∨ a + wl ≤ p) ∧
  tapeGood c.mach.tape ∧ c.mach.ptr < tapeLen

/-- Master simulation: a halting run of `X ++ W ++ Y` transports to
`X ++ W2 ++ Y` with the same final machine, given window crossing for
bracket scans and a big-step correspondence for the window itself. -/
theorem master_sim (X W W2 Y : List IR) (hw : 1 ≤ W.length) (hw2 : W2.length ≤ W.length)
    (hW2 : W2 = [] ∨ ∃ z, W2 = [z] ∧ z ≠ IR.loopStart ∧ z ≠ IR.loopEnd)
    (crossP : ∀ k, 1 ≤ k →
      scanMatch (X ++ W ++ Y) X.length k
        = scanMatch (X ++ W ++ Y) (X.length + W.length) k)
    (crossQ : ∀ k, 1 ≤ k →
      scanMatch (X ++ W2 ++ Y) X.length k
        = scanMatch (X ++ W2 ++ Y) (X.length + W2.length) k)
    (HBig : ∀ (st : List Nat) (m : Machine) (fuel : Nat) (dcfg : Config),
      tapeGood m.tape → m.ptr < tapeLen →
      run (X ++ W ++ Y) fuel ⟨X.length, st, m⟩ = some (.ok dcfg) →
      ∃ j m2, 1 ≤ j ∧ j ≤ fuel ∧
        stepN (X ++ W ++ Y) j ⟨X.length, st, m⟩
          = some ⟨X.length + W.length, st, m2⟩ ∧ WErel W2 m m2) :
    ∀ (fuel : Nat) (c c' dcfg : Config),
      Rel X.length W.length (W.length - W2.length) c c' →
      run (X ++ W ++ Y) fuel c = some (.ok dcfg) →
      ∃ fuel2 d', run (X ++ W2 ++ Y) fuel2 c' = some (.ok d') ∧ d'.mach = dcfg.mach := by
  intro fuel
  induction fuel using Nat.strong_induction_on with
  | _ fuel ih =>
  intro c c' dcfg hrel hok
  obtain ⟨hip', hstk', hm', hout, hstkout, hg, hp⟩ := hrel
  by_cases hin : c.ip < (X ++ W ++ Y).length
  case neg =>
    have hdone := run_halt (X ++ W ++ Y) fuel c hin
    rw [hdone] at hok
    injection hok with hok2
    injection hok2 with hok3
    refine ⟨0, c', run_halt _ 0 c' ?_, ?_⟩
    · rw [hip']
      intro hlt
      simp only [List.length_append] at hin hlt
      rcases hout with h | h
      · rw [fmap_le _ _ _ h] at hlt
        omega
      · rw [fmap_gt _ _ _ (by omega)] at hlt
        omega
    · rw [hm', hok3]
  case pos =>
  by_cases hwin : c.ip = X.length
  · -- window entry: use the big-step hypothesis
    have hok2 : run (X ++ W ++ Y) fuel ⟨X.length, c.stack, c.mach⟩ = some (.ok dcfg) := by
      rw [← hwin]
      exact hok
    obtain ⟨j, m2, hj1, hjf, hstepN, hWE⟩ := HBig c.stack c.mach fuel dcfg hg hp hok2
    rw [run_stepN (X ++ W ++ Y) j fuel _ _ hstepN hjf] at hok2
    have hgood2 := stepN_good (X ++ W ++ Y) j _ _ hstepN hg hp
    have hcip : c'.ip = X.length := by
      rw [hip', hwin, fmap_le _ _ _ (le_refl _)]
    have hceq : c' = ⟨X.length, c.stack.map (fmap X.length (W.length - W2.length)), c.mach⟩ := by
      nth_rewrite 1 [← hcip]
      rw [← hstk', ← hm']
    have hQstep : stepN (X ++ W2 ++ Y) W2.length
        ⟨X.length, c.stack.map (fmap X.length (W.length - W2.length)), c.mach⟩
        = some ⟨X.length + W2.length,
            c.stack.map (fmap X.length (W.length - W2.length)), m2⟩ := by
      rcases hW2 with hW2e | ⟨z, hW2z, hzs, hze⟩
      · rw [hW2e]
        rw [show m2 = c.mach from by rw [hW2e] at hWE; exact hWE]
        rfl
      · have hWEz : stepInst z c.mach = .ok m2 := by
          rw [hW2z] at hWE
          exact hWE
        rw [hW2z]
        have hiz : instAt (X ++ [z] ++ Y) X.length = z := by
          rw [List.append_assoc]
          have h0 := instAt_append_right X ([z] ++ Y) 0
          rw [Nat.add_zero] at h0
          rw [h0]
          rfl
        have hlen : X.length < (X ++ [z] ++ Y).length := by
          simp only [List.length_append, List.length_cons, List.length_nil]
          omega
        have hsq : step (X ++ [z] ++ Y)
            ⟨X.length, c.stack.map (fmap X.length (W.length - ([z] : List IR).length)), c.mach⟩
            = .ok ⟨X.length + 1,
                c.stack.map (fmap X.length (W.length - ([z] : List IR).length)), m2⟩ := by
          have h1 := step_nonbracket (X ++ [z] ++ Y)
            ⟨X.length, c.stack.map (fmap X.length (W.length - ([z] : List IR).length)), c.mach⟩
            z hiz hzs hze
          rw [hWEz] at h1
          exact h1
        have h2 := stepN_succ (X ++ [z] ++ Y) 0 _ _ hlen hsq
        rw [stepN_zero] at h2
        exact h2
    have hrel2 : Rel X.length W.length (W.length - W2.length)
        ⟨X.length + W.length, c.stack, m2⟩
        ⟨X.length + W2.length, c.stack.map (fmap X.length (W.length - W2.length)), m2⟩ := by
      refine ⟨?_, rfl, rfl, ?_, hstkout, hgood2.1, hgood2.2⟩
      · show X.length + W2.length = fmap X.length (W.length - W2.length) (X.length + W.length)
        rw [fmap_gt _ _ _ (by omega)]
        omega
      · right
        exact le_refl _
    obtain ⟨fuelQ, d', hrunQ, hmach⟩ := ih (fuel - j) (by omega) _ _ dcfg hrel2 hok2
    refine ⟨fuelQ + W2.length, d', ?_, hmach⟩
    rw [hceq]
    rw [run_stepN (X ++ W2 ++ Y) W2.length (fuelQ + W2.length) _ _ hQstep (by omega)]
    rw [show fuelQ + W2.length - W2.length = fuelQ from by omega]
    exact hrunQ
  · -- an ordinary instruction strictly outside the window
    have houts : c.ip < X.length ∨ X.length + W.length ≤ c.ip := by
      rcases hout with h | h
      · left
        omega
      · right
        exact h
    have hQin : c'.ip < (X ++ W2 ++ Y).length := by
      rw [hip']
      simp only [List.length_append] at hin ⊢
      rcases houts with h | h
      · rw [fmap_le _ _ _ (by omega)]
        omega
      · rw [fmap_gt _ _ _ (by omega)]
        omega
    have hfm1 : fmap X.length (W.length - W2.length) (c.ip + 1)
        = fmap X.length (W.length - W2.length) c.ip + 1 :=
      fmap_succ_out X.length W.length (W.length - W2.length) c.ip (by omega) hw houts
    rcases fuel with _ | f
    · rw [run, if_pos hin] at hok
      cases hok
    by_cases hLS : instAt (X ++ W ++ Y) c.ip = IR.loopStart
    · have hI2 : instAt (X ++ W2 ++ Y) c'.ip = IR.loopStart := by
        rw [hip', instAt_out X W W2 Y hw hw2 c.ip houts]
        exact hLS
      rw [run, if_pos hin] at hok
      by_cases hz : c.mach.tape c.mach.ptr ≠ 0
      · have hsP : step (X ++ W ++ Y) c = .ok ⟨c.ip + 1, c.ip :: c.stack, c.mach⟩ := by
          unfold step
          rw [hLS]
          dsimp only
          rw [if_pos hz]
        rw [hsP] at hok
        dsimp only at hok
        have hsQ : step (X ++ W2 ++ Y) c' = .ok ⟨c'.ip + 1, c'.ip :: c'.stack, c'.mach⟩ := by
          unfold step
          rw [hI2]
          dsimp only
          rw [if_pos (by rw [hm']; exact hz)]
        have hrel2 : Rel X.length W.length (W.length - W2.length)
            ⟨c.ip + 1, c.ip :: c.stack, c.mach⟩ ⟨c'.ip + 1, c'.ip :: c'.stack, c'.mach⟩ := by
          refine ⟨?_, ?_, hm', ?_, ?_, hg, hp⟩
          · show c'.ip + 1 = fmap X.length (W.length - W2.length) (c.ip + 1)
            rw [hfm1, hip']
          · show c'.ip :: c'.stack = (c.ip :: c.stack).map (fmap X.length (W.length - W2.length))
            rw [List.map_cons, hip', hstk']
          · show c.ip + 1 ≤ X.length ∨ X.length + W.length ≤ c.ip + 1
            omega
          · intro p hpmem
            rcases List.mem_cons.mp hpmem with h | h
            · rw [h]
              exact houts
            · exact hstkout p h
        obtain ⟨fuelQ, d', hrunQ, hmach⟩ := ih f (by omega) _ _ dcfg hrel2 hok
        refine ⟨fuelQ + 1, d', ?_, hmach⟩
        rw [run_step_ok (X ++ W2 ++ Y) fuelQ c' _ hQin hsQ]
        exact hrunQ
      · rcases hsc : scanMatch (X ++ W ++ Y) (c.ip + 1) 1 with _ | jj
        · have hsP : step (X ++ W ++ Y) c = .error .unmatchedOpen := by
            unfold step
            rw [hLS]
            dsimp only
            rw [if_neg hz, hsc]
          rw [hsP] at hok
          dsimp only at hok
          cases hok
        · have hsP : step (X ++ W ++ Y) c = .ok ⟨jj, c.ip :: c.stack, c.mach⟩ := by
            unfold step
            rw [hLS]
            dsimp only
            rw [if_neg hz, hsc]
          rw [hsP] at hok
          dsimp only at hok
          have hsim := scanMatch_sim X W W2 Y hw hw2 crossP crossQ (c.ip + 1) 1
            (le_refl 1) (by omega)
          rcases hsim with ⟨hn1, _⟩ | ⟨j2, hsome, hout2, hQsome⟩
          · rw [hsc] at hn1
            cases hn1
          · rw [hsc] at hsome
            injection hsome with hj2
            subst hj2
            have hsQ : step (X ++ W2 ++ Y) c'
                = .ok ⟨fmap X.length (W.length - W2.length) jj,
                    c'.ip :: c'.stack, c'.mach⟩ := by
              unfold step
              rw [hI2]
              dsimp only
              rw [if_neg (by rw [hm']; exact hz)]
              rw [show c'.ip + 1 = fmap X.length (W.length - W2.length) (c.ip + 1) from by
                rw [hfm1, hip']]
              rw [hQsome]
            have hrel2 : Rel X.length W.length (W.length - W2.length)
                ⟨jj, c.ip :: c.stack, c.mach⟩
                ⟨fmap X.length (W.length - W2.length) jj,
                  c'.ip :: c'.stack, c'.mach⟩ := by
              refine ⟨rfl, ?_, hm', ?_, ?_, hg, hp⟩
              · show c'.ip :: c'.stack
                  = (c.ip :: c.stack).map (fmap X.length (W.length - W2.length))
                rw [List.map_cons, hip', hstk']
              · show jj ≤ X.length ∨ X.length + W.length ≤ jj
                omega
              · intro p hpmem
                rcases List.mem_cons.mp hpmem with h | h
                · rw [h]
                  exact houts
                · exact hstkout p h
            obtain ⟨fuelQ, d', hrunQ, hmach⟩ := ih f (by omega) _ _ dcfg hrel2 hok
            refine ⟨fuelQ + 1, d', ?_, hmach⟩
            rw [run_step_ok (X ++ W2 ++ Y) fuelQ c' _ hQin hsQ]
            exact hrunQ
    by_cases hLE : instAt (X ++ W ++ Y) c.ip = IR.loopEnd
    · have hI2 : instAt (X ++ W2 ++ Y) c'.ip = IR.loopEnd := by
        rw [hip', instAt_out X W W2 Y hw hw2 c.ip houts]
        exact hLE
      rw [run, if_pos hin] at hok
      rcases hstks : c.stack with _ | ⟨top, rest⟩
      · have hsP : step (X ++ W ++ Y) c = .error .mismatchedClose := by
          unfold step
          rw [hLE]
          dsimp only
          rw [hstks]
        rw [hsP] at hok
        dsimp only at hok
        cases hok
      · have hstkQ : c'.stack = fmap X.length (W.length - W2.length) top
            :: rest.map (fmap X.length (W.length - W2.length)) := by
          rw [hstk', hstks, List.map_cons]
        have htop : top < X.length ∨ X.length + W.length ≤ top := by
          refine hstkout top ?_
          rw [hstks]
          exact List.mem_cons_self _ _
        have hrest : ∀ p ∈ rest, p < X.length ∨ X.length + W.length ≤ p := by
          intro p hpmem
          refine hstkout p ?_
          rw [hstks]
          exact List.mem_cons_of_mem _ hpmem
        by_cases hz : c.mach.tape c.mach.ptr ≠ 0
        · have hsP : step (X ++ W ++ Y) c = .ok ⟨top, rest, c.mach⟩ := by
            unfold step
            rw [hLE]
            dsimp only
            rw [hstks]
            dsimp only
            rw [if_pos hz]
          rw [hsP] at hok
          dsimp only at hok
          have hsQ : step (X ++ W2 ++ Y) c'
              = .ok ⟨fmap X.length (W.length - W2.length) top,
                  rest.map (fmap X.length (W.length - W2.length)), c'.mach⟩ := by
            unfold step
            rw [hI2]
            dsimp only
            rw [hstkQ]
            dsimp only
            rw [if_pos (by rw [hm']; exact hz)]
          have hrel2 : Rel X.length W.length (W.length - W2.length)
              ⟨top, rest, c.mach⟩
              ⟨fmap X.length (W.length - W2.length) top,
                rest.map (fmap X.length (W.length - W2.length)), c'.mach⟩ := by
            refine ⟨rfl, rfl, hm', ?_, hrest, hg, hp⟩
            show top ≤ X.length ∨ X.length + W.length ≤ top
            omega
          obtain ⟨fuelQ, d', hrunQ, hmach⟩ := ih f (by omega) _ _ dcfg hrel2 hok
          refine ⟨fuelQ + 1, d', ?_, hmach⟩
          rw [run_step_ok (X ++ W2 ++ Y) fuelQ c' _ hQin hsQ]
          exact hrunQ
        · have hsP : step (X ++ W ++ Y) c = .ok ⟨c.ip + 1, rest, c.mach⟩ := by
            unfold step
            rw [hLE]
            dsimp only
            rw [hstks]
            dsimp only
            rw [if_neg hz]
          rw [hsP] at hok
          dsimp only at hok
          have hsQ : step (X ++ W2 ++ Y) c'
              = .ok ⟨c'.ip + 1, rest.map (fmap X.length (W.length - W2.length)), c'.mach⟩ := by
            unfold step
            rw [hI2]
            dsimp only
            rw [hstkQ]
            dsimp only
            rw [if_neg (by rw [hm']; exact hz)]
          have hrel2 : Rel X.length W.length (W.length - W2.length)
              ⟨c.ip + 1, rest, c.mach⟩
              ⟨c'.ip + 1, rest.map (fmap X.length (W.length - W2.length)), c'.mach⟩ := by
            refine ⟨?_, rfl, hm', ?_, hrest, hg, hp⟩
            · show c'.ip + 1 = fmap X.length (W.length - W2.length) (c.ip + 1)
              rw [hfm1, hip']
            · show c.ip + 1 ≤ X.length ∨ X.length + W.length ≤ c.ip + 1
              omega
          obtain ⟨fuelQ, d', hrunQ, hmach⟩ := ih f (by omega) _ _ dcfg hrel2 hok
          refine ⟨fuelQ + 1, d', ?_, hmach⟩
          rw [run_step_ok (X ++ W2 ++ Y) fuelQ c' _ hQin hsQ]
          exact hrunQ
    -- non-bracket instruction
    have hI2 : instAt (X ++ W2 ++ Y) c'.ip = instAt (X ++ W ++ Y) c.ip := by
      rw [hip']
      exact instAt_out X W W2 Y hw hw2 c.ip houts
    rw [run, if_pos hin] at hok
    have hsP0 := step_nonbracket (X ++ W ++ Y) c (instAt (X ++ W ++ Y) c.ip) rfl hLS hLE
    rcases hsi : stepInst (instAt (X ++ W ++ Y) c.ip) c.mach with e | mm2
    · rw [hsi] at hsP0
      dsimp only at hsP0
      rw [hsP0] at hok
      dsimp only at hok
      cases hok
    · rw [hsi] at hsP0
      dsimp only at hsP0
      rw [hsP0] at hok
      dsimp only at hok
      have hsQ0 := step_nonbracket (X ++ W2 ++ Y) c' (instAt (X ++ W ++ Y) c.ip) hI2 hLS hLE
      rw [hm', hsi] at hsQ0
      dsimp only at hsQ0
      have hgood2 := stepInst_good _ _ _ hsi hg hp
      have hrel2 : Rel X.length W.length (W.length - W2.length)
          ⟨c.ip + 1, c.stack, mm2⟩ ⟨c'.ip + 1, c'.stack, mm2⟩ := by
        refine ⟨?_, hstk', rfl, ?_, hstkout, hgood2.1, hgood2.2⟩
        · show c'.ip + 1 = fmap X.length (W.length - W2.length) (c.ip + 1)
          rw [hfm1, hip']
        · show c.ip + 1 ≤ X.length ∨ X.length + W.length ≤ c.ip + 1
          omega
      obtain ⟨fuelQ, d', hrunQ, hmach⟩ := ih f (by omega) _ _ dcfg hrel2 hok
      refine ⟨fuelQ + 1, d', ?_, hmach⟩
      rw [run_step_ok (X ++ W2 ++ Y) fuelQ c' _ hQin hsQ0]
      exact hrunQ

/-! ## C1: scan crossing facts for the concrete windows -/

theorem instAt_win (X W Y : List IR) (r : Nat) (hr : r < W.length) :
    instAt (X ++ W ++ Y) (X.length + r) = instAt W r := by
  rw [List.append_assoc, instAt_append_right X (W ++ Y) r, instAt_append_left W Y r hr]

theorem instAt_win0 (X W Y : List IR) (hw : 0 < W.length) :
    instAt (X ++ W ++ Y) X.length = instAt W 0 := by
  have h := instAt_win X W Y 0 hw
  rwa [Nat.add_zero] at h

theorem len_win (X W Y : List IR) :
    (X ++ W ++ Y).length = X.length + W.length + Y.length := by
  simp [List.length_append]
  omega

theorem cross_nb1 (X Y : List IR) (z : IR) (hzs : z ≠ IR.loopStart) (hze : z ≠ IR.loopEnd)
    (k : Nat) :
    scanMatch (X ++ [z] ++ Y) X.length k = scanMatch (X ++ [z] ++ Y) (X.length + 1) k := by
  have e0 : instAt (X ++ [z] ++ Y) X.length = z := instAt_win0 X [z] Y (by norm_num)
  have hL : X.length < (X ++ [z] ++ Y).length := by
    rw [len_win]
    simp only [List.length_cons, List.length_nil]
    omega
  exact scanMatch_step_other _ _ k hL (by rw [e0]; exact hzs) (by rw [e0]; exact hze)

theorem cross_nb2 (X Y : List IR) (w1 w2 : IR)
    (h1s : w1 ≠ IR.loopStart) (h1e : w1 ≠ IR.loopEnd)
    (h2s : w2 ≠ IR.loopStart) (h2e : w2 ≠ IR.loopEnd) (k : Nat) :
    scanMatch (X ++ [w1, w2] ++ Y) X.length k
      = scanMatch (X ++ [w1, w2] ++ Y) (X.length + 2) k := by
  have e0 : instAt (X ++ [w1, w2] ++ Y) X.length = w1 := instAt_win0 X [w1, w2] Y (by norm_num)
  have e1 : instAt (X ++ [w1, w2] ++ Y) (X.length + 1) = w2 :=
    instAt_win X [w1, w2] Y 1 (by norm_num)
  have hL0 : X.length < (X ++ [w1, w2] ++ Y).length := by
    rw [len_win]
    simp only [List.length_cons, List.length_nil]
    omega
  have hL1 : X.length + 1 < (X ++ [w1, w2] ++ Y).length := by
    rw [len_win]
    simp only [List.length_cons, List.length_nil]
    omega
  rw [scanMatch_step_other _ X.length k hL0 (by rw [e0]; exact h1s) (by rw [e0]; exact h1e),
    scanMatch_step_other _ (X.length + 1) k hL1 (by rw [e1]; exact h2s) (by rw [e1]; exact h2e),
    show X.length + 1 + 1 = X.length + 2 from by omega]

theorem cross_win3 (X Y : List IR) (m1 : IR) (h1s : m1 ≠ IR.loopStart) (h1e : m1 ≠ IR.loopEnd)
    (k : Nat) (hk : 1 ≤ k) :
    scanMatch (X ++ [IR.loopStart, m1, IR.loopEnd] ++ Y) X.length k
      = scanMatch (X ++ [IR.loopStart, m1, IR.loopEnd] ++ Y) (X.length + 3) k := by
  have e0 : instAt (X ++ [IR.loopStart, m1, IR.loopEnd] ++ Y) X.length = IR.loopStart :=
    instAt_win0 X _ Y (by norm_num)
  have e1 : instAt (X ++ [IR.loopStart, m1, IR.loopEnd] ++ Y) (X.length + 1) = m1 :=
    instAt_win X _ Y 1 (by norm_num)
  have e2 : instAt (X ++ [IR.loopStart, m1, IR.loopEnd] ++ Y) (X.length + 2) = IR.loopEnd :=
    instAt_win X _ Y 2 (by norm_num)
  have hL : ∀ r, r < 3 → X.length + r < (X ++ [IR.loopStart, m1, IR.loopEnd] ++ Y).length := by
    intro r hr
    rw [len_win]
    simp only [List.length_cons, List.length_nil]
    omega
  rw [scanMatch_step_ls _ X.length k (hL 0 (by norm_num)) e0,
    scanMatch_step_other _ (X.length + 1) (k + 1) (hL 1 (by norm_num))
      (by rw [e1]; exact h1s) (by rw [e1]; exact h1e),
    show X.length + 1 + 1 = X.length + 2 from by omega,
    scanMatch_step_le _ (X.length + 2) (k + 1) (hL 2 (by norm_num)) e2,
    if_neg (by omega),
    show X.length + 2 + 1 = X.length + 3 from by omega,
    show k + 1 - 1 = k from by omega]

theorem cross_win5 (X Y : List IR) (m1 m2 m3 : IR)
    (h1s : m1 ≠ IR.loopStart) (h1e : m1 ≠ IR.loopEnd)
    (h2s : m2 ≠ IR.loopStart) (h2e : m2 ≠ IR.loopEnd)
    (h3s : m3 ≠ IR.loopStart) (h3e : m3 ≠ IR.loopEnd)
    (k : Nat) (hk : 1 ≤ k) :
    scanMatch (X ++ [IR.loopStart, m1, m2, m3, IR.loopEnd] ++ Y) X.length k
      = scanMatch (X ++ [IR.loopStart, m1, m2, m3, IR.loopEnd] ++ Y) (X.length + 5) k := by
  have e0 : instAt (X ++ [IR.loopStart, m1, m2, m3, IR.loopEnd] ++ Y) X.length = IR.loopStart :=
    instAt_win0 X _ Y (by norm_num)
  have e1 : instAt (X ++ [IR.loopStart, m1, m2, m3, IR.loopEnd] ++ Y) (X.length + 1) = m1 :=
    instAt_win X _ Y 1 (by norm_num)
  have e2 : instAt (X ++ [IR.loopStart, m1, m2, m3, IR.loopEnd] ++ Y) (X.length + 2) = m2 :=
    instAt_win X _ Y 2 (by norm_num)
  have e3 : instAt (X ++ [IR.loopStart, m1, m2, m3, IR.loopEnd] ++ Y) (X.length + 3) = m3 :=
    instAt_win X _ Y 3 (by norm_num)
  have e4 : instAt (X ++ [IR.loopStart, m1, m2, m3, IR.loopEnd] ++ Y) (X.length + 4)
      = IR.loopEnd := instAt_win X _ Y 4 (by norm_num)
  have hL : ∀ r, r < 5 →
      X.length + r < (X ++ [IR.loopStart, m1, m2, m3, IR.loopEnd] ++ Y).length := by
    intro r hr
    rw [len_win]
    simp only [List.length_cons, List.length_nil]
    omega
  rw [scanMatch_step_ls _ X.length k (hL 0 (by norm_num)) e0,
    scanMatch_step_other _ (X.length + 1) (k + 1) (hL 1 (by norm_num))
      (by rw [e1]; exact h1s) (by rw [e1]; exact h1e),
    show X.length + 1 + 1 = X.length + 2 from by omega,
    scanMatch_step_other _ (X.length + 2) (k + 1) (hL 2 (by norm_num))
      (by rw [e2]; exact h2s) (by rw [e2]; exact h2e),
    show X.length + 2 + 1 = X.length + 3 from by omega,
    scanMatch_step_other _ (X.length + 3) (k + 1) (hL 3 (by norm_num))
      (by rw [e3]; exact h3s) (by rw [e3]; exact h3e),
    show X.length + 3 + 1 = X.length + 4 from by omega,
    scanMatch_step_le _ (X.length + 4) (k + 1) (hL 4 (by norm_num)) e4,
    if_neg (by omega),
    show X.length + 4 + 1 = X.length + 5 from by omega,
    show k + 1 - 1 = k from by omega]

theorem cross_win6 (X Y : List IR) (m1 m2 m3 m4 : IR)
    (h1s : m1 ≠ IR.loopStart) (h1e : m1 ≠ IR.loopEnd)
    (h2s : m2 ≠ IR.loopStart) (h2e : m2 ≠ IR.loopEnd)
    (h3s : m3 ≠ IR.loopStart) (h3e : m3 ≠ IR.loopEnd)
    (h4s : m4 ≠ IR.loopStart) (h4e : m4 ≠ IR.loopEnd)
    (k : Nat) (hk : 1 ≤ k) :
    scanMatch (X ++ [IR.loopStart, m1, m2, m3, m4, IR.loopEnd] ++ Y) X.length k
      = scanMatch (X ++ [IR.loopStart, m1, m2, m3, m4, IR.loopEnd] ++ Y) (X.length + 6) k := by
  have e0 : instAt (X ++ [IR.loopStart, m1, m2, m3, m4, IR.loopEnd] ++ Y) X.length
      = IR.loopStart := instAt_win0 X _ Y (by norm_num)
  have e1 : instAt (X ++ [IR.loopStart, m1, m2, m3, m4, IR.loopEnd] ++ Y) (X.length + 1) = m1 :=
    instAt_win X _ Y 1 (by norm_num)
  have e2 : instAt (X ++ [IR.loopStart, m1, m2, m3, m4, IR.loopEnd] ++ Y) (X.length + 2) = m2 :=
    instAt_win X _ Y 2 (by norm_num)
  have e3 : instAt (X ++ [IR.loopStart, m1, m2, m3, m4, IR.loopEnd] ++ Y) (X.length + 3) = m3 :=
    instAt_win X _ Y 3 (by norm_num)
  have e4 : instAt (X ++ [IR.loopStart, m1, m2, m3, m4, IR.loopEnd] ++ Y) (X.length + 4) = m4 :=
    instAt_win X _ Y 4 (by norm_num)
  have e5 : instAt (X ++ [IR.loopStart, m1, m2, m3, m4, IR.loopEnd] ++ Y) (X.length + 5)
      = IR.loopEnd := instAt_win X _ Y 5 (by norm_num)
  have hL : ∀ r, r < 6 →
      X.length + r < (X ++ [IR.loopStart, m1, m2, m3, m4, IR.loopEnd] ++ Y).length := by
    intro r hr
    rw [len_win]
    simp only [List.length_cons, List.length_nil]
    omega
  rw [scanMatch_step_ls _ X.length k (hL 0 (by norm_num)) e0,
    scanMatch_step_other _ (X.length + 1) (k + 1) (hL 1 (by norm_num))
      (by rw [e1]; exact h1s) (by rw [e1]; exact h1e),
    show X.length + 1 + 1 = X.length + 2 from by omega,
    scanMatch_step_other _ (X.length + 2) (k + 1) (hL 2 (by norm_num))
      (by rw [e2]; exact h2s) (by rw [e2]; exact h2e),
    show X.length + 2 + 1 = X.length + 3 from by omega,
    scanMatch_step_other _ (X.length + 3) (k + 1) (hL 3 (by norm_num))
      (by rw [e3]; exact h3s) (by rw [e3]; exact h3e),
    show X.length + 3 + 1 = X.length + 4 from by omega,
    scanMatch_step_other _ (X.length + 4) (k + 1) (hL 4 (by norm_num))
      (by rw [e4]; exact h4s) (by rw [e4]; exact h4e),
    show X.length + 4 + 1 = X.length + 5 from by omega,
    scanMatch_step_le _ (X.length + 5) (k + 1) (hL 5 (by norm_num)) e5,
    if_neg (by omega),
    show X.length + 5 + 1 = X.length + 6 from by omega,
    show k + 1 - 1 = k from by omega]

/-! ## C1: semantic preservation, window by window -/

/-- `Q` preserves every halting behavior of `P`. -/
def Pres (P Q : List IR) : Prop := ∀ inp o t, Halts P inp o t → Halts Q inp o t

theorem Pres_refl (P : List IR) : Pres P P := fun _ _ _ h => h

theorem Pres_trans {P Q R : List IR} (h1 : Pres P Q) (h2 : Pres Q R) : Pres P R :=
  fun inp o t h => h2 inp o t (h1 inp o t h)

theorem run_ok_cons (insts : List IR) (fuel : Nat) (c d : Config) (h : c.ip < insts.length)
    (hok : run insts fuel c = some (.ok d)) :
    ∃ f1 c1, fuel = f1 + 1 ∧ step insts c = .ok c1 ∧ run insts f1 c1 = some (.ok d) := by
  rcases fuel with _ | f
  · rw [run, if_pos h] at hok
    cases hok
  · rw [run, if_pos h] at hok
    rcases hs : step insts c with e | c1 <;> rw [hs] at hok
    · cases hok
    · exact ⟨f, c1, rfl, rfl, hok⟩

/-- The master theorem instantiated at the interpreter entry state. -/
theorem pres_of_sim (X W W2 Y : List IR) (hw : 1 ≤ W.length) (hw2 : W2.length ≤ W.length)
    (hW2 : W2 = [] ∨ ∃ z, W2 = [z] ∧ z ≠ IR.loopStart ∧ z ≠ IR.loopEnd)
    (crossP : ∀ k, 1 ≤ k → scanMatch (X ++ W ++ Y) X.length k
        = scanMatch (X ++ W ++ Y) (X.length + W.length) k)
    (crossQ : ∀ k, 1 ≤ k → scanMatch (X ++ W2 ++ Y) X.length k
        = scanMatch (X ++ W2 ++ Y) (X.length + W2.length) k)
    (HBig : ∀ (st : List Nat) (m : Machine) (fuel : Nat) (dcfg : Config),
      tapeGood m.tape → m.ptr < tapeLen →
      run (X ++ W ++ Y) fuel ⟨X.length, st, m⟩ = some (.ok dcfg) →
      ∃ j m2, 1 ≤ j ∧ j ≤ fuel ∧
        stepN (X ++ W ++ Y) j ⟨X.length, st, m⟩
          = some ⟨X.length + W.length, st, m2⟩ ∧ WErel W2 m m2) :
    Pres (X ++ W ++ Y) (X ++ W2 ++ Y) := by
  intro inp o t h
  obtain ⟨fuel, c, hrun, hout, htape⟩ := h
  have hrel : Rel X.length W.length (W.length - W2.length) (initConfig inp) (initConfig inp) := by
    refine ⟨?_, rfl, rfl, ?_, ?_, ?_, ?_⟩
    · show (0 : Nat) = fmap X.length (W.length - W2.length) 0
      rw [fmap_le _ _ _ (Nat.zero_le _)]
    · left
      exact Nat.zero_le _
    · intro p hp
      exact absurd hp (List.not_mem_nil p)
    · intro i _
      norm_num [initConfig, initMachine]
    · norm_num [initConfig, initMachine, tapeLen]
  obtain ⟨fuel2, d', hrunQ, hmach⟩ := master_sim X W W2 Y hw hw2 hW2 crossP crossQ HBig fuel
    (initConfig inp) (initConfig inp) c hrel hrun
  exact ⟨fuel2, d', hrunQ, by rw [hmach, hout], by rw [hmach, htape]⟩

/-- Big-step execution of a straight-line two-instruction window. -/
theorem hbig2 (X Y : List IR) (w1 w2 : IR)
    (h1s : w1 ≠ IR.loopStart) (h1e : w1 ≠ IR.loopEnd)
    (h2s : w2 ≠ IR.loopStart) (h2e : w2 ≠ IR.loopEnd)
    (st : List Nat) (m m1 m2 : Machine) (fuel : Nat) (dcfg : Config)
    (hi1 : stepInst w1 m = .ok m1) (hi2 : stepInst w2 m1 = .ok m2)
    (hok : run (X ++ [w1, w2] ++ Y) fuel ⟨X.length, st, m⟩ = some (.ok dcfg)) :
    2 ≤ fuel ∧ stepN (X ++ [w1, w2] ++ Y) 2 ⟨X.length, st, m⟩
      = some ⟨X.length + 2, st, m2⟩ := by
  have e0 : instAt (X ++ [w1, w2] ++ Y) X.length = w1 := instAt_win0 X [w1, w2] Y (by norm_num)
  have e1 : instAt (X ++ [w1, w2] ++ Y) (X.length + 1) = w2 :=
    instAt_win X [w1, w2] Y 1 (by norm_num)
  have hL0 : X.length < (X ++ [w1, w2] ++ Y).length := by
    rw [len_win]
    simp only [List.length_cons, List.length_nil]
    omega
  have hL1 : X.length + 1 < (X ++ [w1, w2] ++ Y).length := by
    rw [len_win]
    simp only [List.length_cons, List.length_nil]
    omega
  have hs1 : step (X ++ [w1, w2] ++ Y) ⟨X.length, st, m⟩ = .ok ⟨X.length + 1, st, m1⟩ := by
    have h := step_nonbracket (X ++ [w1, w2] ++ Y) ⟨X.length, st, m⟩ w1 e0 h1s h1e
    rw [hi1] at h
    exact h
  have hs2 : step (X ++ [w1, w2] ++ Y) ⟨X.length + 1, st, m1⟩
      = .ok ⟨X.length + 2, st, m2⟩ := by
    have h := step_nonbracket (X ++ [w1, w2] ++ Y) ⟨X.length + 1, st, m1⟩ w2 e1 h2s h2e
    rw [hi2] at h
    exact h
  constructor
  · obtain ⟨f1, c1, hf1, hstep1, hrun1⟩ := run_ok_cons _ fuel _ dcfg hL0 hok
    rw [hs1] at hstep1
    injection hstep1 with hc1
    subst hc1
    obtain ⟨f2, c2, hf2, hstep2, hrun2⟩ := run_ok_cons _ f1 _ dcfg hL1 hrun1
    omega
  · have h2 := stepN_succ (X ++ [w1, w2] ++ Y) 1 _ _ hL0 hs1
    have h1 := stepN_succ (X ++ [w1, w2] ++ Y) 0 _ _ hL1 hs2
    rw [stepN_zero] at h1
    exact h2.trans h1

/-- Two fused shifts preserve behavior: the spliced `Shift` is the 64-bit
wrap of the sum, and pointer wrapping composes. -/
theorem win_pres_shift (X Y : List IR) (a1 a2 : Int) :
    Pres (X ++ [IR.shift a1, IR.shift a2] ++ Y)
      (X ++ [IR.shift (isizeWrap (a1 + a2))] ++ Y) := by
  refine pres_of_sim X [IR.shift a1, IR.shift a2] [IR.shift (isizeWrap (a1 + a2))] Y
    (by norm_num) (by norm_num)
    (Or.inr ⟨IR.shift (isizeWrap (a1 + a2)), rfl, by simp, by simp⟩)
    (fun k _ => cross_nb2 X Y _ _ (by simp) (by simp) (by simp) (by simp) k)
    (fun k _ => cross_nb1 X Y _ (by simp) (by simp) k)
    ?_
  intro st m fuel dcfg hg hp hok
  obtain ⟨hf, hstep⟩ := hbig2 X Y (IR.shift a1) (IR.shift a2)
    (by simp) (by simp) (by simp) (by simp) st m
    { m with ptr := wrapPtr m.ptr a1 }
    { m with ptr := wrapPtr (wrapPtr m.ptr a1) a2 } fuel dcfg rfl rfl hok
  refine ⟨2, { m with ptr := wrapPtr (wrapPtr m.ptr a1) a2 }, by omega, hf, hstep, ?_⟩
  show stepInst (IR.shift (isizeWrap (a1 + a2))) m
      = .ok { m with ptr := wrapPtr (wrapPtr m.ptr a1) a2 }
  rw [wrapPtr_wrapPtr, ← wrapPtr_isizeWrap m.ptr (a1 + a2)]
  rfl

/-- Two fused arithmetics (nonzero wrapped sum) preserve behavior: cell
wrapping composes and the 8-bit wrap of the payload is invisible mod 256. -/
theorem win_pres_arith (X Y : List IR) (a1 a2 : Int) :
    Pres (X ++ [IR.arithmetic a1, IR.arithmetic a2] ++ Y)
      (X ++ [IR.arithmetic (i8Wrap (a1 + a2))] ++ Y) := by
  refine pres_of_sim X [IR.arithmetic a1, IR.arithmetic a2] [IR.arithmetic (i8Wrap (a1 + a2))] Y
    (by norm_num) (by norm_num)
    (Or.inr ⟨IR.arithmetic (i8Wrap (a1 + a2)), rfl, by simp, by simp⟩)
    (fun k _ => cross_nb2 X Y _ _ (by simp) (by simp) (by simp) (by simp) k)
    (fun k _ => cross_nb1 X Y _ (by simp) (by simp) k)
    ?_
  intro st m fuel dcfg hg hp hok
  obtain ⟨hf, hstep⟩ := hbig2 X Y (IR.arithmetic a1) (IR.arithmetic a2)
    (by simp) (by simp) (by simp) (by simp) st m
    { m with tape := upd m.tape m.ptr (wrapCell (m.tape m.ptr) a1) }
    { m with tape := (upd (upd m.tape m.ptr (wrapCell (m.tape m.ptr) a1)) m.ptr
        (wrapCell (upd m.tape m.ptr (wrapCell (m.tape m.ptr) a1) m.ptr) a2)) } fuel dcfg
    rfl rfl hok
  refine ⟨2, _, by omega, hf, hstep, ?_⟩
  show stepInst (IR.arithmetic (i8Wrap (a1 + a2))) m
      = .ok { m with tape := (upd (upd m.tape m.ptr (wrapCell (m.tape m.ptr) a1)) m.ptr
          (wrapCell (upd m.tape m.ptr (wrapCell (m.tape m.ptr) a1) m.ptr) a2)) }
  rw [upd_eq, upd_upd_same, wrapCell_wrapCell, ← wrapCell_i8Wrap]
  rfl

/-- Two cancelling arithmetics preserve behavior when removed outright: on a
byte tape the cell is restored exactly. -/
theorem win_pres_arith0 (X Y : List IR) (a1 a2 : Int) (hz : i8Wrap (a1 + a2) = 0) :
    Pres (X ++ [IR.arithmetic a1, IR.arithmetic a2] ++ Y) (X ++ [] ++ Y) := by
  refine pres_of_sim X [IR.arithmetic a1, IR.arithmetic a2] [] Y
    (by norm_num) (by norm_num) (Or.inl rfl)
    (fun k _ => cross_nb2 X Y _ _ (by simp) (by simp) (by simp) (by simp) k)
    (fun k _ => rfl)
    ?_
  intro st m fuel dcfg hg hp hok
  obtain ⟨hf, hstep⟩ := hbig2 X Y (IR.arithmetic a1) (IR.arithmetic a2)
    (by simp) (by simp) (by simp) (by simp) st m
    { m with tape := upd m.tape m.ptr (wrapCell (m.tape m.ptr) a1) }
    { m with tape := (upd (upd m.tape m.ptr (wrapCell (m.tape m.ptr) a1)) m.ptr
        (wrapCell (upd m.tape m.ptr (wrapCell (m.tape m.ptr) a1) m.ptr) a2)) } fuel dcfg
    rfl rfl hok
  refine ⟨2, _, by omega, hf, hstep, ?_⟩
  show ({ m with tape := (upd (upd m.tape m.ptr (wrapCell (m.tape m.ptr) a1)) m.ptr
      (wrapCell (upd m.tape m.ptr (wrapCell (m.tape m.ptr) a1) m.ptr) a2)) } : Machine) = m
  rw [upd_eq, upd_upd_same, wrapCell_wrapCell, wrapCell_self _ _ (hg m.ptr hp) hz, upd_self]

/-- Pass A preserves the halting behavior from any cursor position. -/
theorem pass1Go_pres (ir : List IR) (idx : Nat) : Pres ir (pass1Go ir idx) := by
  induction ir, idx using pass1Go.induct with
  | case1 ir idx hlen a1 a2 h1 h0 ih =>
      rw [pass1Go, dif_pos hlen, h0, h1]
      refine Pres_trans ?_ ih
      rw [splice1 ir idx _ hlen]
      have hd := window_decomp2 ir idx hlen
      nth_rewrite 1 [hd]
      rw [h0, h1]
      exact win_pres_shift (ir.take idx) (ir.drop (idx + 2)) a1 a2
  | case2 ir idx hlen a1 a2 h1 h0 hlt hz ih =>
      rw [pass1Go, dif_pos hlen, h0, h1]
      dsimp only
      rw [if_pos hlt, if_pos hz]
      refine Pres_trans ?_ ih
      rw [splice0 ir idx _ hlen]
      have hd := window_decomp2 ir idx hlen
      nth_rewrite 1 [hd]
      rw [h0, h1]
      have hw := win_pres_arith0 (ir.take idx) (ir.drop (idx + 2)) a1 a2 hz
      rwa [List.append_nil] at hw
  | case3 ir idx hlen a1 a2 h1 h0 hlt hz ih =>
      rw [pass1Go, dif_pos hlen, h0, h1]
      dsimp only
      rw [if_pos hlt, if_neg hz]
      refine Pres_trans ?_ ih
      rw [splice1 ir idx _ hlen]
      have hd := window_decomp2 ir idx hlen
      nth_rewrite 1 [hd]
      rw [h0, h1]
      exact win_pres_arith (ir.take idx) (ir.drop (idx + 2)) a1 a2
  | case4 ir idx hlen a1 a2 h1 h0 hlt ih =>
      rw [pass1Go, dif_pos hlen, h0, h1]
      dsimp only
      rw [if_neg hlt]
      exact ih
  | case5 ir idx hlen hs ha ih =>
      rw [pass1Go, dif_pos hlen]
      split
      · rename_i a1 a2 e1 e2
        exact (hs a1 a2 e1 e2).elim
      · rename_i a1 a2 e1 e2
        exact (ha a1 a2 e1 e2).elim
      · exact ih
  | case6 ir idx hlen =>
      rw [pass1Go, dif_neg hlen]
      exact Pres_refl ir

/-- Pass A preserves halting behavior. -/
theorem pass1_pres (ir : List IR) : Pres ir (optimize_pass_1 ir) := pass1Go_pres ir 0

/-- Big-step execution of the zero window `[Arithmetic k]` as a loop: on a
byte tape the loop, when it terminates, leaves exactly the current cell
zeroed. -/
theorem hbig3_zero (X Y : List IR) (k : Int) :
    ∀ (fuel : Nat) (st : List Nat) (m : Machine) (dcfg : Config),
      tapeGood m.tape → m.ptr < tapeLen →
      run (X ++ [IR.loopStart, IR.arithmetic k, IR.loopEnd] ++ Y) fuel ⟨X.length, st, m⟩ = some (.ok dcfg) →
      ∃ j, 1 ≤ j ∧ j ≤ fuel ∧
        stepN (X ++ [IR.loopStart, IR.arithmetic k, IR.loopEnd] ++ Y) j ⟨X.length, st, m⟩
          = some ⟨X.length + 3, st, { m with tape := upd m.tape m.ptr 0 }⟩ := by
  intro fuel
  induction fuel using Nat.strong_induction_on with
  | _ fuel ih =>
  intro st m dcfg hg hp hok
  have e0 : instAt (X ++ [IR.loopStart, IR.arithmetic k, IR.loopEnd] ++ Y) X.length = IR.loopStart := instAt_win0 X _ Y (by norm_num)
  have e1 : instAt (X ++ [IR.loopStart, IR.arithmetic k, IR.loopEnd] ++ Y) (X.length + 1) = IR.arithmetic k := instAt_win X _ Y 1 (by norm_num)
  have e2 : instAt (X ++ [IR.loopStart, IR.arithmetic k, IR.loopEnd] ++ Y) (X.length + 2) = IR.loopEnd := instAt_win X _ Y 2 (by norm_num)
  have hL : ∀ r, r < 3 → X.length + r < (X ++ [IR.loopStart, IR.arithmetic k, IR.loopEnd] ++ Y).length := by
    intro r hr
    rw [len_win]
    simp only [List.length_cons, List.length_nil]
    omega
  by_cases hv : m.tape m.ptr = 0
  · have hskip : scanMatch (X ++ [IR.loopStart, IR.arithmetic k, IR.loopEnd] ++ Y) (X.length + 1) 1 = some (X.length + 2) := by
      rw [scanMatch_step_other _ (X.length + 1) 1 (hL 1 (by norm_num))
          (by rw [e1]; simp) (by rw [e1]; simp),
        show X.length + 1 + 1 = X.length + 2 from by omega,
        scanMatch_step_le _ (X.length + 2) 1 (hL 2 (by norm_num)) e2,
        if_pos rfl]
    have hs1 : step (X ++ [IR.loopStart, IR.arithmetic k, IR.loopEnd] ++ Y) ⟨X.length, st, m⟩ = .ok ⟨X.length + 2, X.length :: st, m⟩ := by
      unfold step
      rw [e0]
      dsimp only
      rw [if_neg (fun hne => hne hv), hskip]
    have hs2 : step (X ++ [IR.loopStart, IR.arithmetic k, IR.loopEnd] ++ Y) ⟨X.length + 2, X.length :: st, m⟩ = .ok ⟨X.length + 3, st, m⟩ := by
      unfold step
      rw [e2]
      dsimp only
      rw [if_neg (fun hne => hne hv)]
    obtain ⟨f1, c1, hf1, hstep1, hrun1⟩ := run_ok_cons _ fuel _ dcfg (hL 0 (by norm_num)) hok
    rw [hs1] at hstep1
    injection hstep1 with hc1
    subst hc1
    obtain ⟨f2, c2, hf2, hstep2, hrun2⟩ := run_ok_cons _ f1 _ dcfg (hL 2 (by norm_num)) hrun1
    refine ⟨2, by omega, by omega, ?_⟩
    have h2 := stepN_succ (X ++ [IR.loopStart, IR.arithmetic k, IR.loopEnd] ++ Y) 1 _ _ (hL 0 (by norm_num)) hs1
    have h1 := stepN_succ (X ++ [IR.loopStart, IR.arithmetic k, IR.loopEnd] ++ Y) 0 _ _ (hL 2 (by norm_num)) hs2
    rw [stepN_zero] at h1
    rw [show ({ m with tape := upd m.tape m.ptr 0 } : Machine) = m from by
      rw [← hv, upd_self]]
    exact h2.trans h1
  · have hs1 : step (X ++ [IR.loopStart, IR.arithmetic k, IR.loopEnd] ++ Y) ⟨X.length, st, m⟩ = .ok ⟨X.length + 1, X.length :: st, m⟩ := by
      unfold step
      rw [e0]
      dsimp only
      rw [if_pos hv]
    have hs2 : step (X ++ [IR.loopStart, IR.arithmetic k, IR.loopEnd] ++ Y) ⟨X.length + 1, X.length :: st, m⟩
        = .ok ⟨X.length + 2, X.length :: st,
            { m with tape := upd m.tape m.ptr (wrapCell (m.tape m.ptr) k) }⟩ := by
      have h := step_nonbracket (X ++ [IR.loopStart, IR.arithmetic k, IR.loopEnd] ++ Y) ⟨X.length + 1, X.length :: st, m⟩ (IR.arithmetic k) e1
        (by simp) (by simp)
      rw [show stepInst (IR.arithmetic k) m
          = .ok { m with tape := upd m.tape m.ptr (wrapCell (m.tape m.ptr) k) } from rfl] at h
      exact h
    by_cases hv2 : wrapCell (m.tape m.ptr) k = 0
    · have hs3 : step (X ++ [IR.loopStart, IR.arithmetic k, IR.loopEnd] ++ Y) ⟨X.length + 2, X.length :: st,
          { m with tape := upd m.tape m.ptr (wrapCell (m.tape m.ptr) k) }⟩
          = .ok ⟨X.length + 3, st,
            { m with tape := upd m.tape m.ptr (wrapCell (m.tape m.ptr) k) }⟩ := by
        unfold step
        rw [e2]
        dsimp only
        rw [if_neg (fun hne => hne (by
          show upd m.tape m.ptr (wrapCell (m.tape m.ptr) k) m.ptr = 0
          rw [upd_eq]
          exact hv2))]
      obtain ⟨f1, c1, hf1, hstep1, hrun1⟩ := run_ok_cons _ fuel _ dcfg (hL 0 (by norm_num)) hok
      rw [hs1] at hstep1
      injection hstep1 with hc1
      subst hc1
      obtain ⟨f2, c2, hf2, hstep2, hrun2⟩ := run_ok_cons _ f1 _ dcfg (hL 1 (by norm_num)) hrun1
      rw [hs2] at hstep2
      injection hstep2 with hc2
      subst hc2
      obtain ⟨f3, c3, hf3, hstep3, hrun3⟩ := run_ok_cons _ f2 _ dcfg (hL 2 (by norm_num)) hrun2
      refine ⟨3, by omega, by omega, ?_⟩
      have h3 := stepN_succ (X ++ [IR.loopStart, IR.arithmetic k, IR.loopEnd] ++ Y) 2 _ _ (hL 0 (by norm_num)) hs1
      have h2 := stepN_succ (X ++ [IR.loopStart, IR.arithmetic k, IR.loopEnd] ++ Y) 1 _ _ (hL 1 (by norm_num)) hs2
      have h1 := stepN_succ (X ++ [IR.loopStart, IR.arithmetic k, IR.loopEnd] ++ Y) 0 _ _ (hL 2 (by norm_num)) hs3
      rw [stepN_zero] at h1
      rw [show upd m.tape m.ptr 0 = upd m.tape m.ptr (wrapCell (m.tape m.ptr) k) from by
        rw [hv2]]
      exact (h3.trans h2).trans h1
    · have hs3 : step (X ++ [IR.loopStart, IR.arithmetic k, IR.loopEnd] ++ Y) ⟨X.length + 2, X.length :: st,
          { m with tape := upd m.tape m.ptr (wrapCell (m.tape m.ptr) k) }⟩
          = .ok ⟨X.length, st,
            { m with tape := upd m.tape m.ptr (wrapCell (m.tape m.ptr) k) }⟩ := by
        unfold step
        rw [e2]
        dsimp only
        rw [if_pos (by
          show upd m.tape m.ptr (wrapCell (m.tape m.ptr) k) m.ptr ≠ 0
          rw [upd_eq]
          exact hv2)]
      obtain ⟨f1, c1, hf1, hstep1, hrun1⟩ := run_ok_cons _ fuel _ dcfg (hL 0 (by norm_num)) hok
      rw [hs1] at hstep1
      injection hstep1 with hc1
      subst hc1
      obtain ⟨f2, c2, hf2, hstep2, hrun2⟩ := run_ok_cons _ f1 _ dcfg (hL 1 (by norm_num)) hrun1
      rw [hs2] at hstep2
      injection hstep2 with hc2
      subst hc2
      obtain ⟨f3, c3, hf3, hstep3, hrun3⟩ := run_ok_cons _ f2 _ dcfg (hL 2 (by norm_num)) hrun2
      rw [hs3] at hstep3
      injection hstep3 with hc3
      subst hc3
      obtain ⟨j, hj1, hjf, hstepN⟩ := ih f3 (by omega) st
        { m with tape := upd m.tape m.ptr (wrapCell (m.tape m.ptr) k) } dcfg
        (tapeGood_upd _ _ _ hg (wrapCell_lt _ k)) hp hrun3
      refine ⟨j + 3, by omega, by omega, ?_⟩
      rw [show j + 3 = (j + 2) + 1 from rfl,
        stepN_succ (X ++ [IR.loopStart, IR.arithmetic k, IR.loopEnd] ++ Y) (j + 2) _ _ (hL 0 (by norm_num)) hs1,
        show j + 2 = (j + 1) + 1 from rfl,
        stepN_succ (X ++ [IR.loopStart, IR.arithmetic k, IR.loopEnd] ++ Y) (j + 1) _ _ (hL 1 (by norm_num)) hs2,
        stepN_succ (X ++ [IR.loopStart, IR.arithmetic k, IR.loopEnd] ++ Y) j _ _ (hL 2 (by norm_num)) hs3,
        hstepN]
      show some (⟨X.length + 3, st,
          { m with tape := (upd (upd m.tape m.ptr (wrapCell (m.tape m.ptr) k)) m.ptr 0) }⟩
            : Config) = _
      rw [upd_upd_same]

/-- The zero window rewrite preserves behavior. -/
theorem win_pres_zero (X Y : List IR) (k : Int) :
    Pres (X ++ [IR.loopStart, IR.arithmetic k, IR.loopEnd] ++ Y) (X ++ [IR.zero] ++ Y) := by
  refine pres_of_sim X [IR.loopStart, IR.arithmetic k, IR.loopEnd] [IR.zero] Y
    (by norm_num) (by norm_num)
    (Or.inr ⟨IR.zero, rfl, by simp, by simp⟩)
    (fun k2 hk2 => cross_win3 X Y _ (by simp) (by simp) k2 hk2)
    (fun k2 _ => cross_nb1 X Y _ (by simp) (by simp) k2)
    ?_
  intro st m fuel dcfg hg hp hok
  obtain ⟨j, hj1, hjf, hstepN⟩ := hbig3_zero X Y k fuel st m dcfg hg hp hok
  exact ⟨j, { m with tape := upd m.tape m.ptr 0 }, hj1, hjf, hstepN, rfl⟩

/-! ## C1: the Move window -/

theorem move_skip (t : Nat → Nat) (p np : Nat) (hgn : t np < 256) (hv : t p = 0) :
    upd (upd t np ((t np + t p) % 256)) p 0 = t := by
  funext x
  by_cases hxp : x = p
  · subst hxp
    rw [upd_eq]
    exact hv.symm
  · rw [upd_ne _ _ _ _ hxp]
    by_cases hxn : x = np
    · subst hxn
      rw [upd_eq, hv]
      omega
    · rw [upd_ne _ _ _ _ hxn]

theorem move_iter (t : Nat → Nat) (p np : Nat) (hgp : t p < 256) (hgn : t np < 256)
    (hv : t p ≠ 0) :
    upd (upd (upd (upd t np ((t np + 1) % 256)) p (((upd t np ((t np + 1) % 256)) p + 255) % 256)) np (((upd (upd t np ((t np + 1) % 256)) p (((upd t np ((t np + 1) % 256)) p + 255) % 256)) np + (upd (upd t np ((t np + 1) % 256)) p (((upd t np ((t np + 1) % 256)) p + 255) % 256)) p) % 256)) p 0
      = (upd (upd t np ((t np + t p) % 256)) p 0) := by
  by_cases hnp : np = p
  · rw [hnp]
    funext x
    by_cases hxp : x = p
    · subst hxp
      rw [upd_eq, upd_eq]
    · rw [upd_ne _ _ _ _ hxp, upd_ne _ _ _ _ hxp, upd_ne _ _ _ _ hxp, upd_ne _ _ _ _ hxp,
        upd_ne _ _ _ _ hxp, upd_ne _ _ _ _ hxp]
  · have hpn : ¬ p = np := fun h => hnp h.symm
    rw [upd_ne _ _ _ _ hpn]
    rw [show (upd (upd t np ((t np + 1) % 256)) p ((t p + 255) % 256)) np = (t np + 1) % 256 from by
      rw [upd_ne _ _ _ _ hnp, upd_eq]]
    rw [upd_eq]
    funext x
    by_cases hxp : x = p
    · subst hxp
      rw [upd_eq, upd_eq]
    · rw [upd_ne _ _ _ _ hxp, upd_ne _ _ _ _ hxp]
      by_cases hxn : x = np
      · subst hxn
        rw [upd_eq, upd_eq]
        omega
      · rw [upd_ne _ _ _ _ hxn, upd_ne _ _ _ _ hxp, upd_ne _ _ _ _ hxn, upd_ne _ _ _ _ hxn]

theorem move_exit (t : Nat → Nat) (p np : Nat) (hgp : t p < 256) (hgn : t np < 256)
    (hv : t p ≠ 0) (hx : ((upd t np ((t np + 1) % 256)) p + 255) % 256 = 0) :
    (upd (upd t np ((t np + 1) % 256)) p (((upd t np ((t np + 1) % 256)) p + 255) % 256)) = (upd (upd t np ((t np + t p) % 256)) p 0) := by
  by_cases hnp : np = p
  · rw [hnp] at hx
    rw [upd_eq] at hx
    exact absurd hx (by omega)
  · have hpn : ¬ p = np := fun h => hnp h.symm
    rw [upd_ne _ _ _ _ hpn] at hx
    rw [upd_ne _ _ _ _ hpn]
    funext x
    by_cases hxp : x = p
    · subst hxp
      rw [upd_eq, upd_eq]
      exact hx
    · rw [upd_ne _ _ _ _ hxp, upd_ne _ _ _ _ hxp]
      by_cases hxn : x = np
      · subst hxn
        rw [upd_eq, upd_eq]
        omega
      · rw [upd_ne _ _ _ _ hxn, upd_ne _ _ _ _ hxn]

/-- Big-step execution of the Move window loop. -/
theorem hbig6_move (X Y : List IR) (o : Int) :
    ∀ (fuel : Nat) (st : List Nat) (m : Machine) (dcfg : Config),
      tapeGood m.tape → m.ptr < tapeLen →
      run (X ++ [IR.loopStart, IR.shift o, IR.arithmetic 1, IR.shift (-o), IR.arithmetic (-1), IR.loopEnd] ++ Y) fuel ⟨X.length, st, m⟩ = some (.ok dcfg) →
      ∃ j, 1 ≤ j ∧ j ≤ fuel ∧
        stepN (X ++ [IR.loopStart, IR.shift o, IR.arithmetic 1, IR.shift (-o), IR.arithmetic (-1), IR.loopEnd] ++ Y) j ⟨X.length, st, m⟩
          = some ⟨X.length + 6, st, { m with tape := (upd (upd m.tape (wrapPtr m.ptr o) ((m.tape (wrapPtr m.ptr o) + m.tape m.ptr) % 256)) m.ptr 0) }⟩ := by
  intro fuel
  induction fuel using Nat.strong_induction_on with
  | _ fuel ih =>
  intro st m dcfg hg hp hok
  have e0 : instAt (X ++ [IR.loopStart, IR.shift o, IR.arithmetic 1, IR.shift (-o), IR.arithmetic (-1), IR.loopEnd] ++ Y) X.length = IR.loopStart := instAt_win0 X _ Y (by norm_num)
  have e1 : instAt (X ++ [IR.loopStart, IR.shift o, IR.arithmetic 1, IR.shift (-o), IR.arithmetic (-1), IR.loopEnd] ++ Y) (X.length + 1) = IR.shift o := instAt_win X _ Y 1 (by norm_num)
  have e2 : instAt (X ++ [IR.loopStart, IR.shift o, IR.arithmetic 1, IR.shift (-o), IR.arithmetic (-1), IR.loopEnd] ++ Y) (X.length + 2) = IR.arithmetic 1 := instAt_win X _ Y 2 (by norm_num)
  have e3 : instAt (X ++ [IR.loopStart, IR.shift o, IR.arithmetic 1, IR.shift (-o), IR.arithmetic (-1), IR.loopEnd] ++ Y) (X.length + 3) = IR.shift (-o) := instAt_win X _ Y 3 (by norm_num)
  have e4 : instAt (X ++ [IR.loopStart, IR.shift o, IR.arithmetic 1, IR.shift (-o), IR.arithmetic (-1), IR.loopEnd] ++ Y) (X.length + 4) = IR.arithmetic (-1) := instAt_win X _ Y 4 (by norm_num)
  have e5 : instAt (X ++ [IR.loopStart, IR.shift o, IR.arithmetic 1, IR.shift (-o), IR.arithmetic (-1), IR.loopEnd] ++ Y) (X.length + 5) = IR.loopEnd := instAt_win X _ Y 5 (by norm_num)
  have hL : ∀ r, r < 6 → X.length + r < (X ++ [IR.loopStart, IR.shift o, IR.arithmetic 1, IR.shift (-o), IR.arithmetic (-1), IR.loopEnd] ++ Y).length := by
    intro r hr
    rw [len_win]
    simp only [List.length_cons, List.length_nil]
    omega
  have hgp : m.tape m.ptr < 256 := hg m.ptr hp
  have hgn : m.tape (wrapPtr m.ptr o) < 256 := hg (wrapPtr m.ptr o) (wrapPtr_lt m.ptr o)
  by_cases hv : m.tape m.ptr = 0
  · -- zero cell: the loop is skipped in two steps
    have hskip : scanMatch (X ++ [IR.loopStart, IR.shift o, IR.arithmetic 1, IR.shift (-o), IR.arithmetic (-1), IR.loopEnd] ++ Y) (X.length + 1) 1 = some (X.length + 5) := by
      rw [scanMatch_step_other _ (X.length + 1) 1 (hL 1 (by norm_num))
          (by rw [e1]; simp) (by rw [e1]; simp),
        show X.length + 1 + 1 = X.length + 2 from by omega,
        scanMatch_step_other _ (X.length + 2) 1 (hL 2 (by norm_num))
          (by rw [e2]; simp) (by rw [e2]; simp),
        show X.length + 2 + 1 = X.length + 3 from by omega,
        scanMatch_step_other _ (X.length + 3) 1 (hL 3 (by norm_num))
          (by rw [e3]; simp) (by rw [e3]; simp),
        show X.length + 3 + 1 = X.length + 4 from by omega,
        scanMatch_step_other _ (X.length + 4) 1 (hL 4 (by norm_num))
          (by rw [e4]; simp) (by rw [e4]; simp),
        show X.length + 4 + 1 = X.length + 5 from by omega,
        scanMatch_step_le _ (X.length + 5) 1 (hL 5 (by norm_num)) e5,
        if_pos rfl]
    have hs1 : step (X ++ [IR.loopStart, IR.shift o, IR.arithmetic 1, IR.shift (-o), IR.arithmetic (-1), IR.loopEnd] ++ Y) ⟨X.length, st, m⟩ = .ok ⟨X.length + 5, X.length :: st, m⟩ := by
      unfold step
      rw [e0]
      dsimp only
      rw [if_neg (fun hne => hne hv), hskip]
    have hs2 : step (X ++ [IR.loopStart, IR.shift o, IR.arithmetic 1, IR.shift (-o), IR.arithmetic (-1), IR.loopEnd] ++ Y) ⟨X.length + 5, X.length :: st, m⟩ = .ok ⟨X.length + 6, st, m⟩ := by
      unfold step
      rw [e5]
      dsimp only
      rw [if_neg (fun hne => hne hv)]
    obtain ⟨f1, c1, hf1, hstep1, hrun1⟩ := run_ok_cons _ fuel _ dcfg (hL 0 (by norm_num)) hok
    rw [hs1] at hstep1
    injection hstep1 with hc1
    subst hc1
    obtain ⟨f2, c2, hf2, hstep2, hrun2⟩ := run_ok_cons _ f1 _ dcfg (hL 5 (by norm_num)) hrun1
    refine ⟨2, by omega, by omega, ?_⟩
    have h2 := stepN_succ (X ++ [IR.loopStart, IR.shift o, IR.arithmetic 1, IR.shift (-o), IR.arithmetic (-1), IR.loopEnd] ++ Y) 1 _ _ (hL 0 (by norm_num)) hs1
    have h1 := stepN_succ (X ++ [IR.loopStart, IR.shift o, IR.arithmetic 1, IR.shift (-o), IR.arithmetic (-1), IR.loopEnd] ++ Y) 0 _ _ (hL 5 (by norm_num)) hs2
    rw [stepN_zero] at h1
    rw [show ({ m with tape := (upd (upd m.tape (wrapPtr m.ptr o) ((m.tape (wrapPtr m.ptr o) + m.tape m.ptr) % 256)) m.ptr 0) } : Machine) = m from by
      rw [move_skip m.tape m.ptr (wrapPtr m.ptr o) hgn hv]]
    exact h2.trans h1
  · -- live cell: one loop iteration is six steps
    have hs1 : step (X ++ [IR.loopStart, IR.shift o, IR.arithmetic 1, IR.shift (-o), IR.arithmetic (-1), IR.loopEnd] ++ Y) ⟨X.length, st, m⟩ = .ok ⟨X.length + 1, X.length :: st, m⟩ := by
      unfold step
      rw [e0]
      dsimp only
      rw [if_pos hv]
    have hs2 : step (X ++ [IR.loopStart, IR.shift o, IR.arithmetic 1, IR.shift (-o), IR.arithmetic (-1), IR.loopEnd] ++ Y) ⟨X.length + 1, X.length :: st, m⟩
        = .ok ⟨X.length + 2, X.length :: st, { m with ptr := wrapPtr m.ptr o }⟩ := by
      have h := step_nonbracket (X ++ [IR.loopStart, IR.shift o, IR.arithmetic 1, IR.shift (-o), IR.arithmetic (-1), IR.loopEnd] ++ Y) ⟨X.length + 1, X.length :: st, m⟩ (IR.shift o) e1
        (by simp) (by simp)
      rw [show stepInst (IR.shift o) m = .ok { m with ptr := wrapPtr m.ptr o } from rfl] at h
      exact h
    have hs3 : step (X ++ [IR.loopStart, IR.shift o, IR.arithmetic 1, IR.shift (-o), IR.arithmetic (-1), IR.loopEnd] ++ Y) ⟨X.length + 2, X.length :: st, { m with ptr := wrapPtr m.ptr o }⟩
        = .ok ⟨X.length + 3, X.length :: st, { m with tape := (upd m.tape (wrapPtr m.ptr o) ((m.tape (wrapPtr m.ptr o) + 1) % 256)), ptr := wrapPtr m.ptr o }⟩ := by
      have h := step_nonbracket (X ++ [IR.loopStart, IR.shift o, IR.arithmetic 1, IR.shift (-o), IR.arithmetic (-1), IR.loopEnd] ++ Y) ⟨X.length + 2, X.length :: st, { m with ptr := wrapPtr m.ptr o }⟩
        (IR.arithmetic 1) e2 (by simp) (by simp)
      rw [h]
      show Except.ok (⟨X.length + 3, X.length :: st, { m with tape := (upd m.tape (wrapPtr m.ptr o) (wrapCell (m.tape (wrapPtr m.ptr o)) 1)), ptr := wrapPtr m.ptr o }⟩ : Config)
        = Except.ok (⟨X.length + 3, X.length :: st, { m with tape := (upd m.tape (wrapPtr m.ptr o) ((m.tape (wrapPtr m.ptr o) + 1) % 256)), ptr := wrapPtr m.ptr o }⟩ : Config)
      rw [wrapCell_one]
    have hs4 : step (X ++ [IR.loopStart, IR.shift o, IR.arithmetic 1, IR.shift (-o), IR.arithmetic (-1), IR.loopEnd] ++ Y) ⟨X.length + 3, X.length :: st, { m with tape := (upd m.tape (wrapPtr m.ptr o) ((m.tape (wrapPtr m.ptr o) + 1) % 256)), ptr := wrapPtr m.ptr o }⟩
        = .ok ⟨X.length + 4, X.length :: st, { m with tape := (upd m.tape (wrapPtr m.ptr o) ((m.tape (wrapPtr m.ptr o) + 1) % 256)) }⟩ := by
      have h := step_nonbracket (X ++ [IR.loopStart, IR.shift o, IR.arithmetic 1, IR.shift (-o), IR.arithmetic (-1), IR.loopEnd] ++ Y) ⟨X.length + 3, X.length :: st, { m with tape := (upd m.tape (wrapPtr m.ptr o) ((m.tape (wrapPtr m.ptr o) + 1) % 256)), ptr := wrapPtr m.ptr o }⟩
        (IR.shift (-o)) e3 (by simp) (by simp)
      rw [h]
      show Except.ok (⟨X.length + 4, X.length :: st, { m with tape := (upd m.tape (wrapPtr m.ptr o) ((m.tape (wrapPtr m.ptr o) + 1) % 256)), ptr := wrapPtr (wrapPtr m.ptr o) (-o) }⟩ : Config)
        = Except.ok (⟨X.length + 4, X.length :: st, { m with tape := (upd m.tape (wrapPtr m.ptr o) ((m.tape (wrapPtr m.ptr o) + 1) % 256)) }⟩ : Config)
      rw [wrapPtr_cancel m.ptr o hp]
    have hs5 : step (X ++ [IR.loopStart, IR.shift o, IR.arithmetic 1, IR.shift (-o), IR.arithmetic (-1), IR.loopEnd] ++ Y) ⟨X.length + 4, X.length :: st, { m with tape := (upd m.tape (wrapPtr m.ptr o) ((m.tape (wrapPtr m.ptr o) + 1) % 256)) }⟩
        = .ok ⟨X.length + 5, X.length :: st, { m with tape := (upd (upd m.tape (wrapPtr m.ptr o) ((m.tape (wrapPtr m.ptr o) + 1) % 256)) m.ptr (((upd m.tape (wrapPtr m.ptr o) ((m.tape (wrapPtr m.ptr o) + 1) % 256)) m.ptr + 255) % 256)) }⟩ := by
      have h := step_nonbracket (X ++ [IR.loopStart, IR.shift o, IR.arithmetic 1, IR.shift (-o), IR.arithmetic (-1), IR.loopEnd] ++ Y) ⟨X.length + 4, X.length :: st, { m with tape := (upd m.tape (wrapPtr m.ptr o) ((m.tape (wrapPtr m.ptr o) + 1) % 256)) }⟩
        (IR.arithmetic (-1)) e4 (by simp) (by simp)
      rw [h]
      show Except.ok (⟨X.length + 5, X.length :: st, { m with tape := (upd (upd m.tape (wrapPtr m.ptr o) ((m.tape (wrapPtr m.ptr o) + 1) % 256)) m.ptr (wrapCell ((upd m.tape (wrapPtr m.ptr o) ((m.tape (wrapPtr m.ptr o) + 1) % 256)) m.ptr) (-1))) }⟩ : Config)
        = Except.ok (⟨X.length + 5, X.length :: st, { m with tape := (upd (upd m.tape (wrapPtr m.ptr o) ((m.tape (wrapPtr m.ptr o) + 1) % 256)) m.ptr (((upd m.tape (wrapPtr m.ptr o) ((m.tape (wrapPtr m.ptr o) + 1) % 256)) m.ptr + 255) % 256)) }⟩ : Config)
      rw [wrapCell_neg_one]
    by_cases hcell : ((upd m.tape (wrapPtr m.ptr o) ((m.tape (wrapPtr m.ptr o) + 1) % 256)) m.ptr + 255) % 256 = 0
    · -- the loop exits after this iteration
      have hs6 : step (X ++ [IR.loopStart, IR.shift o, IR.arithmetic 1, IR.shift (-o), IR.arithmetic (-1), IR.loopEnd] ++ Y) ⟨X.length + 5, X.length :: st, { m with tape := (upd (upd m.tape (wrapPtr m.ptr o) ((m.tape (wrapPtr m.ptr o) + 1) % 256)) m.ptr (((upd m.tape (wrapPtr m.ptr o) ((m.tape (wrapPtr m.ptr o) + 1) % 256)) m.ptr + 255) % 256)) }⟩
          = .ok ⟨X.length + 6, st, { m with tape := (upd (upd m.tape (wrapPtr m.ptr o) ((m.tape (wrapPtr m.ptr o) + 1) % 256)) m.ptr (((upd m.tape (wrapPtr m.ptr o) ((m.tape (wrapPtr m.ptr o) + 1) % 256)) m.ptr + 255) % 256)) }⟩ := by
        unfold step
        rw [e5]
        dsimp only
        rw [if_neg (fun hne => hne (by
          show (upd (upd m.tape (wrapPtr m.ptr o) ((m.tape (wrapPtr m.ptr o) + 1) % 256)) m.ptr (((upd m.tape (wrapPtr m.ptr o) ((m.tape (wrapPtr m.ptr o) + 1) % 256)) m.ptr + 255) % 256)) m.ptr = 0
          rw [upd_eq]
          exact hcell))]
      obtain ⟨f1, c1, hf1, hstep1, hrun1⟩ := run_ok_cons _ fuel _ dcfg (hL 0 (by norm_num)) hok
      rw [hs1] at hstep1
      injection hstep1 with hc1
      subst hc1
      obtain ⟨f2, c2, hf2, hstep2, hrun2⟩ := run_ok_cons _ f1 _ dcfg (hL 1 (by norm_num)) hrun1
      rw [hs2] at hstep2
      injection hstep2 with hc2
      subst hc2
      obtain ⟨f3, c3, hf3, hstep3, hrun3⟩ := run_ok_cons _ f2 _ dcfg (hL 2 (by norm_num)) hrun2
      rw [hs3] at hstep3
      injection hstep3 with hc3
      subst hc3
      obtain ⟨f4, c4, hf4, hstep4, hrun4⟩ := run_ok_cons _ f3 _ dcfg (hL 3 (by norm_num)) hrun3
      rw [hs4] at hstep4
      injection hstep4 with hc4
      subst hc4
      obtain ⟨f5, c5, hf5, hstep5, hrun5⟩ := run_ok_cons _ f4 _ dcfg (hL 4 (by norm_num)) hrun4
      rw [hs5] at hstep5
      injection hstep5 with hc5
      subst hc5
      obtain ⟨f6, c6, hf6, hstep6, hrun6⟩ := run_ok_cons _ f5 _ dcfg (hL 5 (by norm_num)) hrun5
      refine ⟨6, by omega, by omega, ?_⟩
      have g1 := stepN_succ (X ++ [IR.loopStart, IR.shift o, IR.arithmetic 1, IR.shift (-o), IR.arithmetic (-1), IR.loopEnd] ++ Y) 5 _ _ (hL 0 (by norm_num)) hs1
      have g2 := stepN_succ (X ++ [IR.loopStart, IR.shift o, IR.arithmetic 1, IR.shift (-o), IR.arithmetic (-1), IR.loopEnd] ++ Y) 4 _ _ (hL 1 (by norm_num)) hs2
      have g3 := stepN_succ (X ++ [IR.loopStart, IR.shift o, IR.arithmetic 1, IR.shift (-o), IR.arithmetic (-1), IR.loopEnd] ++ Y) 3 _ _ (hL 2 (by norm_num)) hs3
      have g4 := stepN_succ (X ++ [IR.loopStart, IR.shift o, IR.arithmetic 1, IR.shift (-o), IR.arithmetic (-1), IR.loopEnd] ++ Y) 2 _ _ (hL 3 (by norm_num)) hs4
      have g5 := stepN_succ (X ++ [IR.loopStart, IR.shift o, IR.arithmetic 1, IR.shift (-o), IR.arithmetic (-1), IR.loopEnd] ++ Y) 1 _ _ (hL 4 (by norm_num)) hs5
      have g6 := stepN_succ (X ++ [IR.loopStart, IR.shift o, IR.arithmetic 1, IR.shift (-o), IR.arithmetic (-1), IR.loopEnd] ++ Y) 0 _ _ (hL 5 (by norm_num)) hs6
      rw [stepN_zero] at g6
      refine (((((g1.trans g2).trans g3).trans g4).trans g5).trans g6).trans ?_
      rw [move_exit m.tape m.ptr (wrapPtr m.ptr o) hgp hgn hv hcell]
    · -- the loop jumps back; recurse on the remaining fuel
      have hs6 : step (X ++ [IR.loopStart, IR.shift o, IR.arithmetic 1, IR.shift (-o), IR.arithmetic (-1), IR.loopEnd] ++ Y) ⟨X.length + 5, X.length :: st, { m with tape := (upd (upd m.tape (wrapPtr m.ptr o) ((m.tape (wrapPtr m.ptr o) + 1) % 256)) m.ptr (((upd m.tape (wrapPtr m.ptr o) ((m.tape (wrapPtr m.ptr o) + 1) % 256)) m.ptr + 255) % 256)) }⟩
          = .ok ⟨X.length, st, { m with tape := (upd (upd m.tape (wrapPtr m.ptr o) ((m.tape (wrapPtr m.ptr o) + 1) % 256)) m.ptr (((upd m.tape (wrapPtr m.ptr o) ((m.tape (wrapPtr m.ptr o) + 1) % 256)) m.ptr + 255) % 256)) }⟩ := by
        unfold step
        rw [e5]
        dsimp only
        rw [if_pos (by
          show (upd (upd m.tape (wrapPtr m.ptr o) ((m.tape (wrapPtr m.ptr o) + 1) % 256)) m.ptr (((upd m.tape (wrapPtr m.ptr o) ((m.tape (wrapPtr m.ptr o) + 1) % 256)) m.ptr + 255) % 256)) m.ptr ≠ 0
          rw [upd_eq]
          exact hcell)]
      obtain ⟨f1, c1, hf1, hstep1, hrun1⟩ := run_ok_cons _ fuel _ dcfg (hL 0 (by norm_num)) hok
      rw [hs1] at hstep1
      injection hstep1 with hc1
      subst hc1
      obtain ⟨f2, c2, hf2, hstep2, hrun2⟩ := run_ok_cons _ f1 _ dcfg (hL 1 (by norm_num)) hrun1
      rw [hs2] at hstep2
      injection hstep2 with hc2
      subst hc2
      obtain ⟨f3, c3, hf3, hstep3, hrun3⟩ := run_ok_cons _ f2 _ dcfg (hL 2 (by norm_num)) hrun2
      rw [hs3] at hstep3
      injection hstep3 with hc3
      subst hc3
      obtain ⟨f4, c4, hf4, hstep4, hrun4⟩ := run_ok_cons _ f3 _ dcfg (hL 3 (by norm_num)) hrun3
      rw [hs4] at hstep4
      injection hstep4 with hc4
      subst hc4
      obtain ⟨f5, c5, hf5, hstep5, hrun5⟩ := run_ok_cons _ f4 _ dcfg (hL 4 (by norm_num)) hrun4
      rw [hs5] at hstep5
      injection hstep5 with hc5
      subst hc5
      obtain ⟨f6, c6, hf6, hstep6, hrun6⟩ := run_ok_cons _ f5 _ dcfg (hL 5 (by norm_num)) hrun5
      rw [hs6] at hstep6
      injection hstep6 with hc6
      subst hc6
      obtain ⟨j, hj1, hjf, hstepN⟩ := ih f6 (by omega) st { m with tape := (upd (upd m.tape (wrapPtr m.ptr o) ((m.tape (wrapPtr m.ptr o) + 1) % 256)) m.ptr (((upd m.tape (wrapPtr m.ptr o) ((m.tape (wrapPtr m.ptr o) + 1) % 256)) m.ptr + 255) % 256)) } dcfg
        (tapeGood_upd _ _ _ (tapeGood_upd _ _ _ hg (Nat.mod_lt _ (by norm_num)))
          (Nat.mod_lt _ (by norm_num))) hp hrun6
      refine ⟨j + 6, by omega, by omega, ?_⟩
      have g1 := stepN_succ (X ++ [IR.loopStart, IR.shift o, IR.arithmetic 1, IR.shift (-o), IR.arithmetic (-1), IR.loopEnd] ++ Y) (j + 5) _ _ (hL 0 (by norm_num)) hs1
      have g2 := stepN_succ (X ++ [IR.loopStart, IR.shift o, IR.arithmetic 1, IR.shift (-o), IR.arithmetic (-1), IR.loopEnd] ++ Y) (j + 4) _ _ (hL 1 (by norm_num)) hs2
      have g3 := stepN_succ (X ++ [IR.loopStart, IR.shift o, IR.arithmetic 1, IR.shift (-o), IR.arithmetic (-1), IR.loopEnd] ++ Y) (j + 3) _ _ (hL 2 (by norm_num)) hs3
      have g4 := stepN_succ (X ++ [IR.loopStart, IR.shift o, IR.arithmetic 1, IR.shift (-o), IR.arithmetic (-1), IR.loopEnd] ++ Y) (j + 2) _ _ (hL 3 (by norm_num)) hs4
      have g5 := stepN_succ (X ++ [IR.loopStart, IR.shift o, IR.arithmetic 1, IR.shift (-o), IR.arithmetic (-1), IR.loopEnd] ++ Y) (j + 1) _ _ (hL 4 (by norm_num)) hs5
      have g6 := stepN_succ (X ++ [IR.loopStart, IR.shift o, IR.arithmetic 1, IR.shift (-o), IR.arithmetic (-1), IR.loopEnd] ++ Y) j _ _ (hL 5 (by norm_num)) hs6
      refine ((((((g1.trans g2).trans g3).trans g4).trans g5).trans g6).trans hstepN).trans ?_
      show some (⟨X.length + 6, st,
          { m with tape := (upd (upd (upd (upd m.tape (wrapPtr m.ptr o) ((m.tape (wrapPtr m.ptr o) + 1) % 256)) m.ptr (((upd m.tape (wrapPtr m.ptr o) ((m.tape (wrapPtr m.ptr o) + 1) % 256)) m.ptr + 255) % 256)) (wrapPtr m.ptr o) (((upd (upd m.tape (wrapPtr m.ptr o) ((m.tape (wrapPtr m.ptr o) + 1) % 256)) m.ptr (((upd m.tape (wrapPtr m.ptr o) ((m.tape (wrapPtr m.ptr o) + 1) % 256)) m.ptr + 255) % 256)) (wrapPtr m.ptr o) + (upd (upd m.tape (wrapPtr m.ptr o) ((m.tape (wrapPtr m.ptr o) + 1) % 256)) m.ptr (((upd m.tape (wrapPtr m.ptr o) ((m.tape (wrapPtr m.ptr o) + 1) % 256)) m.ptr + 255) % 256)) m.ptr) % 256)) m.ptr 0) }⟩
            : Config) = _
      rw [move_iter m.tape m.ptr (wrapPtr m.ptr o) hgp hgn hv]

/-- The Move window rewrite preserves behavior. -/
theorem win_pres_move (X Y : List IR) (o : Int) :
    Pres (X ++ [IR.loopStart, IR.shift o, IR.arithmetic 1, IR.shift (-o),
        IR.arithmetic (-1), IR.loopEnd] ++ Y)
      (X ++ [IR.move o] ++ Y) := by
  refine pres_of_sim X [IR.loopStart, IR.shift o, IR.arithmetic 1, IR.shift (-o),
      IR.arithmetic (-1), IR.loopEnd] [IR.move o] Y (by norm_num) (by norm_num)
    (Or.inr ⟨IR.move o, rfl, by simp, by simp⟩)
    (fun k hk => cross_win6 X Y _ _ _ _ (by simp) (by simp) (by simp) (by simp)
      (by simp) (by simp) (by simp) (by simp) k hk)
    (fun k _ => cross_nb1 X Y _ (by simp) (by simp) k)
    ?_
  intro st m fuel dcfg hg hp hok
  obtain ⟨j, hj1, hjf, hstepN⟩ := hbig6_move X Y o fuel st m dcfg hg hp hok
  exact ⟨j, { m with tape := (upd (upd m.tape (wrapPtr m.ptr o) ((m.tape (wrapPtr m.ptr o) + m.tape m.ptr) % 256)) m.ptr 0) }, hj1, hjf, hstepN, rfl⟩

/-! ## C1: the Multiply window -/

theorem mult_skip (t : Nat → Nat) (p np : Nat) (a : Int) (hgn : t np < 256) (hv : t p = 0) :
    upd (upd t np ((t np + (t p * ((a % 256).toNat)) % 256) % 256)) p 0 = t := by
  funext x
  by_cases hxp : x = p
  · subst hxp
    rw [upd_eq]
    exact hv.symm
  · rw [upd_ne _ _ _ _ hxp]
    by_cases hxn : x = np
    · subst hxn
      rw [upd_eq, hv]
      simp only [Nat.zero_mul]
      omega
    · rw [upd_ne _ _ _ _ hxn]

theorem mult_iter (t : Nat → Nat) (p np : Nat) (a : Int) (hgp : t p < 256) (hgn : t np < 256)
    (hv : t p ≠ 0) :
    upd (upd (upd (upd t np ((t np + ((a % 256).toNat)) % 256)) p (((upd t np ((t np + ((a % 256).toNat)) % 256)) p + 255) % 256)) np (((upd (upd t np ((t np + ((a % 256).toNat)) % 256)) p (((upd t np ((t np + ((a % 256).toNat)) % 256)) p + 255) % 256)) np + ((upd (upd t np ((t np + ((a % 256).toNat)) % 256)) p (((upd t np ((t np + ((a % 256).toNat)) % 256)) p + 255) % 256)) p * ((a % 256).toNat)) % 256) % 256)) p 0
      = (upd (upd t np ((t np + (t p * ((a % 256).toNat)) % 256) % 256)) p 0) := by
  by_cases hnp : np = p
  · rw [hnp]
    funext x
    by_cases hxp : x = p
    · subst hxp
      rw [upd_eq, upd_eq]
    · rw [upd_ne _ _ _ _ hxp, upd_ne _ _ _ _ hxp, upd_ne _ _ _ _ hxp, upd_ne _ _ _ _ hxp,
        upd_ne _ _ _ _ hxp, upd_ne _ _ _ _ hxp]
  · have hpn : ¬ p = np := fun h => hnp h.symm
    rw [upd_ne _ _ _ _ hpn]
    rw [show (upd (upd t np ((t np + ((a % 256).toNat)) % 256)) p ((t p + 255) % 256)) np = (t np + ((a % 256).toNat)) % 256 from by
      rw [upd_ne _ _ _ _ hnp, upd_eq]]
    rw [upd_eq]
    funext x
    by_cases hxp : x = p
    · subst hxp
      rw [upd_eq, upd_eq]
    · rw [upd_ne _ _ _ _ hxp, upd_ne _ _ _ _ hxp]
      by_cases hxn : x = np
      · subst hxn
        rw [upd_eq, upd_eq]
        rw [show (t p + 255) % 256 = t p - 1 from by omega]
        obtain ⟨w, hw⟩ : ∃ w, t p = w + 1 := ⟨t p - 1, by omega⟩
        rw [hw]
        rw [show w + 1 - 1 = w from rfl]
        rw [show (w + 1) * ((a % 256).toNat) = w * ((a % 256).toNat) + ((a % 256).toNat) from by ring]
        generalize w * ((a % 256).toNat) = W
        omega
      · rw [upd_ne _ _ _ _ hxn, upd_ne _ _ _ _ hxp, upd_ne _ _ _ _ hxn, upd_ne _ _ _ _ hxn]

theorem mult_exit (t : Nat → Nat) (p np : Nat) (a : Int) (hgp : t p < 256) (hgn : t np < 256)
    (hv : t p ≠ 0) (hx : ((upd t np ((t np + ((a % 256).toNat)) % 256)) p + 255) % 256 = 0) :
    (upd (upd t np ((t np + ((a % 256).toNat)) % 256)) p (((upd t np ((t np + ((a % 256).toNat)) % 256)) p + 255) % 256)) = (upd (upd t np ((t np + (t p * ((a % 256).toNat)) % 256) % 256)) p 0) := by
  by_cases hnp : np = p
  · rw [hnp] at hx
    rw [upd_eq] at hx
    rw [hnp]
    funext x
    by_cases hxp : x = p
    · subst hxp
      rw [upd_eq, upd_eq, upd_eq]
      exact hx
    · rw [upd_ne _ _ _ _ hxp, upd_ne _ _ _ _ hxp, upd_ne _ _ _ _ hxp, upd_ne _ _ _ _ hxp]
  · have hpn : ¬ p = np := fun h => hnp h.symm
    rw [upd_ne _ _ _ _ hpn] at hx
    rw [upd_ne _ _ _ _ hpn]
    funext x
    by_cases hxp : x = p
    · subst hxp
      rw [upd_eq, upd_eq]
      exact hx
    · rw [upd_ne _ _ _ _ hxp, upd_ne _ _ _ _ hxp]
      by_cases hxn : x = np
      · subst hxn
        rw [upd_eq, upd_eq]
        have ht : t p = 1 := by omega
        rw [ht, Nat.one_mul]
        omega
      · rw [upd_ne _ _ _ _ hxn, upd_ne _ _ _ _ hxn]

/-- Big-step execution of the Multiply window loop (`0 ≤ a`). -/
theorem hbig6_mult (X Y : List IR) (a o : Int) (ha : 0 ≤ a) :
    ∀ (fuel : Nat) (st : List Nat) (m : Machine) (dcfg : Config),
      tapeGood m.tape → m.ptr < tapeLen →
      run (X ++ [IR.loopStart, IR.shift o, IR.arithmetic a, IR.shift (-o), IR.arithmetic (-1), IR.loopEnd] ++ Y) fuel ⟨X.length, st, m⟩ = some (.ok dcfg) →
      ∃ j, 1 ≤ j ∧ j ≤ fuel ∧
        stepN (X ++ [IR.loopStart, IR.shift o, IR.arithmetic a, IR.shift (-o), IR.arithmetic (-1), IR.loopEnd] ++ Y) j ⟨X.length, st, m⟩
          = some ⟨X.length + 6, st, { m with tape := (upd (upd m.tape (wrapPtr m.ptr o) ((m.tape (wrapPtr m.ptr o) + (m.tape m.ptr * ((a % 256).toNat)) % 256) % 256)) m.ptr 0) }⟩ := by
  intro fuel
  induction fuel using Nat.strong_induction_on with
  | _ fuel ih =>
  intro st m dcfg hg hp hok
  have e0 : instAt (X ++ [IR.loopStart, IR.shift o, IR.arithmetic a, IR.shift (-o), IR.arithmetic (-1), IR.loopEnd] ++ Y) X.length = IR.loopStart := instAt_win0 X _ Y (by norm_num)
  have e1 : instAt (X ++ [IR.loopStart, IR.shift o, IR.arithmetic a, IR.shift (-o), IR.arithmetic (-1), IR.loopEnd] ++ Y) (X.length + 1) = IR.shift o := instAt_win X _ Y 1 (by norm_num)
  have e2 : instAt (X ++ [IR.loopStart, IR.shift o, IR.arithmetic a, IR.shift (-o), IR.arithmetic (-1), IR.loopEnd] ++ Y) (X.length + 2) = IR.arithmetic a := instAt_win X _ Y 2 (by norm_num)
  have e3 : instAt (X ++ [IR.loopStart, IR.shift o, IR.arithmetic a, IR.shift (-o), IR.arithmetic (-1), IR.loopEnd] ++ Y) (X.length + 3) = IR.shift (-o) := instAt_win X _ Y 3 (by norm_num)
  have e4 : instAt (X ++ [IR.loopStart, IR.shift o, IR.arithmetic a, IR.shift (-o), IR.arithmetic (-1), IR.loopEnd] ++ Y) (X.length + 4) = IR.arithmetic (-1) := instAt_win X _ Y 4 (by norm_num)
  have e5 : instAt (X ++ [IR.loopStart, IR.shift o, IR.arithmetic a, IR.shift (-o), IR.arithmetic (-1), IR.loopEnd] ++ Y) (X.length + 5) = IR.loopEnd := instAt_win X _ Y 5 (by norm_num)
  have hL : ∀ r, r < 6 → X.length + r < (X ++ [IR.loopStart, IR.shift o, IR.arithmetic a, IR.shift (-o), IR.arithmetic (-1), IR.loopEnd] ++ Y).length := by
    intro r hr
    rw [len_win]
    simp only [List.length_cons, List.length_nil]
    omega
  have hgp : m.tape m.ptr < 256 := hg m.ptr hp
  have hgn : m.tape (wrapPtr m.ptr o) < 256 := hg (wrapPtr m.ptr o) (wrapPtr_lt m.ptr o)
  by_cases hv : m.tape m.ptr = 0
  · have hskip : scanMatch (X ++ [IR.loopStart, IR.shift o, IR.arithmetic a, IR.shift (-o), IR.arithmetic (-1), IR.loopEnd] ++ Y) (X.length + 1) 1 = some (X.length + 5) := by
      rw [scanMatch_step_other _ (X.length + 1) 1 (hL 1 (by norm_num))
          (by rw [e1]; simp) (by rw [e1]; simp),
        show X.length + 1 + 1 = X.length + 2 from by omega,
        scanMatch_step_other _ (X.length + 2) 1 (hL 2 (by norm_num))
          (by rw [e2]; simp) (by rw [e2]; simp),
        show X.length + 2 + 1 = X.length + 3 from by omega,
        scanMatch_step_other _ (X.length + 3) 1 (hL 3 (by norm_num))
          (by rw [e3]; simp) (by rw [e3]; simp),
        show X.length + 3 + 1 = X.length + 4 from by omega,
        scanMatch_step_other _ (X.length + 4) 1 (hL 4 (by norm_num))
          (by rw [e4]; simp) (by rw [e4]; simp),
        show X.length + 4 + 1 = X.length + 5 from by omega,
        scanMatch_step_le _ (X.length + 5) 1 (hL 5 (by norm_num)) e5,
        if_pos rfl]
    have hs1 : step (X ++ [IR.loopStart, IR.shift o, IR.arithmetic a, IR.shift (-o), IR.arithmetic (-1), IR.loopEnd] ++ Y) ⟨X.length, st, m⟩ = .ok ⟨X.length + 5, X.length :: st, m⟩ := by
      unfold step
      rw [e0]
      dsimp only
      rw [if_neg (fun hne => hne hv), hskip]
    have hs2 : step (X ++ [IR.loopStart, IR.shift o, IR.arithmetic a, IR.shift (-o), IR.arithmetic (-1), IR.loopEnd] ++ Y) ⟨X.length + 5, X.length :: st, m⟩ = .ok ⟨X.length + 6, st, m⟩ := by
      unfold step
      rw [e5]
      dsimp only
      rw [if_neg (fun hne => hne hv)]
    obtain ⟨f1, c1, hf1, hstep1, hrun1⟩ := run_ok_cons _ fuel _ dcfg (hL 0 (by norm_num)) hok
    rw [hs1] at hstep1
    injection hstep1 with hc1
    subst hc1
    obtain ⟨f2, c2, hf2, hstep2, hrun2⟩ := run_ok_cons _ f1 _ dcfg (hL 5 (by norm_num)) hrun1
    refine ⟨2, by omega, by omega, ?_⟩
    have h2 := stepN_succ (X ++ [IR.loopStart, IR.shift o, IR.arithmetic a, IR.shift (-o), IR.arithmetic (-1), IR.loopEnd] ++ Y) 1 _ _ (hL 0 (by norm_num)) hs1
    have h1 := stepN_succ (X ++ [IR.loopStart, IR.shift o, IR.arithmetic a, IR.shift (-o), IR.arithmetic (-1), IR.loopEnd] ++ Y) 0 _ _ (hL 5 (by norm_num)) hs2
    rw [stepN_zero] at h1
    rw [show ({ m with tape := (upd (upd m.tape (wrapPtr m.ptr o) ((m.tape (wrapPtr m.ptr o) + (m.tape m.ptr * ((a % 256).toNat)) % 256) % 256)) m.ptr 0) } : Machine) = m from by
      rw [mult_skip m.tape m.ptr (wrapPtr m.ptr o) a hgn hv]]
    exact h2.trans h1
  · have hs1 : step (X ++ [IR.loopStart, IR.shift o, IR.arithmetic a, IR.shift (-o), IR.arithmetic (-1), IR.loopEnd] ++ Y) ⟨X.length, st, m⟩ = .ok ⟨X.length + 1, X.length :: st, m⟩ := by
      unfold step
      rw [e0]
      dsimp only
      rw [if_pos hv]
    have hs2 : step (X ++ [IR.loopStart, IR.shift o, IR.arithmetic a, IR.shift (-o), IR.arithmetic (-1), IR.loopEnd] ++ Y) ⟨X.length + 1, X.length :: st, m⟩
        = .ok ⟨X.length + 2, X.length :: st, { m with ptr := wrapPtr m.ptr o }⟩ := by
      have h := step_nonbracket (X ++ [IR.loopStart, IR.shift o, IR.arithmetic a, IR.shift (-o), IR.arithmetic (-1), IR.loopEnd] ++ Y) ⟨X.length + 1, X.length :: st, m⟩ (IR.shift o) e1
        (by simp) (by simp)
      rw [show stepInst (IR.shift o) m = .ok { m with ptr := wrapPtr m.ptr o } from rfl] at h
      exact h
    have hs3 : step (X ++ [IR.loopStart, IR.shift o, IR.arithmetic a, IR.shift (-o), IR.arithmetic (-1), IR.loopEnd] ++ Y) ⟨X.length + 2, X.length :: st, { m with ptr := wrapPtr m.ptr o }⟩
        = .ok ⟨X.length + 3, X.length :: st, { m with tape := (upd m.tape (wrapPtr m.ptr o) ((m.tape (wrapPtr m.ptr o) + ((a % 256).toNat)) % 256)), ptr := wrapPtr m.ptr o }⟩ := by
      have h := step_nonbracket (X ++ [IR.loopStart, IR.shift o, IR.arithmetic a, IR.shift (-o), IR.arithmetic (-1), IR.loopEnd] ++ Y) ⟨X.length + 2, X.length :: st, { m with ptr := wrapPtr m.ptr o }⟩
        (IR.arithmetic a) e2 (by simp) (by simp)
      rw [h]
      show Except.ok (⟨X.length + 3, X.length :: st, { m with tape := (upd m.tape (wrapPtr m.ptr o) (wrapCell (m.tape (wrapPtr m.ptr o)) a)), ptr := wrapPtr m.ptr o }⟩ : Config)
        = Except.ok (⟨X.length + 3, X.length :: st, { m with tape := (upd m.tape (wrapPtr m.ptr o) ((m.tape (wrapPtr m.ptr o) + ((a % 256).toNat)) % 256)), ptr := wrapPtr m.ptr o }⟩ : Config)
      rw [wrapCell_nonneg _ _ ha]
    have hs4 : step (X ++ [IR.loopStart, IR.shift o, IR.arithmetic a, IR.shift (-o), IR.arithmetic (-1), IR.loopEnd] ++ Y) ⟨X.length + 3, X.length :: st, { m with tape := (upd m.tape (wrapPtr m.ptr o) ((m.tape (wrapPtr m.ptr o) + ((a % 256).toNat)) % 256)), ptr := wrapPtr m.ptr o }⟩
        = .ok ⟨X.length + 4, X.length :: st, { m with tape := (upd m.tape (wrapPtr m.ptr o) ((m.tape (wrapPtr m.ptr o) + ((a % 256).toNat)) % 256)) }⟩ := by
      have h := step_nonbracket (X ++ [IR.loopStart, IR.shift o, IR.arithmetic a, IR.shift (-o), IR.arithmetic (-1), IR.loopEnd] ++ Y) ⟨X.length + 3, X.length :: st, { m with tape := (upd m.tape (wrapPtr m.ptr o) ((m.tape (wrapPtr m.ptr o) + ((a % 256).toNat)) % 256)), ptr := wrapPtr m.ptr o }⟩
        (IR.shift (-o)) e3 (by simp) (by simp)
      rw [h]
      show Except.ok (⟨X.length + 4, X.length :: st, { m with tape := (upd m.tape (wrapPtr m.ptr o) ((m.tape (wrapPtr m.ptr o) + ((a % 256).toNat)) % 256)), ptr := wrapPtr (wrapPtr m.ptr o) (-o) }⟩ : Config)
        = Except.ok (⟨X.length + 4, X.length :: st, { m with tape := (upd m.tape (wrapPtr m.ptr o) ((m.tape (wrapPtr m.ptr o) + ((a % 256).toNat)) % 256)) }⟩ : Config)
      rw [wrapPtr_cancel m.ptr o hp]
    have hs5 : step (X ++ [IR.loopStart, IR.shift o, IR.arithmetic a, IR.shift (-o), IR.arithmetic (-1), IR.loopEnd] ++ Y) ⟨X.length + 4, X.length :: st, { m with tape := (upd m.tape (wrapPtr m.ptr o) ((m.tape (wrapPtr m.ptr o) + ((a % 256).toNat)) % 256)) }⟩
        = .ok ⟨X.length + 5, X.length :: st, { m with tape := (upd (upd m.tape (wrapPtr m.ptr o) ((m.tape (wrapPtr m.ptr o) + ((a % 256).toNat)) % 256)) m.ptr (((upd m.tape (wrapPtr m.ptr o) ((m.tape (wrapPtr m.ptr o) + ((a % 256).toNat)) % 256)) m.ptr + 255) % 256)) }⟩ := by
      have h := step_nonbracket (X ++ [IR.loopStart, IR.shift o, IR.arithmetic a, IR.shift (-o), IR.arithmetic (-1), IR.loopEnd] ++ Y) ⟨X.length + 4, X.length :: st, { m with tape := (upd m.tape (wrapPtr m.ptr o) ((m.tape (wrapPtr m.ptr o) + ((a % 256).toNat)) % 256)) }⟩
        (IR.arithmetic (-1)) e4 (by simp) (by simp)
      rw [h]
      show Except.ok (⟨X.length + 5, X.length :: st, { m with tape := (upd (upd m.tape (wrapPtr m.ptr o) ((m.tape (wrapPtr m.ptr o) + ((a % 256).toNat)) % 256)) m.ptr (wrapCell ((upd m.tape (wrapPtr m.ptr o) ((m.tape (wrapPtr m.ptr o) + ((a % 256).toNat)) % 256)) m.ptr) (-1))) }⟩ : Config)
        = Except.ok (⟨X.length + 5, X.length :: st, { m with tape := (upd (upd m.tape (wrapPtr m.ptr o) ((m.tape (wrapPtr m.ptr o) + ((a % 256).toNat)) % 256)) m.ptr (((upd m.tape (wrapPtr m.ptr o) ((m.tape (wrapPtr m.ptr o) + ((a % 256).toNat)) % 256)) m.ptr + 255) % 256)) }⟩ : Config)
      rw [wrapCell_neg_one]
    by_cases hcell : ((upd m.tape (wrapPtr m.ptr o) ((m.tape (wrapPtr m.ptr o) + ((a % 256).toNat)) % 256)) m.ptr + 255) % 256 = 0
    · have hs6 : step (X ++ [IR.loopStart, IR.shift o, IR.arithmetic a, IR.shift (-o), IR.arithmetic (-1), IR.loopEnd] ++ Y) ⟨X.length + 5, X.length :: st, { m with tape := (upd (upd m.tape (wrapPtr m.ptr o) ((m.tape (wrapPtr m.ptr o) + ((a % 256).toNat)) % 256)) m.ptr (((upd m.tape (wrapPtr m.ptr o) ((m.tape (wrapPtr m.ptr o) + ((a % 256).toNat)) % 256)) m.ptr + 255) % 256)) }⟩
          = .ok ⟨X.length + 6, st, { m with tape := (upd (upd m.tape (wrapPtr m.ptr o) ((m.tape (wrapPtr m.ptr o) + ((a % 256).toNat)) % 256)) m.ptr (((upd m.tape (wrapPtr m.ptr o) ((m.tape (wrapPtr m.ptr o) + ((a % 256).toNat)) % 256)) m.ptr + 255) % 256)) }⟩ := by
        unfold step
        rw [e5]
        dsimp only
        rw [if_neg (fun hne => hne (by
          show (upd (upd m.tape (wrapPtr m.ptr o) ((m.tape (wrapPtr m.ptr o) + ((a % 256).toNat)) % 256)) m.ptr (((upd m.tape (wrapPtr m.ptr o) ((m.tape (wrapPtr m.ptr o) + ((a % 256).toNat)) % 256)) m.ptr + 255) % 256)) m.ptr = 0
          rw [upd_eq]
          exact hcell))]
      obtain ⟨f1, c1, hf1, hstep1, hrun1⟩ := run_ok_cons _ fuel _ dcfg (hL 0 (by norm_num)) hok
      rw [hs1] at hstep1
      injection hstep1 with hc1
      subst hc1
      obtain ⟨f2, c2, hf2, hstep2, hrun2⟩ := run_ok_cons _ f1 _ dcfg (hL 1 (by norm_num)) hrun1
      rw [hs2] at hstep2
      injection hstep2 with hc2
      subst hc2
      obtain ⟨f3, c3, hf3, hstep3, hrun3⟩ := run_ok_cons _ f2 _ dcfg (hL 2 (by norm_num)) hrun2
      rw [hs3] at hstep3
      injection hstep3 with hc3
      subst hc3
      obtain ⟨f4, c4, hf4, hstep4, hrun4⟩ := run_ok_cons _ f3 _ dcfg (hL 3 (by norm_num)) hrun3
      rw [hs4] at hstep4
      injection hstep4 with hc4
      subst hc4
      obtain ⟨f5, c5, hf5, hstep5, hrun5⟩ := run_ok_cons _ f4 _ dcfg (hL 4 (by norm_num)) hrun4
      rw [hs5] at hstep5
      injection hstep5 with hc5
      subst hc5
      obtain ⟨f6, c6, hf6, hstep6, hrun6⟩ := run_ok_cons _ f5 _ dcfg (hL 5 (by norm_num)) hrun5
      refine ⟨6, by omega, by omega, ?_⟩
      have g1 := stepN_succ (X ++ [IR.loopStart, IR.shift o, IR.arithmetic a, IR.shift (-o), IR.arithmetic (-1), IR.loopEnd] ++ Y) 5 _ _ (hL 0 (by norm_num)) hs1
      have g2 := stepN_succ (X ++ [IR.loopStart, IR.shift o, IR.arithmetic a, IR.shift (-o), IR.arithmetic (-1), IR.loopEnd] ++ Y) 4 _ _ (hL 1 (by norm_num)) hs2
      have g3 := stepN_succ (X ++ [IR.loopStart, IR.shift o, IR.arithmetic a, IR.shift (-o), IR.arithmetic (-1), IR.loopEnd] ++ Y) 3 _ _ (hL 2 (by norm_num)) hs3
      have g4 := stepN_succ (X ++ [IR.loopStart, IR.shift o, IR.arithmetic a, IR.shift (-o), IR.arithmetic (-1), IR.loopEnd] ++ Y) 2 _ _ (hL 3 (by norm_num)) hs4
      have g5 := stepN_succ (X ++ [IR.loopStart, IR.shift o, IR.arithmetic a, IR.shift (-o), IR.arithmetic (-1), IR.loopEnd] ++ Y) 1 _ _ (hL 4 (by norm_num)) hs5
      have g6 := stepN_succ (X ++ [IR.loopStart, IR.shift o, IR.arithmetic a, IR.shift (-o), IR.arithmetic (-1), IR.loopEnd] ++ Y) 0 _ _ (hL 5 (by norm_num)) hs6
      rw [stepN_zero] at g6
      refine (((((g1.trans g2).trans g3).trans g4).trans g5).trans g6).trans ?_
      rw [mult_exit m.tape m.ptr (wrapPtr m.ptr o) a hgp hgn hv hcell]
    · have hs6 : step (X ++ [IR.loopStart, IR.shift o, IR.arithmetic a, IR.shift (-o), IR.arithmetic (-1), IR.loopEnd] ++ Y) ⟨X.length + 5, X.length :: st, { m with tape := (upd (upd m.tape (wrapPtr m.ptr o) ((m.tape (wrapPtr m.ptr o) + ((a % 256).toNat)) % 256)) m.ptr (((upd m.tape (wrapPtr m.ptr o) ((m.tape (wrapPtr m.ptr o) + ((a % 256).toNat)) % 256)) m.ptr + 255) % 256)) }⟩
          = .ok ⟨X.length, st, { m with tape := (upd (upd m.tape (wrapPtr m.ptr o) ((m.tape (wrapPtr m.ptr o) + ((a % 256).toNat)) % 256)) m.ptr (((upd m.tape (wrapPtr m.ptr o) ((m.tape (wrapPtr m.ptr o) + ((a % 256).toNat)) % 256)) m.ptr + 255) % 256)) }⟩ := by
        unfold step
        rw [e5]
        dsimp only
        rw [if_pos (by
          show (upd (upd m.tape (wrapPtr m.ptr o) ((m.tape (wrapPtr m.ptr o) + ((a % 256).toNat)) % 256)) m.ptr (((upd m.tape (wrapPtr m.ptr o) ((m.tape (wrapPtr m.ptr o) + ((a % 256).toNat)) % 256)) m.ptr + 255) % 256)) m.ptr ≠ 0
          rw [upd_eq]
          exact hcell)]
      obtain ⟨f1, c1, hf1, hstep1, hrun1⟩ := run_ok_cons _ fuel _ dcfg (hL 0 (by norm_num)) hok
      rw [hs1] at hstep1
      injection hstep1 with hc1
      subst hc1
      obtain ⟨f2, c2, hf2, hstep2, hrun2⟩ := run_ok_cons _ f1 _ dcfg (hL 1 (by norm_num)) hrun1
      rw [hs2] at hstep2
      injection hstep2 with hc2
      subst hc2
      obtain ⟨f3, c3, hf3, hstep3, hrun3⟩ := run_ok_cons _ f2 _ dcfg (hL 2 (by norm_num)) hrun2
      rw [hs3] at hstep3
      injection hstep3 with hc3
      subst hc3
      obtain ⟨f4, c4, hf4, hstep4, hrun4⟩ := run_ok_cons _ f3 _ dcfg (hL 3 (by norm_num)) hrun3
      rw [hs4] at hstep4
      injection hstep4 with hc4
      subst hc4
      obtain ⟨f5, c5, hf5, hstep5, hrun5⟩ := run_ok_cons _ f4 _ dcfg (hL 4 (by norm_num)) hrun4
      rw [hs5] at hstep5
      injection hstep5 with hc5
      subst hc5
      obtain ⟨f6, c6, hf6, hstep6, hrun6⟩ := run_ok_cons _ f5 _ dcfg (hL 5 (by norm_num)) hrun5
      rw [hs6] at hstep6
      injection hstep6 with hc6
      subst hc6
      obtain ⟨j, hj1, hjf, hstepN⟩ := ih f6 (by omega) st { m with tape := (upd (upd m.tape (wrapPtr m.ptr o) ((m.tape (wrapPtr m.ptr o) + ((a % 256).toNat)) % 256)) m.ptr (((upd m.tape (wrapPtr m.ptr o) ((m.tape (wrapPtr m.ptr o) + ((a % 256).toNat)) % 256)) m.ptr + 255) % 256)) } dcfg
        (tapeGood_upd _ _ _ (tapeGood_upd _ _ _ hg (Nat.mod_lt _ (by norm_num)))
          (Nat.mod_lt _ (by norm_num))) hp hrun6
      refine ⟨j + 6, by omega, by omega, ?_⟩
      have g1 := stepN_succ (X ++ [IR.loopStart, IR.shift o, IR.arithmetic a, IR.shift (-o), IR.arithmetic (-1), IR.loopEnd] ++ Y) (j + 5) _ _ (hL 0 (by norm_num)) hs1
      have g2 := stepN_succ (X ++ [IR.loopStart, IR.shift o, IR.arithmetic a, IR.shift (-o), IR.arithmetic (-1), IR.loopEnd] ++ Y) (j + 4) _ _ (hL 1 (by norm_num)) hs2
      have g3 := stepN_succ (X ++ [IR.loopStart, IR.shift o, IR.arithmetic a, IR.shift (-o), IR.arithmetic (-1), IR.loopEnd] ++ Y) (j + 3) _ _ (hL 2 (by norm_num)) hs3
      have g4 := stepN_succ (X ++ [IR.loopStart, IR.shift o, IR.arithmetic a, IR.shift (-o), IR.arithmetic (-1), IR.loopEnd] ++ Y) (j + 2) _ _ (hL 3 (by norm_num)) hs4
      have g5 := stepN_succ (X ++ [IR.loopStart, IR.shift o, IR.arithmetic a, IR.shift (-o), IR.arithmetic (-1), IR.loopEnd] ++ Y) (j + 1) _ _ (hL 4 (by norm_num)) hs5
      have g6 := stepN_succ (X ++ [IR.loopStart, IR.shift o, IR.arithmetic a, IR.shift (-o), IR.arithmetic (-1), IR.loopEnd] ++ Y) j _ _ (hL 5 (by norm_num)) hs6
      refine ((((((g1.trans g2).trans g3).trans g4).trans g5).trans g6).trans hstepN).trans ?_
      show some (⟨X.length + 6, st, { m with tape := (upd (upd (upd (upd m.tape (wrapPtr m.ptr o) ((m.tape (wrapPtr m.ptr o) + ((a % 256).toNat)) % 256)) m.ptr (((upd m.tape (wrapPtr m.ptr o) ((m.tape (wrapPtr m.ptr o) + ((a % 256).toNat)) % 256)) m.ptr + 255) % 256)) (wrapPtr m.ptr o) (((upd (upd m.tape (wrapPtr m.ptr o) ((m.tape (wrapPtr m.ptr o) + ((a % 256).toNat)) % 256)) m.ptr (((upd m.tape (wrapPtr m.ptr o) ((m.tape (wrapPtr m.ptr o) + ((a % 256).toNat)) % 256)) m.ptr + 255) % 256)) (wrapPtr m.ptr o) + ((upd (upd m.tape (wrapPtr m.ptr o) ((m.tape (wrapPtr m.ptr o) + ((a % 256).toNat)) % 256)) m.ptr (((upd m.tape (wrapPtr m.ptr o) ((m.tape (wrapPtr m.ptr o) + ((a % 256).toNat)) % 256)) m.ptr + 255) % 256)) m.ptr * ((a % 256).toNat)) % 256) % 256)) m.ptr 0) }⟩ : Config) = _
      rw [mult_iter m.tape m.ptr (wrapPtr m.ptr o) a hgp hgn hv]

/-- The Multiply window rewrite preserves behavior. -/
theorem win_pres_mult (X Y : List IR) (a o : Int) (ha : 0 ≤ a) :
    Pres (X ++ [IR.loopStart, IR.shift o, IR.arithmetic a, IR.shift (-o),
        IR.arithmetic (-1), IR.loopEnd] ++ Y)
      (X ++ [IR.multiply a o] ++ Y) := by
  refine pres_of_sim X [IR.loopStart, IR.shift o, IR.arithmetic a, IR.shift (-o),
      IR.arithmetic (-1), IR.loopEnd] [IR.multiply a o] Y (by norm_num) (by norm_num)
    (Or.inr ⟨IR.multiply a o, rfl, by simp, by simp⟩)
    (fun k hk => cross_win6 X Y _ _ _ _ (by simp) (by simp) (by simp) (by simp)
      (by simp) (by simp) (by simp) (by simp) k hk)
    (fun k _ => cross_nb1 X Y _ (by simp) (by simp) k)
    ?_
  intro st m fuel dcfg hg hp hok
  obtain ⟨j, hj1, hjf, hstepN⟩ := hbig6_mult X Y a o ha fuel st m dcfg hg hp hok
  exact ⟨j, { m with tape := (upd (upd m.tape (wrapPtr m.ptr o) ((m.tape (wrapPtr m.ptr o) + (m.tape m.ptr * ((a % 256).toNat)) % 256) % 256)) m.ptr 0) }, hj1, hjf, hstepN, rfl⟩

/-! ## C1: rotation laws for the anchor scans -/

theorem dR_self (p : Nat) : dR p p = 0 := by
  unfold dR tapeLen
  omega

theorem dR_inj (p x y : Nat) (hp : p < tapeLen) (hx : x < tapeLen) (hy : y < tapeLen)
    (h : dR p x = dR p y) : x = y := by
  rcases Nat.lt_or_ge x p with h1 | h1 <;> rcases Nat.lt_or_ge y p with h2 | h2
  · rw [dR_lt_of_lt p x hp h1, dR_lt_of_lt p y hp h2] at h
    omega
  · rw [dR_lt_of_lt p x hp h1, dR_ge_of_ge p y hp hy h2] at h
    unfold tapeLen at *
    omega
  · rw [dR_ge_of_ge p x hp hx h1, dR_lt_of_lt p y hp h2] at h
    unfold tapeLen at *
    omega
  · rw [dR_ge_of_ge p x hp hx h1, dR_ge_of_ge p y hp hy h2] at h
    omega

theorem dL_inj (p x y : Nat) (hp : p < tapeLen) (hx : x < tapeLen) (hy : y < tapeLen)
    (h : dL p x = dL p y) : x = y := by
  rcases Nat.lt_or_ge x p with h1 | h1 <;> rcases Nat.lt_or_ge y p with h2 | h2
  · rw [dL_le_of_le p x hp h1, dL_le_of_le p y hp h2] at h
    omega
  · rw [dL_le_of_le p x hp h1, dL_ge_of_ge p y hp hy h2] at h
    unfold tapeLen at *
    omega
  · rw [dL_ge_of_ge p x hp hx h1, dL_le_of_le p y hp h2] at h
    unfold tapeLen at *
    omega
  · rw [dL_ge_of_ge p x hp hx h1, dL_ge_of_ge p y hp hy h2] at h
    unfold tapeLen at *
    omega

theorem wrapPtr_one (q : Nat) : wrapPtr q 1 = (q + 1) % tapeLen := by
  have h := wrapPtr_int q 1
  unfold tapeLen
  omega

theorem wrapPtr_neg_one_nat (q : Nat) (hq : q < tapeLen) :
    wrapPtr q (-1) = (q + tapeLen - 1) % tapeLen := by
  have h := wrapPtr_int q (-1)
  unfold tapeLen at *
  omega

theorem dR_rot (q x : Nat) (hq : q < tapeLen) (hx : x < tapeLen) (hne : x ≠ q) :
    dR q x = dR (wrapPtr q 1) x + 1 := by
  rw [wrapPtr_one]
  by_cases h1 : q + 1 < tapeLen
  · rw [Nat.mod_eq_of_lt h1]
    rcases Nat.lt_or_ge x (q + 1) with h2 | h2
    · have hxq : x < q := by omega
      rw [dR_lt_of_lt q x hq hxq, dR_lt_of_lt (q + 1) x h1 (by omega)]
      unfold tapeLen at *
      omega
    · rw [dR_ge_of_ge q x hq hx (by omega), dR_ge_of_ge (q + 1) x h1 hx h2]
      omega
  · have hq1 : q + 1 = tapeLen := by omega
    rw [hq1, Nat.mod_self]
    have hxq : x < q := by omega
    rw [dR_lt_of_lt q x hq hxq,
      dR_ge_of_ge 0 x (by unfold tapeLen; omega) hx (Nat.zero_le x)]
    unfold tapeLen at *
    omega

theorem dL_rot (q x : Nat) (hq : q < tapeLen) (hx : x < tapeLen)
    (hne : x ≠ wrapPtr q (-1)) :
    dL q x = dL (wrapPtr q (-1)) x + 1 := by
  rw [wrapPtr_neg_one_nat q hq] at hne ⊢
  by_cases h1 : q = 0
  · subst h1
    rw [show (0 + tapeLen - 1) % tapeLen = tapeLen - 1 from by unfold tapeLen; omega] at hne ⊢
    rw [dL_ge_of_ge 0 x hq hx (Nat.zero_le x),
      dL_le_of_le (tapeLen - 1) x (by unfold tapeLen; omega)
        (by unfold tapeLen at *; omega)]
    unfold tapeLen at *
    omega
  · rw [show (q + tapeLen - 1) % tapeLen = q - 1 from by unfold tapeLen at *; omega] at hne ⊢
    rcases Nat.lt_or_ge x (q - 1) with h2 | h2
    · rw [dL_le_of_le q x hq (by omega), dL_le_of_le (q - 1) x (by unfold tapeLen at *; omega) h2]
      omega
    · have hxq : q ≤ x := by omega
      rw [dL_ge_of_ge q x hq hx hxq,
        dL_ge_of_ge (q - 1) x (by unfold tapeLen at *; omega) hx (by omega)]
      unfold tapeLen at *
      omega

theorem dL_first (q : Nat) (hq : q < tapeLen) : dL q (wrapPtr q (-1)) = 0 := by
  rw [wrapPtr_neg_one_nat q hq]
  unfold dL tapeLen at *
  omega

theorem scanRight_complete (t : Nat → Nat) (p j : Nat) (hp : p < tapeLen)
    (hj : isFirstRight t p j) : scanRight t p = some j := by
  rcases hs : scanRight t p with _ | j1
  · rw [scanRight_none t p hp] at hs
    exact absurd hj.2.1 (hs j hj.1)
  · have h1 := scanRight_some t p j1 hp hs
    rw [dR_inj p j j1 hp hj.1 h1.1
      (le_antisymm (hj.2.2 j1 h1.1 h1.2.1) (h1.2.2 j hj.1 hj.2.1))]

theorem scanLeft_complete (t : Nat → Nat) (p j : Nat) (hp : p < tapeLen)
    (hj : isFirstLeft t p j) : scanLeft t p = some j := by
  rcases hs : scanLeft t p with _ | j1
  · rw [scanLeft_none t p hp] at hs
    exact absurd hj.2.1 (hs j hj.1)
  · have h1 := scanLeft_some t p j1 hp hs
    rw [dL_inj p j j1 hp hj.1 h1.1
      (le_antisymm (hj.2.2 j1 h1.1 h1.2.1) (h1.2.2 j hj.1 hj.2.1))]

/-- A rightward anchor scan from a non-255 cell may start one step later. -/
theorem rotR (t : Nat → Nat) (q : Nat) (hq : q < tapeLen) (h255 : t q ≠ 255) :
    scanRight t q = scanRight t (wrapPtr q 1) := by
  rcases hs : scanRight t (wrapPtr q 1) with _ | jp
  · rw [scanRight_none t (wrapPtr q 1) (wrapPtr_lt q 1)] at hs
    rw [scanRight_none t q hq]
    exact hs
  · have h1 := scanRight_some t (wrapPtr q 1) jp (wrapPtr_lt q 1) hs
    refine scanRight_complete t q jp hq ⟨h1.1, h1.2.1, fun k hk hk255 => ?_⟩
    have hkq : k ≠ q := fun h => h255 (h ▸ hk255)
    have hjq : jp ≠ q := fun h => h255 (h ▸ h1.2.1)
    rw [dR_rot q jp hq h1.1 hjq, dR_rot q k hq hk hkq]
    have := h1.2.2 k hk hk255
    omega

/-- A leftward anchor scan skipping over a non-255 cell just left of `q`. -/
theorem rotL (t : Nat → Nat) (q : Nat) (hq : q < tapeLen)
    (h255 : t (wrapPtr q (-1)) ≠ 255) :
    scanLeft t q = scanLeft t (wrapPtr q (-1)) := by
  rcases hs : scanLeft t (wrapPtr q (-1)) with _ | jp
  · rw [scanLeft_none t _ (wrapPtr_lt q (-1))] at hs
    rw [scanLeft_none t q hq]
    exact hs
  · have h1 := scanLeft_some t (wrapPtr q (-1)) jp (wrapPtr_lt q (-1)) hs
    refine scanLeft_complete t q jp hq ⟨h1.1, h1.2.1, fun k hk hk255 => ?_⟩
    have hkq : k ≠ wrapPtr q (-1) := fun h => h255 (h ▸ hk255)
    have hjq : jp ≠ wrapPtr q (-1) := fun h => h255 (h ▸ h1.2.1)
    rw [dL_rot q jp hq h1.1 hjq, dL_rot q k hq hk hkq]
    have := h1.2.2 k hk hk255
    omega

/-! ## C1: the AnchorRight window -/

/-- The anchor-right loop: starting at `q` on the shifted tape `t1` with the
current cell pre-incremented, the loop walks right to the first 255 cell of
`t1`, zeroes it, and leaves everything else as `t1`. -/
theorem anchorR_loop (X Y : List IR) (m0 : Machine) (t1 : Nat → Nat) (st : List Nat) :
    ∀ (fuel q : Nat) (dcfg : Config), tapeGood t1 → q < tapeLen → t1 q ≠ 255 →
      run (X ++ [IR.loopStart, IR.arithmetic (-1), IR.shift 1, IR.arithmetic 1, IR.loopEnd] ++ Y) fuel ⟨X.length, st, { m0 with tape := (upd t1 q ((t1 q + 1) % 256)), ptr := q }⟩ = some (.ok dcfg) →
      ∃ j jp, 1 ≤ j ∧ j ≤ fuel ∧ scanRight t1 q = some jp ∧
        stepN (X ++ [IR.loopStart, IR.arithmetic (-1), IR.shift 1, IR.arithmetic 1, IR.loopEnd] ++ Y) j ⟨X.length, st, { m0 with tape := (upd t1 q ((t1 q + 1) % 256)), ptr := q }⟩
          = some ⟨X.length + 5, st, { m0 with tape := (upd t1 jp 0), ptr := jp }⟩ := by
  intro fuel
  induction fuel using Nat.strong_induction_on with
  | _ fuel ih =>
  intro q dcfg ht1 hqL hq255
  intro hok
  have e0 : instAt (X ++ [IR.loopStart, IR.arithmetic (-1), IR.shift 1, IR.arithmetic 1, IR.loopEnd] ++ Y) X.length = IR.loopStart := instAt_win0 X _ Y (by norm_num)
  have e1 : instAt (X ++ [IR.loopStart, IR.arithmetic (-1), IR.shift 1, IR.arithmetic 1, IR.loopEnd] ++ Y) (X.length + 1) = IR.arithmetic (-1) := instAt_win X _ Y 1 (by norm_num)
  have e2 : instAt (X ++ [IR.loopStart, IR.arithmetic (-1), IR.shift 1, IR.arithmetic 1, IR.loopEnd] ++ Y) (X.length + 2) = IR.shift 1 := instAt_win X _ Y 2 (by norm_num)
  have e3 : instAt (X ++ [IR.loopStart, IR.arithmetic (-1), IR.shift 1, IR.arithmetic 1, IR.loopEnd] ++ Y) (X.length + 3) = IR.arithmetic 1 := instAt_win X _ Y 3 (by norm_num)
  have e4 : instAt (X ++ [IR.loopStart, IR.arithmetic (-1), IR.shift 1, IR.arithmetic 1, IR.loopEnd] ++ Y) (X.length + 4) = IR.loopEnd := instAt_win X _ Y 4 (by norm_num)
  have hL : ∀ r, r < 5 → X.length + r < (X ++ [IR.loopStart, IR.arithmetic (-1), IR.shift 1, IR.arithmetic 1, IR.loopEnd] ++ Y).length := by
    intro r hr
    rw [len_win]
    simp only [List.length_cons, List.length_nil]
    omega
  have hgq : t1 q < 256 := ht1 q hqL
  have hgq2 : t1 (wrapPtr q 1) < 256 := ht1 (wrapPtr q 1) (wrapPtr_lt q 1)
  have hs1 : step (X ++ [IR.loopStart, IR.arithmetic (-1), IR.shift 1, IR.arithmetic 1, IR.loopEnd] ++ Y) ⟨X.length, st, { m0 with tape := (upd t1 q ((t1 q + 1) % 256)), ptr := q }⟩ = .ok ⟨X.length + 1, X.length :: st, { m0 with tape := (upd t1 q ((t1 q + 1) % 256)), ptr := q }⟩ := by
    unfold step
    rw [e0]
    dsimp only
    rw [if_pos (by
      show (upd t1 q ((t1 q + 1) % 256)) q ≠ 0
      rw [upd_eq]
      omega)]
  have hs2 : step (X ++ [IR.loopStart, IR.arithmetic (-1), IR.shift 1, IR.arithmetic 1, IR.loopEnd] ++ Y) ⟨X.length + 1, X.length :: st, { m0 with tape := (upd t1 q ((t1 q + 1) % 256)), ptr := q }⟩
      = .ok ⟨X.length + 2, X.length :: st, { m0 with tape := t1, ptr := q }⟩ := by
    have h := step_nonbracket (X ++ [IR.loopStart, IR.arithmetic (-1), IR.shift 1, IR.arithmetic 1, IR.loopEnd] ++ Y) ⟨X.length + 1, X.length :: st, { m0 with tape := (upd t1 q ((t1 q + 1) % 256)), ptr := q }⟩
      (IR.arithmetic (-1)) e1 (by simp) (by simp)
    rw [h]
    show Except.ok (⟨X.length + 2, X.length :: st,
        { m0 with tape := (upd (upd t1 q ((t1 q + 1) % 256)) q
            (wrapCell ((upd t1 q ((t1 q + 1) % 256)) q) (-1))), ptr := q }⟩ : Config)
      = Except.ok (⟨X.length + 2, X.length :: st, { m0 with tape := t1, ptr := q }⟩ : Config)
    rw [upd_eq, wrapCell_neg_one, upd_upd_same,
      show ((t1 q + 1) % 256 + 255) % 256 = t1 q from by omega, upd_self]
  have hs3 : step (X ++ [IR.loopStart, IR.arithmetic (-1), IR.shift 1, IR.arithmetic 1, IR.loopEnd] ++ Y) ⟨X.length + 2, X.length :: st, { m0 with tape := t1, ptr := q }⟩
      = .ok ⟨X.length + 3, X.length :: st, { m0 with tape := t1, ptr := wrapPtr q 1 }⟩ := by
    have h := step_nonbracket (X ++ [IR.loopStart, IR.arithmetic (-1), IR.shift 1, IR.arithmetic 1, IR.loopEnd] ++ Y) ⟨X.length + 2, X.length :: st, { m0 with tape := t1, ptr := q }⟩
      (IR.shift 1) e2 (by simp) (by simp)
    rw [show stepInst (IR.shift 1) { m0 with tape := t1, ptr := q } = .ok { m0 with tape := t1, ptr := wrapPtr q 1 } from rfl] at h
    exact h
  have hs4 : step (X ++ [IR.loopStart, IR.arithmetic (-1), IR.shift 1, IR.arithmetic 1, IR.loopEnd] ++ Y) ⟨X.length + 3, X.length :: st, { m0 with tape := t1, ptr := wrapPtr q 1 }⟩
      = .ok ⟨X.length + 4, X.length :: st, { m0 with tape := (upd t1 (wrapPtr q 1) ((t1 (wrapPtr q 1) + 1) % 256)), ptr := wrapPtr q 1 }⟩ := by
    have h := step_nonbracket (X ++ [IR.loopStart, IR.arithmetic (-1), IR.shift 1, IR.arithmetic 1, IR.loopEnd] ++ Y) ⟨X.length + 3, X.length :: st, { m0 with tape := t1, ptr := wrapPtr q 1 }⟩
      (IR.arithmetic 1) e3 (by simp) (by simp)
    rw [h]
    show Except.ok (⟨X.length + 4, X.length :: st,
        { m0 with tape := (upd t1 (wrapPtr q 1) (wrapCell (t1 (wrapPtr q 1)) 1)), ptr := wrapPtr q 1 }⟩ : Config)
      = Except.ok (⟨X.length + 4, X.length :: st, { m0 with tape := (upd t1 (wrapPtr q 1) ((t1 (wrapPtr q 1) + 1) % 256)), ptr := wrapPtr q 1 }⟩ : Config)
    rw [wrapCell_one]
  by_cases hqq : t1 (wrapPtr q 1) = 255
  · -- found: exit after five steps, zeroing the found cell
    have hs5 : step (X ++ [IR.loopStart, IR.arithmetic (-1), IR.shift 1, IR.arithmetic 1, IR.loopEnd] ++ Y) ⟨X.length + 4, X.length :: st, { m0 with tape := (upd t1 (wrapPtr q 1) ((t1 (wrapPtr q 1) + 1) % 256)), ptr := wrapPtr q 1 }⟩
        = .ok ⟨X.length + 5, st, { m0 with tape := (upd t1 (wrapPtr q 1) ((t1 (wrapPtr q 1) + 1) % 256)), ptr := wrapPtr q 1 }⟩ := by
      unfold step
      rw [e4]
      dsimp only
      rw [if_neg (fun hne => hne (by
        show (upd t1 (wrapPtr q 1) ((t1 (wrapPtr q 1) + 1) % 256)) (wrapPtr q 1) = 0
        rw [upd_eq]
        omega))]
    obtain ⟨f1, c1, hf1, hstep1, hrun1⟩ := run_ok_cons _ fuel _ dcfg (hL 0 (by norm_num)) hok
    rw [hs1] at hstep1
    injection hstep1 with hc1
    subst hc1
    obtain ⟨f2, c2, hf2, hstep2, hrun2⟩ := run_ok_cons _ f1 _ dcfg (hL 1 (by norm_num)) hrun1
    rw [hs2] at hstep2
    injection hstep2 with hc2
    subst hc2
    obtain ⟨f3, c3, hf3, hstep3, hrun3⟩ := run_ok_cons _ f2 _ dcfg (hL 2 (by norm_num)) hrun2
    rw [hs3] at hstep3
    injection hstep3 with hc3
    subst hc3
    obtain ⟨f4, c4, hf4, hstep4, hrun4⟩ := run_ok_cons _ f3 _ dcfg (hL 3 (by norm_num)) hrun3
    rw [hs4] at hstep4
    injection hstep4 with hc4
    subst hc4
    obtain ⟨f5, c5, hf5, hstep5, hrun5⟩ := run_ok_cons _ f4 _ dcfg (hL 4 (by norm_num)) hrun4
    have hscan : scanRight t1 q = some (wrapPtr q 1) := by
      refine scanRight_complete t1 q (wrapPtr q 1) hqL ⟨wrapPtr_lt q 1, hqq, ?_⟩
      intro k hk hk255
      have hq2ne : wrapPtr q 1 ≠ q := fun h => hq255 (by rw [← h]; exact hqq)
      have hkq : k ≠ q := fun h => hq255 (h ▸ hk255)
      rw [dR_rot q (wrapPtr q 1) hqL (wrapPtr_lt q 1) hq2ne, dR_self]
      have h2 : dR q k ≠ 0 := fun h0 => hkq (dR_inj q k q hqL hk hqL (by rw [h0, dR_self]))
      omega
    refine ⟨5, wrapPtr q 1, by omega, by omega, hscan, ?_⟩
    have g1 := stepN_succ (X ++ [IR.loopStart, IR.arithmetic (-1), IR.shift 1, IR.arithmetic 1, IR.loopEnd] ++ Y) 4 _ _ (hL 0 (by norm_num)) hs1
    have g2 := stepN_succ (X ++ [IR.loopStart, IR.arithmetic (-1), IR.shift 1, IR.arithmetic 1, IR.loopEnd] ++ Y) 3 _ _ (hL 1 (by norm_num)) hs2
    have g3 := stepN_succ (X ++ [IR.loopStart, IR.arithmetic (-1), IR.shift 1, IR.arithmetic 1, IR.loopEnd] ++ Y) 2 _ _ (hL 2 (by norm_num)) hs3
    have g4 := stepN_succ (X ++ [IR.loopStart, IR.arithmetic (-1), IR.shift 1, IR.arithmetic 1, IR.loopEnd] ++ Y) 1 _ _ (hL 3 (by norm_num)) hs4
    have g5 := stepN_succ (X ++ [IR.loopStart, IR.arithmetic (-1), IR.shift 1, IR.arithmetic 1, IR.loopEnd] ++ Y) 0 _ _ (hL 4 (by norm_num)) hs5
    rw [stepN_zero] at g5
    refine ((((g1.trans g2).trans g3).trans g4).trans g5).trans ?_
    rw [show (upd t1 (wrapPtr q 1) ((t1 (wrapPtr q 1) + 1) % 256))
        = (upd t1 (wrapPtr q 1) 0) from by rw [hqq]]
  · -- not yet: one more lap, then recurse
    have hs5 : step (X ++ [IR.loopStart, IR.arithmetic (-1), IR.shift 1, IR.arithmetic 1, IR.loopEnd] ++ Y) ⟨X.length + 4, X.length :: st, { m0 with tape := (upd t1 (wrapPtr q 1) ((t1 (wrapPtr q 1) + 1) % 256)), ptr := wrapPtr q 1 }⟩
        = .ok ⟨X.length, st, { m0 with tape := (upd t1 (wrapPtr q 1) ((t1 (wrapPtr q 1) + 1) % 256)), ptr := wrapPtr q 1 }⟩ := by
      unfold step
      rw [e4]
      dsimp only
      rw [if_pos (by
        show (upd t1 (wrapPtr q 1) ((t1 (wrapPtr q 1) + 1) % 256)) (wrapPtr q 1) ≠ 0
        rw [upd_eq]
        omega)]
    obtain ⟨f1, c1, hf1, hstep1, hrun1⟩ := run_ok_cons _ fuel _ dcfg (hL 0 (by norm_num)) hok
    rw [hs1] at hstep1
    injection hstep1 with hc1
    subst hc1
    obtain ⟨f2, c2, hf2, hstep2, hrun2⟩ := run_ok_cons _ f1 _ dcfg (hL 1 (by norm_num)) hrun1
    rw [hs2] at hstep2
    injection hstep2 with hc2
    subst hc2
    obtain ⟨f3, c3, hf3, hstep3, hrun3⟩ := run_ok_cons _ f2 _ dcfg (hL 2 (by norm_num)) hrun2
    rw [hs3] at hstep3
    injection hstep3 with hc3
    subst hc3
    obtain ⟨f4, c4, hf4, hstep4, hrun4⟩ := run_ok_cons _ f3 _ dcfg (hL 3 (by norm_num)) hrun3
    rw [hs4] at hstep4
    injection hstep4 with hc4
    subst hc4
    obtain ⟨f5, c5, hf5, hstep5, hrun5⟩ := run_ok_cons _ f4 _ dcfg (hL 4 (by norm_num)) hrun4
    rw [hs5] at hstep5
    injection hstep5 with hc5
    subst hc5
    obtain ⟨j, jp, hj1, hjf, hscanq2, hstepN⟩ := ih f5 (by omega) (wrapPtr q 1) dcfg ht1
      (wrapPtr_lt q 1) hqq hrun5
    refine ⟨j + 5, jp, by omega, by omega, ?_, ?_⟩
    · rw [rotR t1 q hqL hq255]
      exact hscanq2
    · have g1 := stepN_succ (X ++ [IR.loopStart, IR.arithmetic (-1), IR.shift 1, IR.arithmetic 1, IR.loopEnd] ++ Y) (j + 4) _ _ (hL 0 (by norm_num)) hs1
      have g2 := stepN_succ (X ++ [IR.loopStart, IR.arithmetic (-1), IR.shift 1, IR.arithmetic 1, IR.loopEnd] ++ Y) (j + 3) _ _ (hL 1 (by norm_num)) hs2
      have g3 := stepN_succ (X ++ [IR.loopStart, IR.arithmetic (-1), IR.shift 1, IR.arithmetic 1, IR.loopEnd] ++ Y) (j + 2) _ _ (hL 2 (by norm_num)) hs3
      have g4 := stepN_succ (X ++ [IR.loopStart, IR.arithmetic (-1), IR.shift 1, IR.arithmetic 1, IR.loopEnd] ++ Y) (j + 1) _ _ (hL 3 (by norm_num)) hs4
      have g5 := stepN_succ (X ++ [IR.loopStart, IR.arithmetic (-1), IR.shift 1, IR.arithmetic 1, IR.loopEnd] ++ Y) j _ _ (hL 4 (by norm_num)) hs5
      exact ((((g1.trans g2).trans g3).trans g4).trans g5).trans hstepN

/-- Big-step execution of the AnchorRight window. -/
theorem hbig5_anchorR (X Y : List IR) :
    ∀ (fuel : Nat) (st : List Nat) (m : Machine) (dcfg : Config),
      tapeGood m.tape → m.ptr < tapeLen →
      run (X ++ [IR.loopStart, IR.arithmetic (-1), IR.shift 1, IR.arithmetic 1, IR.loopEnd] ++ Y) fuel ⟨X.length, st, m⟩ = some (.ok dcfg) →
      ∃ j m2, 1 ≤ j ∧ j ≤ fuel ∧
        stepN (X ++ [IR.loopStart, IR.arithmetic (-1), IR.shift 1, IR.arithmetic 1, IR.loopEnd] ++ Y) j ⟨X.length, st, m⟩ = some ⟨X.length + 5, st, m2⟩ ∧
        WErel [IR.anchorRight] m m2 := by
  intro fuel st m dcfg hg hp hok
  have e0 : instAt (X ++ [IR.loopStart, IR.arithmetic (-1), IR.shift 1, IR.arithmetic 1, IR.loopEnd] ++ Y) X.length = IR.loopStart := instAt_win0 X _ Y (by norm_num)
  have e1 : instAt (X ++ [IR.loopStart, IR.arithmetic (-1), IR.shift 1, IR.arithmetic 1, IR.loopEnd] ++ Y) (X.length + 1) = IR.arithmetic (-1) := instAt_win X _ Y 1 (by norm_num)
  have e2 : instAt (X ++ [IR.loopStart, IR.arithmetic (-1), IR.shift 1, IR.arithmetic 1, IR.loopEnd] ++ Y) (X.length + 2) = IR.shift 1 := instAt_win X _ Y 2 (by norm_num)
  have e3 : instAt (X ++ [IR.loopStart, IR.arithmetic (-1), IR.shift 1, IR.arithmetic 1, IR.loopEnd] ++ Y) (X.length + 3) = IR.arithmetic 1 := instAt_win X _ Y 3 (by norm_num)
  have e4 : instAt (X ++ [IR.loopStart, IR.arithmetic (-1), IR.shift 1, IR.arithmetic 1, IR.loopEnd] ++ Y) (X.length + 4) = IR.loopEnd := instAt_win X _ Y 4 (by norm_num)
  have hL : ∀ r, r < 5 → X.length + r < (X ++ [IR.loopStart, IR.arithmetic (-1), IR.shift 1, IR.arithmetic 1, IR.loopEnd] ++ Y).length := by
    intro r hr
    rw [len_win]
    simp only [List.length_cons, List.length_nil]
    omega
  have hgp : m.tape m.ptr < 256 := hg m.ptr hp
  by_cases hv : m.tape m.ptr = 0
  · -- zero cell: the anchor is a no-op, the loop is skipped
    have hskip : scanMatch (X ++ [IR.loopStart, IR.arithmetic (-1), IR.shift 1, IR.arithmetic 1, IR.loopEnd] ++ Y) (X.length + 1) 1 = some (X.length + 4) := by
      rw [scanMatch_step_other _ (X.length + 1) 1 (hL 1 (by norm_num))
          (by rw [e1]; simp) (by rw [e1]; simp),
        show X.length + 1 + 1 = X.length + 2 from by omega,
        scanMatch_step_other _ (X.length + 2) 1 (hL 2 (by norm_num))
          (by rw [e2]; simp) (by rw [e2]; simp),
        show X.length + 2 + 1 = X.length + 3 from by omega,
        scanMatch_step_other _ (X.length + 3) 1 (hL 3 (by norm_num))
          (by rw [e3]; simp) (by rw [e3]; simp),
        show X.length + 3 + 1 = X.length + 4 from by omega,
        scanMatch_step_le _ (X.length + 4) 1 (hL 4 (by norm_num)) e4,
        if_pos rfl]
    have hs1 : step (X ++ [IR.loopStart, IR.arithmetic (-1), IR.shift 1, IR.arithmetic 1, IR.loopEnd] ++ Y) ⟨X.length, st, m⟩ = .ok ⟨X.length + 4, X.length :: st, m⟩ := by
      unfold step
      rw [e0]
      dsimp only
      rw [if_neg (fun hne => hne hv), hskip]
    have hs2 : step (X ++ [IR.loopStart, IR.arithmetic (-1), IR.shift 1, IR.arithmetic 1, IR.loopEnd] ++ Y) ⟨X.length + 4, X.length :: st, m⟩ = .ok ⟨X.length + 5, st, m⟩ := by
      unfold step
      rw [e4]
      dsimp only
      rw [if_neg (fun hne => hne hv)]
    obtain ⟨f1, c1, hf1, hstep1, hrun1⟩ := run_ok_cons _ fuel _ dcfg (hL 0 (by norm_num)) hok
    rw [hs1] at hstep1
    injection hstep1 with hc1
    subst hc1
    obtain ⟨f2, c2, hf2, hstep2, hrun2⟩ := run_ok_cons _ f1 _ dcfg (hL 4 (by norm_num)) hrun1
    refine ⟨2, m, by omega, by omega, ?_, ?_⟩
    · have h2 := stepN_succ (X ++ [IR.loopStart, IR.arithmetic (-1), IR.shift 1, IR.arithmetic 1, IR.loopEnd] ++ Y) 1 _ _ (hL 0 (by norm_num)) hs1
      have h1 := stepN_succ (X ++ [IR.loopStart, IR.arithmetic (-1), IR.shift 1, IR.arithmetic 1, IR.loopEnd] ++ Y) 0 _ _ (hL 4 (by norm_num)) hs2
      rw [stepN_zero] at h1
      exact h2.trans h1
    · show stepInst IR.anchorRight m = .ok m
      simp only [stepInst]
      rw [if_pos hv]
  · -- live cell: decrement and run the walking loop
    have hmach : ({ m with tape := (upd (upd m.tape m.ptr ((m.tape m.ptr + 255) % 256)) m.ptr (((upd m.tape m.ptr ((m.tape m.ptr + 255) % 256)) m.ptr + 1) % 256)), ptr := m.ptr } : Machine) = m := by
      rw [upd_eq, upd_upd_same,
        show ((m.tape m.ptr + 255) % 256 + 1) % 256 = m.tape m.ptr from by omega, upd_self]
    have hok2 : run (X ++ [IR.loopStart, IR.arithmetic (-1), IR.shift 1, IR.arithmetic 1, IR.loopEnd] ++ Y) fuel ⟨X.length, st,
        { m with tape := (upd (upd m.tape m.ptr ((m.tape m.ptr + 255) % 256)) m.ptr (((upd m.tape m.ptr ((m.tape m.ptr + 255) % 256)) m.ptr + 1) % 256)), ptr := m.ptr }⟩
        = some (.ok dcfg) := by
      rw [hmach]
      exact hok
    have ht1good : tapeGood (upd m.tape m.ptr ((m.tape m.ptr + 255) % 256)) := tapeGood_upd _ _ _ hg (Nat.mod_lt _ (by norm_num))
    have ht1ne : (upd m.tape m.ptr ((m.tape m.ptr + 255) % 256)) m.ptr ≠ 255 := by
      rw [upd_eq]
      omega
    obtain ⟨j, jp, hj1, hjf, hscan, hstepN⟩ :=
      anchorR_loop X Y m (upd m.tape m.ptr ((m.tape m.ptr + 255) % 256)) st fuel m.ptr dcfg ht1good hp ht1ne hok2
    rw [hmach] at hstepN
    refine ⟨j, { m with tape := (upd (upd m.tape m.ptr ((m.tape m.ptr + 255) % 256)) jp 0), ptr := jp }, hj1, hjf, hstepN, ?_⟩
    show stepInst IR.anchorRight m = .ok { m with tape := (upd (upd m.tape m.ptr ((m.tape m.ptr + 255) % 256)) jp 0), ptr := jp }
    simp only [stepInst]
    rw [if_neg hv, hscan]

/-- The AnchorRight window rewrite preserves behavior. -/
theorem win_pres_anchorR (X Y : List IR) :
    Pres (X ++ [IR.loopStart, IR.arithmetic (-1), IR.shift 1, IR.arithmetic 1,
        IR.loopEnd] ++ Y)
      (X ++ [IR.anchorRight] ++ Y) := by
  refine pres_of_sim X [IR.loopStart, IR.arithmetic (-1), IR.shift 1, IR.arithmetic 1,
      IR.loopEnd] [IR.anchorRight] Y (by norm_num) (by norm_num)
    (Or.inr ⟨IR.anchorRight, rfl, by simp, by simp⟩)
    (fun k hk => cross_win5 X Y _ _ _ (by simp) (by simp) (by simp) (by simp)
      (by simp) (by simp) k hk)
    (fun k _ => cross_nb1 X Y _ (by simp) (by simp) k)
    ?_
  intro st m fuel dcfg hg hp hok
  exact hbig5_anchorR X Y fuel st m dcfg hg hp hok

/-! ## C1: the AnchorLeft window -/

/-- The anchor-left loop: starting at `q` on the shifted tape `t1` with the
current cell pre-incremented, the loop walks left to the first 255 cell of
`t1`, zeroes it, and leaves everything else as `t1`. -/
theorem anchorL_loop (X Y : List IR) (m0 : Machine) (t1 : Nat → Nat) (st : List Nat) :
    ∀ (fuel q : Nat) (dcfg : Config), tapeGood t1 → q < tapeLen → t1 q ≠ 255 →
      run (X ++ [IR.loopStart, IR.arithmetic (-1), IR.shift (-1), IR.arithmetic 1, IR.loopEnd] ++ Y) fuel ⟨X.length, st, { m0 with tape := (upd t1 q ((t1 q + 1) % 256)), ptr := q }⟩ = some (.ok dcfg) →
      ∃ j jp, 1 ≤ j ∧ j ≤ fuel ∧ scanLeft t1 q = some jp ∧
        stepN (X ++ [IR.loopStart, IR.arithmetic (-1), IR.shift (-1), IR.arithmetic 1, IR.loopEnd] ++ Y) j ⟨X.length, st, { m0 with tape := (upd t1 q ((t1 q + 1) % 256)), ptr := q }⟩
          = some ⟨X.length + 5, st, { m0 with tape := (upd t1 jp 0), ptr := jp }⟩ := by
  intro fuel
  induction fuel using Nat.strong_induction_on with
  | _ fuel ih =>
  intro q dcfg ht1 hqL hq255
  intro hok
  have e0 : instAt (X ++ [IR.loopStart, IR.arithmetic (-1), IR.shift (-1), IR.arithmetic 1, IR.loopEnd] ++ Y) X.length = IR.loopStart := instAt_win0 X _ Y (by norm_num)
  have e1 : instAt (X ++ [IR.loopStart, IR.arithmetic (-1), IR.shift (-1), IR.arithmetic 1, IR.loopEnd] ++ Y) (X.length + 1) = IR.arithmetic (-1) := instAt_win X _ Y 1 (by norm_num)
  have e2 : instAt (X ++ [IR.loopStart, IR.arithmetic (-1), IR.shift (-1), IR.arithmetic 1, IR.loopEnd] ++ Y) (X.length + 2) = IR.shift (-1) := instAt_win X _ Y 2 (by norm_num)
  have e3 : instAt (X ++ [IR.loopStart, IR.arithmetic (-1), IR.shift (-1), IR.arithmetic 1, IR.loopEnd] ++ Y) (X.length + 3) = IR.arithmetic 1 := instAt_win X _ Y 3 (by norm_num)
  have e4 : instAt (X ++ [IR.loopStart, IR.arithmetic (-1), IR.shift (-1), IR.arithmetic 1, IR.loopEnd] ++ Y) (X.length + 4) = IR.loopEnd := instAt_win X _ Y 4 (by norm_num)
  have hL : ∀ r, r < 5 → X.length + r < (X ++ [IR.loopStart, IR.arithmetic (-1), IR.shift (-1), IR.arithmetic 1, IR.loopEnd] ++ Y).length := by
    intro r hr
    rw [len_win]
    simp only [List.length_cons, List.length_nil]
    omega
  have hgq : t1 q < 256 := ht1 q hqL
  have hgq2 : t1 (wrapPtr q (-1)) < 256 := ht1 (wrapPtr q (-1)) (wrapPtr_lt q (-1))
  have hs1 : step (X ++ [IR.loopStart, IR.arithmetic (-1), IR.shift (-1), IR.arithmetic 1, IR.loopEnd] ++ Y) ⟨X.length, st, { m0 with tape := (upd t1 q ((t1 q + 1) % 256)), ptr := q }⟩ = .ok ⟨X.length + 1, X.length :: st, { m0 with tape := (upd t1 q ((t1 q + 1) % 256)), ptr := q }⟩ := by
    unfold step
    rw [e0]
    dsimp only
    rw [if_pos (by
      show (upd t1 q ((t1 q + 1) % 256)) q ≠ 0
      rw [upd_eq]
      omega)]
  have hs2 : step (X ++ [IR.loopStart, IR.arithmetic (-1), IR.shift (-1), IR.arithmetic 1, IR.loopEnd] ++ Y) ⟨X.length + 1, X.length :: st, { m0 with tape := (upd t1 q ((t1 q + 1) % 256)), ptr := q }⟩
      = .ok ⟨X.length + 2, X.length :: st, { m0 with tape := t1, ptr := q }⟩ := by
    have h := step_nonbracket (X ++ [IR.loopStart, IR.arithmetic (-1), IR.shift (-1), IR.arithmetic 1, IR.loopEnd] ++ Y) ⟨X.length + 1, X.length :: st, { m0 with tape := (upd t1 q ((t1 q + 1) % 256)), ptr := q }⟩
      (IR.arithmetic (-1)) e1 (by simp) (by simp)
    rw [h]
    show Except.ok (⟨X.length + 2, X.length :: st, { m0 with tape := (upd (upd t1 q ((t1 q + 1) % 256)) q (wrapCell ((upd t1 q ((t1 q + 1) % 256)) q) (-1))), ptr := q }⟩ : Config)
      = Except.ok (⟨X.length + 2, X.length :: st, { m0 with tape := t1, ptr := q }⟩ : Config)
    rw [upd_eq, wrapCell_neg_one, upd_upd_same,
      show ((t1 q + 1) % 256 + 255) % 256 = t1 q from by omega, upd_self]
  have hs3 : step (X ++ [IR.loopStart, IR.arithmetic (-1), IR.shift (-1), IR.arithmetic 1, IR.loopEnd] ++ Y) ⟨X.length + 2, X.length :: st, { m0 with tape := t1, ptr := q }⟩
      = .ok ⟨X.length + 3, X.length :: st, { m0 with tape := t1, ptr := wrapPtr q (-1) }⟩ := by
    have h := step_nonbracket (X ++ [IR.loopStart, IR.arithmetic (-1), IR.shift (-1), IR.arithmetic 1, IR.loopEnd] ++ Y) ⟨X.length + 2, X.length :: st, { m0 with tape := t1, ptr := q }⟩
      (IR.shift (-1)) e2 (by simp) (by simp)
    rw [show stepInst (IR.shift (-1)) { m0 with tape := t1, ptr := q } = .ok { m0 with tape := t1, ptr := wrapPtr q (-1) } from rfl] at h
    exact h
  have hs4 : step (X ++ [IR.loopStart, IR.arithmetic (-1), IR.shift (-1), IR.arithmetic 1, IR.loopEnd] ++ Y) ⟨X.length + 3, X.length :: st, { m0 with tape := t1, ptr := wrapPtr q (-1) }⟩
      = .ok ⟨X.length + 4, X.length :: st, { m0 with tape := (upd t1 (wrapPtr q (-1)) ((t1 (wrapPtr q (-1)) + 1) % 256)), ptr := wrapPtr q (-1) }⟩ := by
    have h := step_nonbracket (X ++ [IR.loopStart, IR.arithmetic (-1), IR.shift (-1), IR.arithmetic 1, IR.loopEnd] ++ Y) ⟨X.length + 3, X.length :: st, { m0 with tape := t1, ptr := wrapPtr q (-1) }⟩
      (IR.arithmetic 1) e3 (by simp) (by simp)
    rw [h]
    show Except.ok (⟨X.length + 4, X.length :: st, { m0 with tape := (upd t1 (wrapPtr q (-1)) (wrapCell (t1 (wrapPtr q (-1))) 1)), ptr := wrapPtr q (-1) }⟩ : Config)
      = Except.ok (⟨X.length + 4, X.length :: st, { m0 with tape := (upd t1 (wrapPtr q (-1)) ((t1 (wrapPtr q (-1)) + 1) % 256)), ptr := wrapPtr q (-1) }⟩ : Config)
    rw [wrapCell_one]
  by_cases hqq : t1 (wrapPtr q (-1)) = 255
  · -- found: exit after five steps, zeroing the found cell
    have hs5 : step (X ++ [IR.loopStart, IR.arithmetic (-1), IR.shift (-1), IR.arithmetic 1, IR.loopEnd] ++ Y) ⟨X.length + 4, X.length :: st, { m0 with tape := (upd t1 (wrapPtr q (-1)) ((t1 (wrapPtr q (-1)) + 1) % 256)), ptr := wrapPtr q (-1) }⟩
        = .ok ⟨X.length + 5, st, { m0 with tape := (upd t1 (wrapPtr q (-1)) ((t1 (wrapPtr q (-1)) + 1) % 256)), ptr := wrapPtr q (-1) }⟩ := by
      unfold step
      rw [e4]
      dsimp only
      rw [if_neg (fun hne => hne (by
        show (upd t1 (wrapPtr q (-1)) ((t1 (wrapPtr q (-1)) + 1) % 256)) (wrapPtr q (-1)) = 0
        rw [upd_eq]
        omega))]
    obtain ⟨f1, c1, hf1, hstep1, hrun1⟩ := run_ok_cons _ fuel _ dcfg (hL 0 (by norm_num)) hok
    rw [hs1] at hstep1
    injection hstep1 with hc1
    subst hc1
    obtain ⟨f2, c2, hf2, hstep2, hrun2⟩ := run_ok_cons _ f1 _ dcfg (hL 1 (by norm_num)) hrun1
    rw [hs2] at hstep2
    injection hstep2 with hc2
    subst hc2
    obtain ⟨f3, c3, hf3, hstep3, hrun3⟩ := run_ok_cons _ f2 _ dcfg (hL 2 (by norm_num)) hrun2
    rw [hs3] at hstep3
    injection hstep3 with hc3
    subst hc3
    obtain ⟨f4, c4, hf4, hstep4, hrun4⟩ := run_ok_cons _ f3 _ dcfg (hL 3 (by norm_num)) hrun3
    rw [hs4] at hstep4
    injection hstep4 with hc4
    subst hc4
    obtain ⟨f5, c5, hf5, hstep5, hrun5⟩ := run_ok_cons _ f4 _ dcfg (hL 4 (by norm_num)) hrun4
    have hscan : scanLeft t1 q = some (wrapPtr q (-1)) := by
      refine scanLeft_complete t1 q (wrapPtr q (-1)) hqL ⟨wrapPtr_lt q (-1), hqq, ?_⟩
      intro k hk hk255
      rw [dL_first q hqL]
      exact Nat.zero_le _
    refine ⟨5, wrapPtr q (-1), by omega, by omega, hscan, ?_⟩
    have g1 := stepN_succ (X ++ [IR.loopStart, IR.arithmetic (-1), IR.shift (-1), IR.arithmetic 1, IR.loopEnd] ++ Y) 4 _ _ (hL 0 (by norm_num)) hs1
    have g2 := stepN_succ (X ++ [IR.loopStart, IR.arithmetic (-1), IR.shift (-1), IR.arithmetic 1, IR.loopEnd] ++ Y) 3 _ _ (hL 1 (by norm_num)) hs2
    have g3 := stepN_succ (X ++ [IR.loopStart, IR.arithmetic (-1), IR.shift (-1), IR.arithmetic 1, IR.loopEnd] ++ Y) 2 _ _ (hL 2 (by norm_num)) hs3
    have g4 := stepN_succ (X ++ [IR.loopStart, IR.arithmetic (-1), IR.shift (-1), IR.arithmetic 1, IR.loopEnd] ++ Y) 1 _ _ (hL 3 (by norm_num)) hs4
    have g5 := stepN_succ (X ++ [IR.loopStart, IR.arithmetic (-1), IR.shift (-1), IR.arithmetic 1, IR.loopEnd] ++ Y) 0 _ _ (hL 4 (by norm_num)) hs5
    rw [stepN_zero] at g5
    refine ((((g1.trans g2).trans g3).trans g4).trans g5).trans ?_
    rw [show (upd t1 (wrapPtr q (-1)) ((t1 (wrapPtr q (-1)) + 1) % 256))
        = (upd t1 (wrapPtr q (-1)) 0) from by rw [hqq]]
  · -- not yet: one more lap, then recurse
    have hs5 : step (X ++ [IR.loopStart, IR.arithmetic (-1), IR.shift (-1), IR.arithmetic 1, IR.loopEnd] ++ Y) ⟨X.length + 4, X.length :: st, { m0 with tape := (upd t1 (wrapPtr q (-1)) ((t1 (wrapPtr q (-1)) + 1) % 256)), ptr := wrapPtr q (-1) }⟩
        = .ok ⟨X.length, st, { m0 with tape := (upd t1 (wrapPtr q (-1)) ((t1 (wrapPtr q (-1)) + 1) % 256)), ptr := wrapPtr q (-1) }⟩ := by
      unfold step
      rw [e4]
      dsimp only
      rw [if_pos (by
        show (upd t1 (wrapPtr q (-1)) ((t1 (wrapPtr q (-1)) + 1) % 256)) (wrapPtr q (-1)) ≠ 0
        rw [upd_eq]
        omega)]
    obtain ⟨f1, c1, hf1, hstep1, hrun1⟩ := run_ok_cons _ fuel _ dcfg (hL 0 (by norm_num)) hok
    rw [hs1] at hstep1
    injection hstep1 with hc1
    subst hc1
    obtain ⟨f2, c2, hf2, hstep2, hrun2⟩ := run_ok_cons _ f1 _ dcfg (hL 1 (by norm_num)) hrun1
    rw [hs2] at hstep2
    injection hstep2 with hc2
    subst hc2
    obtain ⟨f3, c3, hf3, hstep3, hrun3⟩ := run_ok_cons _ f2 _ dcfg (hL 2 (by norm_num)) hrun2
    rw [hs3] at hstep3
    injection hstep3 with hc3
    subst hc3
    obtain ⟨f4, c4, hf4, hstep4, hrun4⟩ := run_ok_cons _ f3 _ dcfg (hL 3 (by norm_num)) hrun3
    rw [hs4] at hstep4
    injection hstep4 with hc4
    subst hc4
    obtain ⟨f5, c5, hf5, hstep5, hrun5⟩ := run_ok_cons _ f4 _ dcfg (hL 4 (by norm_num)) hrun4
    rw [hs5] at hstep5
    injection hstep5 with hc5
    subst hc5
    obtain ⟨j, jp, hj1, hjf, hscanq2, hstepN⟩ := ih f5 (by omega) (wrapPtr q (-1)) dcfg ht1
      (wrapPtr_lt q (-1)) hqq hrun5
    refine ⟨j + 5, jp, by omega, by omega, ?_, ?_⟩
    · rw [rotL t1 q hqL hqq]
      exact hscanq2
    · have g1 := stepN_succ (X ++ [IR.loopStart, IR.arithmetic (-1), IR.shift (-1), IR.arithmetic 1, IR.loopEnd] ++ Y) (j + 4) _ _ (hL 0 (by norm_num)) hs1
      have g2 := stepN_succ (X ++ [IR.loopStart, IR.arithmetic (-1), IR.shift (-1), IR.arithmetic 1, IR.loopEnd] ++ Y) (j + 3) _ _ (hL 1 (by norm_num)) hs2
      have g3 := stepN_succ (X ++ [IR.loopStart, IR.arithmetic (-1), IR.shift (-1), IR.arithmetic 1, IR.loopEnd] ++ Y) (j + 2) _ _ (hL 2 (by norm_num)) hs3
      have g4 := stepN_succ (X ++ [IR.loopStart, IR.arithmetic (-1), IR.shift (-1), IR.arithmetic 1, IR.loopEnd] ++ Y) (j + 1) _ _ (hL 3 (by norm_num)) hs4
      have g5 := stepN_succ (X ++ [IR.loopStart, IR.arithmetic (-1), IR.shift (-1), IR.arithmetic 1, IR.loopEnd] ++ Y) j _ _ (hL 4 (by norm_num)) hs5
      exact ((((g1.trans g2).trans g3).trans g4).trans g5).trans hstepN

/-- Big-step execution of the AnchorLeft window. -/
theorem hbig5_anchorL (X Y : List IR) :
    ∀ (fuel : Nat) (st : List Nat) (m : Machine) (dcfg : Config),
      tapeGood m.tape → m.ptr < tapeLen →
      run (X ++ [IR.loopStart, IR.arithmetic (-1), IR.shift (-1), IR.arithmetic 1, IR.loopEnd] ++ Y) fuel ⟨X.length, st, m⟩ = some (.ok dcfg) →
      ∃ j m2, 1 ≤ j ∧ j ≤ fuel ∧
        stepN (X ++ [IR.loopStart, IR.arithmetic (-1), IR.shift (-1), IR.arithmetic 1, IR.loopEnd] ++ Y) j ⟨X.length, st, m⟩ = some ⟨X.length + 5, st, m2⟩ ∧
        WErel [IR.anchorLeft] m m2 := by
  intro fuel st m dcfg hg hp hok
  have e0 : instAt (X ++ [IR.loopStart, IR.arithmetic (-1), IR.shift (-1), IR.arithmetic 1, IR.loopEnd] ++ Y) X.length = IR.loopStart := instAt_win0 X _ Y (by norm_num)
  have e1 : instAt (X ++ [IR.loopStart, IR.arithmetic (-1), IR.shift (-1), IR.arithmetic 1, IR.loopEnd] ++ Y) (X.length + 1) = IR.arithmetic (-1) := instAt_win X _ Y 1 (by norm_num)
  have e2 : instAt (X ++ [IR.loopStart, IR.arithmetic (-1), IR.shift (-1), IR.arithmetic 1, IR.loopEnd] ++ Y) (X.length + 2) = IR.shift (-1) := instAt_win X _ Y 2 (by norm_num)
  have e3 : instAt (X ++ [IR.loopStart, IR.arithmetic (-1), IR.shift (-1), IR.arithmetic 1, IR.loopEnd] ++ Y) (X.length + 3) = IR.arithmetic 1 := instAt_win X _ Y 3 (by norm_num)
  have e4 : instAt (X ++ [IR.loopStart, IR.arithmetic (-1), IR.shift (-1), IR.arithmetic 1, IR.loopEnd] ++ Y) (X.length + 4) = IR.loopEnd := instAt_win X _ Y 4 (by norm_num)
  have hL : ∀ r, r < 5 → X.length + r < (X ++ [IR.loopStart, IR.arithmetic (-1), IR.shift (-1), IR.arithmetic 1, IR.loopEnd] ++ Y).length := by
    intro r hr
    rw [len_win]
    simp only [List.length_cons, List.length_nil]
    omega
  have hgp : m.tape m.ptr < 256 := hg m.ptr hp
  by_cases hv : m.tape m.ptr = 0
  · -- zero cell: the anchor is a no-op, the loop is skipped
    have hskip : scanMatch (X ++ [IR.loopStart, IR.arithmetic (-1), IR.shift (-1), IR.arithmetic 1, IR.loopEnd] ++ Y) (X.length + 1) 1 = some (X.length + 4) := by
      rw [scanMatch_step_other _ (X.length + 1) 1 (hL 1 (by norm_num))
          (by rw [e1]; simp) (by rw [e1]; simp),
        show X.length + 1 + 1 = X.length + 2 from by omega,
        scanMatch_step_other _ (X.length + 2) 1 (hL 2 (by norm_num))
          (by rw [e2]; simp) (by rw [e2]; simp),
        show X.length + 2 + 1 = X.length + 3 from by omega,
        scanMatch_step_other _ (X.length + 3) 1 (hL 3 (by norm_num))
          (by rw [e3]; simp) (by rw [e3]; simp),
        show X.length + 3 + 1 = X.length + 4 from by omega,
        scanMatch_step_le _ (X.length + 4) 1 (hL 4 (by norm_num)) e4,
        if_pos rfl]
    have hs1 : step (X ++ [IR.loopStart, IR.arithmetic (-1), IR.shift (-1), IR.arithmetic 1, IR.loopEnd] ++ Y) ⟨X.length, st, m⟩ = .ok ⟨X.length + 4, X.length :: st, m⟩ := by
      unfold step
      rw [e0]
      dsimp only
      rw [if_neg (fun hne => hne hv), hskip]
    have hs2 : step (X ++ [IR.loopStart, IR.arithmetic (-1), IR.shift (-1), IR.arithmetic 1, IR.loopEnd] ++ Y) ⟨X.length + 4, X.length :: st, m⟩ = .ok ⟨X.length + 5, st, m⟩ := by
      unfold step
      rw [e4]
      dsimp only
      rw [if_neg (fun hne => hne hv)]
    obtain ⟨f1, c1, hf1, hstep1, hrun1⟩ := run_ok_cons _ fuel _ dcfg (hL 0 (by norm_num)) hok
    rw [hs1] at hstep1
    injection hstep1 with hc1
    subst hc1
    obtain ⟨f2, c2, hf2, hstep2, hrun2⟩ := run_ok_cons _ f1 _ dcfg (hL 4 (by norm_num)) hrun1
    refine ⟨2, m, by omega, by omega, ?_, ?_⟩
    · have h2 := stepN_succ (X ++ [IR.loopStart, IR.arithmetic (-1), IR.shift (-1), IR.arithmetic 1, IR.loopEnd] ++ Y) 1 _ _ (hL 0 (by norm_num)) hs1
      have h1 := stepN_succ (X ++ [IR.loopStart, IR.arithmetic (-1), IR.shift (-1), IR.arithmetic 1, IR.loopEnd] ++ Y) 0 _ _ (hL 4 (by norm_num)) hs2
      rw [stepN_zero] at h1
      exact h2.trans h1
    · show stepInst IR.anchorLeft m = .ok m
      simp only [stepInst]
      rw [if_pos hv]
  · -- live cell: decrement and run the walking loop
    have hmach : ({ m with tape := (upd (upd m.tape m.ptr ((m.tape m.ptr + 255) % 256)) m.ptr (((upd m.tape m.ptr ((m.tape m.ptr + 255) % 256)) m.ptr + 1) % 256)), ptr := m.ptr } : Machine) = m := by
      rw [upd_eq, upd_upd_same,
        show ((m.tape m.ptr + 255) % 256 + 1) % 256 = m.tape m.ptr from by omega, upd_self]
    have hok2 : run (X ++ [IR.loopStart, IR.arithmetic (-1), IR.shift (-1), IR.arithmetic 1, IR.loopEnd] ++ Y) fuel ⟨X.length, st,
        { m with tape := (upd (upd m.tape m.ptr ((m.tape m.ptr + 255) % 256)) m.ptr (((upd m.tape m.ptr ((m.tape m.ptr + 255) % 256)) m.ptr + 1) % 256)), ptr := m.ptr }⟩
        = some (.ok dcfg) := by
      rw [hmach]
      exact hok
    have ht1good : tapeGood (upd m.tape m.ptr ((m.tape m.ptr + 255) % 256)) := tapeGood_upd _ _ _ hg (Nat.mod_lt _ (by norm_num))
    have ht1ne : (upd m.tape m.ptr ((m.tape m.ptr + 255) % 256)) m.ptr ≠ 255 := by
      rw [upd_eq]
      omega
    obtain ⟨j, jp, hj1, hjf, hscan, hstepN⟩ :=
      anchorL_loop X Y m (upd m.tape m.ptr ((m.tape m.ptr + 255) % 256)) st fuel m.ptr dcfg ht1good hp ht1ne hok2
    rw [hmach] at hstepN
    refine ⟨j, { m with tape := (upd (upd m.tape m.ptr ((m.tape m.ptr + 255) % 256)) jp 0), ptr := jp }, hj1, hjf, hstepN, ?_⟩
    show stepInst IR.anchorLeft m = .ok { m with tape := (upd (upd m.tape m.ptr ((m.tape m.ptr + 255) % 256)) jp 0), ptr := jp }
    simp only [stepInst]
    rw [if_neg hv, hscan]

/-- The AnchorLeft window rewrite preserves behavior. -/
theorem win_pres_anchorL (X Y : List IR) :
    Pres (X ++ [IR.loopStart, IR.arithmetic (-1), IR.shift (-1), IR.arithmetic 1,
        IR.loopEnd] ++ Y)
      (X ++ [IR.anchorLeft] ++ Y) := by
  refine pres_of_sim X [IR.loopStart, IR.arithmetic (-1), IR.shift (-1), IR.arithmetic 1,
      IR.loopEnd] [IR.anchorLeft] Y (by norm_num) (by norm_num)
    (Or.inr ⟨IR.anchorLeft, rfl, by simp, by simp⟩)
    (fun k hk => cross_win5 X Y _ _ _ (by simp) (by simp) (by simp) (by simp)
      (by simp) (by simp) k hk)
    (fun k _ => cross_nb1 X Y _ (by simp) (by simp) k)
    ?_
  intro st m fuel dcfg hg hp hok
  exact hbig5_anchorL X Y fuel st m dcfg hg hp hok

/-! ## C1: pass 2 preserves behavior, and the main theorem -/

/-- The six-element window check `step6` preserves behavior. -/
theorem step6_pres (ir : List IR) (idx : Nat) : Pres ir (step6 ir idx) := by
  unfold step6
  split
  · rename_i hlen
    split
    · rename_i o1 a1 o2 a2 h0 h1 h2 h3 h4 h5
      split
      · rename_i hg
        obtain ⟨hg1, hg2, hg3⟩ := hg
        subst hg1
        subst hg2
        rw [splice6 ir idx _ hlen]
        have hd := window_decomp6 ir idx hlen
        nth_rewrite 1 [hd]
        rw [h0, h1, h2, h3, h4, h5]
        have ho2 : o2 = -o1 := by omega
        rw [ho2]
        exact win_pres_move (ir.take idx) (ir.drop (idx + 6)) o1
      split
      · rename_i hg
        obtain ⟨hg1, hg2, hg3⟩ := hg
        subst hg2
        rw [splice6 ir idx _ hlen]
        have hd := window_decomp6 ir idx hlen
        nth_rewrite 1 [hd]
        rw [h0, h1, h2, h3, h4, h5]
        have ho2 : o2 = -o1 := by omega
        rw [ho2]
        exact win_pres_mult (ir.take idx) (ir.drop (idx + 6)) a1 o1 hg1
      · exact Pres_refl ir
    all_goals exact Pres_refl ir
  · exact Pres_refl ir

/-- The five-element window check `step5` preserves behavior. -/
theorem step5_pres (ir : List IR) (idx : Nat) : Pres ir (step5 ir idx) := by
  unfold step5
  split
  · rename_i hlen
    split
    · rename_i am dir a1 h0 h1 h2 h3 h4
      split
      · rename_i hg
        obtain ⟨hgm, hga, hgd⟩ := hg
        subst hgm
        subst hga
        rw [splice5 ir idx _ hlen]
        have hd := window_decomp5 ir idx hlen
        nth_rewrite 1 [hd]
        rw [h0, h1, h2, h3, h4]
        rcases hgd with hdir | hdir
        · subst hdir
          rw [if_pos rfl]
          exact win_pres_anchorR (ir.take idx) (ir.drop (idx + 5))
        · subst hdir
          rw [if_neg (by norm_num)]
          exact win_pres_anchorL (ir.take idx) (ir.drop (idx + 5))
      · exact Pres_refl ir
    all_goals exact Pres_refl ir
  · exact Pres_refl ir

/-- The three-element window check `step3` preserves behavior. -/
theorem step3_pres (ir : List IR) (idx : Nat) : Pres ir (step3 ir idx) := by
  unfold step3
  split
  · rename_i hlen
    split
    · rename_i k h0 h1 h2
      rw [splice3 ir idx _ hlen]
      have hd := window_decomp3 ir idx hlen
      nth_rewrite 1 [hd]
      rw [h0, h1, h2]
      exact win_pres_zero (ir.take idx) (ir.drop (idx + 3)) k
    all_goals exact Pres_refl ir
  · exact Pres_refl ir

/-- The cursor loop of pass 2 preserves behavior. -/
theorem pass2Go_pres (ir : List IR) (idx : Nat) : Pres ir (pass2Go ir idx) := by
  induction ir, idx using pass2Go.induct with
  | case1 ir idx h ih =>
      rw [pass2Go, dif_pos h]
      refine Pres_trans ?_ ih
      exact Pres_trans (step6_pres ir idx) (Pres_trans (step5_pres (step6 ir idx) idx)
        (step3_pres (step5 (step6 ir idx) idx) idx))
  | case2 ir idx h =>
      rw [pass2Go, dif_neg h]
      exact Pres_refl ir

/-- Pass 2 preserves behavior. -/
theorem pass2_pres (ir : List IR) : Pres ir (optimize_pass_2 ir) := pass2Go_pres ir 0

/-- C1: semantic preservation under optimization.  For every source program
whose primitive (unoptimized) IR interpretation halts with output `o` and
final tape `t`, the IR produced by running pass 1 (`optimize_pass_1`) and
then pass 2 (`optimize_pass_2`) on the parsed IR also halts, with the same
output byte sequence and the same final tape. -/
theorem C1_semantic_preservation (code : List Char) (inp : List (Fin 256))
    (o : List Nat) (t : Nat → Nat) (h : Halts (compile code) inp o t) :
    Halts (optimize_pass_2 (optimize_pass_1 (compile code))) inp o t :=
  Pres_trans (pass1_pres (compile code)) (pass2_pres (optimize_pass_1 (compile code))) inp o t h

theorem C1_semantic_preservation_witness :
    Halts (optimize_pass_2 (optimize_pass_1 (compile []))) [] [] (fun _ => 0) :=
  C1_semantic_preservation [] [] [] (fun _ => 0) ⟨0, initConfig [], rfl, rfl, rfl⟩

end Boyfriend
